import Mathlib

/-!
Verification of the template marker protocol and draft round-trip engine of
the `mrm_deepagent` package.  Python strings are embedded as `List Char`;
each Python function used by the claims is translated into a computable
Lean definition that mirrors the source line by line.  Regular expressions
are unfolded into explicit scanning functions with the same leftmost-match
semantics.  Functions that consume input non-structurally carry an explicit
fuel argument (always called with fuel ≥ input length) so that every
definition reduces by kernel computation.
-/

namespace MRM

/-- Python strings, embedded as lists of characters. -/
abbrev Str := List Char

/-- Coerce a Lean string literal to the embedding. -/
def str (s : String) : Str := s.data

/-- Python's `\s` / `str.strip()` whitespace class. -/
def pySpace (c : Char) : Bool :=
  c = ' ' || c = '\t' || c = '\n' || c = '\r' || c = '\x0b' || c = '\x0c'

/-- `str.lstrip()` with the default whitespace class. -/
def lstripWS (s : Str) : Str := s.dropWhile pySpace

/-- `str.rstrip()` with the default whitespace class. -/
def rstripWS (s : Str) : Str := (s.reverse.dropWhile pySpace).reverse

/-- `str.strip()` with the default whitespace class. -/
def stripWS (s : Str) : Str := rstripWS (lstripWS s)

/-- `str.lstrip(chars)` for an explicit character set. -/
def lstripChars (cs : List Char) (s : Str) : Str := s.dropWhile (fun c => c ∈ cs)

/-- `str.strip(chars)` for an explicit character set. -/
def stripChars (cs : List Char) (s : Str) : Str :=
  ((s.dropWhile (fun c => c ∈ cs)).reverse.dropWhile (fun c => c ∈ cs)).reverse

/-- ASCII lower-casing of one character, matching `str.lower()` on the
ASCII range (marker tags and ids in this code base are ASCII). -/
def lowerChar (c : Char) : Char :=
  if 'A' ≤ c ∧ c ≤ 'Z' then Char.ofNat (c.toNat + 32) else c

/-- `str.lower()`. -/
def lowerStr (s : Str) : Str := s.map lowerChar

/-- Leftmost occurrence of `pat` in `s` (`re.search` for a literal /
Python `in`): returns the start index of the first match. -/
def findSub : Str → Str → Option Nat
  | s@(_ :: rest), pat =>
    if pat.isPrefixOf s then some 0 else (findSub rest pat).map (· + 1)
  | [], pat => if pat = [] then some 0 else none

/-- Python `pat in s`. -/
def containsSub (s pat : Str) : Bool := (findSub s pat).isSome

/-- `str.replace(pat, rep)`: leftmost non-overlapping replacement.  The
fuel argument makes the recursion structural; callers pass `s.length + 1`. -/
def replaceAllAux (pat rep : Str) : Nat → Str → Str
  | 0, s => s
  | _ + 1, [] => []
  | fuel + 1, s@(c :: rest) =>
    if pat ≠ [] ∧ pat.isPrefixOf s then rep ++ replaceAllAux pat rep fuel (s.drop pat.length)
    else c :: replaceAllAux pat rep fuel rest

/-- `str.replace(pat, rep)`. -/
def replaceAll (s pat rep : Str) : Str := replaceAllAux pat rep (s.length + 1) s

/-- Split into lines at `'\n'` (the separator `re.MULTILINE` uses),
returning each line with the offset of its first character.  A trailing
newline yields a final empty line, exactly as `^` can match at end of
input. -/
def splitLinesAux (pos : Nat) (cur : Str) : Str → List (Nat × Str)
  | [] => [(pos, cur.reverse)]
  | '\n' :: rest =>
    (pos, cur.reverse) :: splitLinesAux (pos + cur.length + 1) [] rest
  | c :: rest => splitLinesAux pos (c :: cur) rest

/-- All lines of `s` with their start offsets. -/
def splitLinesPos (s : Str) : List (Nat × Str) := splitLinesAux 0 [] s

/-- Python slice `s[a:b]`. -/
def slice (s : Str) (a b : Nat) : Str := (s.take b).drop a

/-! ## `models.py`: enumerations -/

/-- `SectionType` from `models.py`. -/
inductive SectionType where
  | fill | skip | validator
deriving DecidableEq, Repr

/-- `DraftStatus` from `models.py`. -/
inductive DraftStatus where
  | Complete | Partial
deriving DecidableEq, Repr

/-! ## `marker_utils.py` -/

/-- Characters admitted by the id character class `[A-Za-z0-9_-]`. -/
def isIdChar (c : Char) : Bool := c.isAlpha || c.isDigit || c = '_' || c = '-'

/-- `_SECTION_TYPE_RE.search`: leftmost case-insensitive occurrence of
`[FILL]`, `[SKIP]` or `[VALIDATOR]`. -/
def extractSectionType : Str → Option SectionType
  | [] => none
  | s@(_ :: rest) =>
    if lowerStr (s.take 6) = str "[fill]" then some .fill
    else if lowerStr (s.take 6) = str "[skip]" then some .skip
    else if lowerStr (s.take 11) = str "[validator]" then some .validator
    else extractSectionType rest

/-- `_extract_section_type`: falls back to `fill` when the format policy
treats untagged headings as fillable. -/
def extractSectionTypeWithFallback (text : Str) (fallbackFill : Bool) : Option SectionType :=
  match extractSectionType text with
  | some t => some t
  | none => if fallbackFill then some .fill else none

/-- `_SECTION_ID_RE.search` followed by `.strip().lower()`: the leftmost
`[ID:<run of id chars>]` (case-insensitive on the `ID` letters), returning
the lower-cased id. -/
def extractId : Str → Option Str
  | [] => none
  | s@(_ :: rest) =>
    if lowerStr (s.take 4) = str "[id:" then
      let run := (s.drop 4).takeWhile isIdChar
      if run ≠ [] ∧ ((s.drop 4).drop run.length).take 1 = [']'] then
        some (lowerStr run)
      else extractId rest
    else extractId rest

/-- `_BRACKET_TOKEN_RE.sub("", ·)`: remove every leftmost non-overlapping
`\[[^\]]+\]` group.  `fuel ≥ s.length` makes the recursion structural. -/
def removeBracketsAux : Nat → Str → Str
  | 0, s => s
  | _ + 1, [] => []
  | fuel + 1, '[' :: rest =>
    let inner := rest.takeWhile (· ≠ ']')
    if inner ≠ [] ∧ inner.length < rest.length then
      removeBracketsAux fuel (rest.drop (inner.length + 1))
    else '[' :: removeBracketsAux fuel rest
  | fuel + 1, c :: rest => c :: removeBracketsAux fuel rest

/-- `_BRACKET_TOKEN_RE.sub("", s)`. -/
def removeBrackets (s : Str) : Str := removeBracketsAux (s.length + 1) s

/-- `_SPACE_RE.sub(" ", ·)`: collapse every whitespace run to one space.
The boolean remembers whether the previous character was whitespace. -/
def collapseWSAux : Bool → Str → Str
  | _, [] => []
  | prev, c :: rest =>
    if pySpace c then
      if prev then collapseWSAux true rest else ' ' :: collapseWSAux true rest
    else c :: collapseWSAux false rest

/-- `_SPACE_RE.sub(" ", s)`. -/
def collapseWS (s : Str) : Str := collapseWSAux false s

/-- `_clean_title`: strip bracketed tokens, normalise whitespace, trim
`" -:\t"`, and fall back to a constant placeholder. -/
def cleanTitle (text : Str) : Str :=
  let cleaned := stripChars [' ', '-', ':', '\t'] (collapseWS (removeBrackets text))
  if cleaned = [] then str "Untitled Section" else cleaned

/-- Characters kept verbatim by `_SLUG_RE` (`[^a-z0-9]` is replaced). -/
def isSlugChar (c : Char) : Bool := ('a' ≤ c && c ≤ 'z') || c.isDigit

/-- `_SLUG_RE.sub("_", ·)`: replace every run of non-`[a-z0-9]` characters
with one underscore. -/
def slugReAux : Bool → Str → Str
  | _, [] => []
  | prev, c :: rest =>
    if isSlugChar c then c :: slugReAux false rest
    else if prev then slugReAux true rest
    else '_' :: slugReAux true rest

/-- `_slugify`: lower-case, replace non-alphanumeric runs, strip
underscores, strip leading digits and underscores, fall back to
`"section"`. -/
def slugify (text : Str) : Str :=
  let normalized := stripWS (lowerStr text)
  let slug := stripChars ['_'] (slugReAux false normalized)
  let slug := lstripChars ['0', '1', '2', '3', '4', '5', '6', '7', '8', '9', '_'] slug
  if slug = [] then str "section" else slug

/-- Decimal digit character. -/
def digitChar (d : Nat) : Char := Char.ofNat (48 + d)

/-- Decimal rendering of a natural number (`f"{n}"`); fuel-structural. -/
def natStrAux : Nat → Nat → Str
  | 0, _ => []
  | fuel + 1, n =>
    if n < 10 then [digitChar n]
    else natStrAux fuel (n / 10) ++ [digitChar (n % 10)]

/-- Decimal rendering of a natural number. -/
def natStr (n : Nat) : Str := natStrAux (n + 1) n

/-- The candidate `f"{section_id}_{suffix}"` tried by `_dedupe_id`. -/
def suffixCandidate (sectionId : Str) (suffix : Nat) : Str :=
  sectionId ++ '_' :: natStr suffix

/-- The `while` loop of `_dedupe_id`: try suffixes `2, 3, …` until the
candidate is unused.  `fuel = used.length + 1` always suffices. -/
def dedupeFrom (sectionId : Str) (used : List Str) : Nat → Nat → Str
  | suffix, 0 => suffixCandidate sectionId suffix
  | suffix, fuel + 1 =>
    if suffixCandidate sectionId suffix ∈ used then
      dedupeFrom sectionId used (suffix + 1) fuel
    else suffixCandidate sectionId suffix

/-- `_dedupe_id`. -/
def dedupeId (sectionId : Str) (used : List Str) : Str :=
  if sectionId ∈ used then dedupeFrom sectionId used 2 (used.length + 1)
  else sectionId

/-- The `used_ids.add` of a Python set, modelled on a membership list. -/
def usedAdd (id : Str) (used : List Str) : List Str :=
  if id ∈ used then used else id :: used

/-- Result triple of `parse_heading_marker`. -/
structure MarkerResult where
  sectionType : SectionType
  id : Str
  title : Str
deriving DecidableEq, Repr

/-- `parse_heading_marker`: the mutable `used_ids` set is threaded
explicitly, so the function returns the updated set alongside the
optional marker triple. -/
def parseHeadingMarker (headingText : Str) (fallbackFill : Bool) (used : List Str) :
    Option MarkerResult × List Str :=
  let raw := stripWS headingText
  if raw = [] then (none, used)
  else
    match extractSectionTypeWithFallback raw fallbackFill with
    | none => (none, used)
    | some sectionType =>
      let clean := cleanTitle raw
      let sectionId :=
        match extractId raw with
        | some explicitId => explicitId
        | none => dedupeId (slugify clean) used
      (some ⟨sectionType, sectionId, clean⟩, usedAdd sectionId used)

/-! ## `template_parser_markdown.py` and the validators -/

/-- `TemplateSection` from `models.py` (the fields the core uses). -/
structure TemplateSection where
  id : Str
  title : Str
  sectionType : SectionType
  markerText : Str
  headingIndex : Nat
  bodyText : Str
  checkboxTokens : List Str
deriving DecidableEq, Repr

/-- `ParsedTemplate` from `models.py` (the fields validation uses). -/
structure ParsedTemplate where
  sections : List TemplateSection
  parserErrors : List Str
deriving DecidableEq, Repr

/-- `_CHECKBOX_RE.findall`: every non-overlapping `[[CHECK:<name>]]`
match, in order.  Fuel-structural; callers pass `s.length + 1`. -/
def findCheckboxNamesAux : Nat → Str → List Str
  | 0, _ => []
  | _ + 1, [] => []
  | fuel + 1, s@(_ :: rest) =>
    if (str "[[CHECK:").isPrefixOf s then
      let run := (s.drop 8).takeWhile isIdChar
      if run ≠ [] ∧ ((s.drop 8).drop run.length).take 2 = [']', ']'] then
        run :: findCheckboxNamesAux fuel (s.drop (8 + run.length + 2))
      else findCheckboxNamesAux fuel rest
    else findCheckboxNamesAux fuel rest

/-- `list(dict.fromkeys(...))`: deduplicate keeping first occurrences. -/
def dedupFirst : List Str → List Str
  | [] => []
  | x :: rest => x :: (dedupFirst rest).filter (· ≠ x)

/-- `extract_checkbox_tokens` (identical in both parser modules). -/
def extractCheckboxTokens (text : Str) : List Str :=
  dedupFirst (findCheckboxNamesAux (text.length + 1) text)

/-- Index of the last occurrence of `c` in `s`. -/
def lastIdxOf (c : Char) (s : Str) : Option Nat :=
  (findSub s.reverse [c]).map (fun i => s.length - 1 - i)

/-- The tail `\\s+(.+?)\\s*$` common to both `re.MULTILINE` patterns of
this code base, attempted at offset `wsStart`: the mandatory whitespace
run is taken greedily (what follows it is committed, so backtracking
cannot shorten it), so the lazy group starts at the first
non-whitespace character after the run and stops at the last
non-whitespace character of that line; `$` then absorbs the trailing
whitespace up to its last newline, or to the end of text when the
whitespace reaches it.  When the mandatory run itself reaches the end
of text, backtracking hands the run's last non-newline character (it
needs at least one whitespace character before it) to the lazy group.
Returns the end offset of the whole match and `group(2)`. -/
def lazyTailMatch (text : Str) (wsStart : Nat) : Option (Nat × Str) :=
  let run := (text.drop wsStart).takeWhile pySpace
  if run = [] then none
  else if wsStart + run.length = text.length then
    match (run.enum.filter (fun p => p.2 ≠ '\n')).getLast? with
    | some (i, c) => if 1 ≤ i then some (text.length, [c]) else none
    | none => none
  else
    let s := (text.drop wsStart).drop run.length
    let content := rstripWS (s.takeWhile (· ≠ '\n'))
    let c := wsStart + run.length + content.length
    let run2 := (text.drop c).takeWhile pySpace
    if c + run2.length = text.length then some (text.length, content)
    else
      match lastIdxOf '\n' run2 with
      | some k => some (c + k, content)
      | none => none

/-- One attempted match of `_HEADING_RE = ^(#{1,6})\\s+(.+?)\\s*$` at an
anchor offset `a`: a run of one to six `#` (a longer run fails, since
backtracking still leaves a `#` where `\\s+` must match), then the lazy
tail.  Returns the match end offset and `group(2)` stripped (both
consumers strip it immediately). -/
def headingMatchAt (text : Str) (a : Nat) : Option (Nat × Str) :=
  let hashes := (text.drop a).takeWhile (· = '#')
  if 1 ≤ hashes.length ∧ hashes.length ≤ 6 then
    (lazyTailMatch text (a + hashes.length)).map fun (e, g) => (e, stripWS g)
  else none

/-- `finditer` scanning for `_HEADING_RE`: try every `^` anchor (offset
0 and each offset right after a newline) left to right, resuming after
a match at its end offset. -/
def headingScanAux (text : Str) : Nat → Nat → List (Nat × Nat × Str)
  | 0, _ => []
  | fuel + 1, p =>
    if p ≤ text.length then
      if p = 0 ∨ text.get? (p - 1) = some '\n' then
        match headingMatchAt text p with
        | some (e, g) => (p, e, g) :: headingScanAux text fuel (max e (p + 1))
        | none => headingScanAux text fuel (p + 1)
      else headingScanAux text fuel (p + 1)
    else []

/-- `_HEADING_RE.finditer(text)`: start offset, end offset and stripped
`group(2)` of every match, in order. -/
def headingMatches (text : Str) : List (Nat × Nat × Str) :=
  headingScanAux text (text.length + 1) 0

/-- `[[SECTION_CONTENT]]` literal. -/
def sectionContentToken : Str := str "[[SECTION_CONTENT]]"

/-- The heading loop of `parse_markdown_template`: walks the heading
matches with the running `used_ids` set, producing sections.  `idx` is
the position in the match list, `textLen` bounds the final body. -/
def mdSectionsAux (text : Str) : Nat → List Str → List (Nat × Nat × Str) → List TemplateSection
  | _, _, [] => []
  | idx, used, (_, hEnd, headingText) :: rest =>
    let bodyEnd := match rest with
      | (nextStart, _, _) :: _ => nextStart
      | [] => text.length
    match parseHeadingMarker headingText false used with
    | (none, used') => mdSectionsAux text (idx + 1) used' rest
    | (some marker, used') =>
      let bodyText := stripWS (slice text hEnd bodyEnd)
      { id := marker.id
        title := marker.title
        sectionType := marker.sectionType
        markerText := headingText
        headingIndex := idx
        bodyText := bodyText
        checkboxTokens := extractCheckboxTokens bodyText } ::
        mdSectionsAux text (idx + 1) used' rest

/-- `parse_markdown_template` on the template text. -/
def parseMarkdownTemplate (text : Str) : ParsedTemplate :=
  { sections := mdSectionsAux text 0 [] (headingMatches text)
    parserErrors := [] }

/-- `validate_markdown_template` from `template_parser_markdown.py`. -/
def validateMarkdownTemplate (parsed : ParsedTemplate) : List Str :=
  let errors := parsed.parserErrors
  if parsed.sections = [] then
    errors ++ [str "No template sections found with markdown marker headings."]
  else
    let errors :=
      if parsed.sections.any (fun s => s.sectionType = .fill) then errors
      else errors ++ [str "Template must contain at least one fillable section."]
    errors ++ (parsed.sections.filterMap fun s =>
      if s.sectionType = .fill ∧ ¬ containsSub s.bodyText sectionContentToken then
        some (str "Fill section '" ++ s.id ++ str "' is missing required token [[SECTION_CONTENT]].")
      else none)

/-- The duplicate-id scan of `validate_template`, threading the `seen`
set: emits one error per section whose id was already seen. -/
def dupIdErrorsAux : List Str → List TemplateSection → List Str
  | _, [] => []
  | seen, s :: rest =>
    if s.id ∈ seen then
      (str "Duplicate section ID: " ++ s.id) :: dupIdErrorsAux (usedAdd s.id seen) rest
    else dupIdErrorsAux (usedAdd s.id seen) rest

/-- `validate_template` from `template_parser.py` (the generic validator
used by the CLI for both formats). -/
def validateTemplate (parsed : ParsedTemplate) : List Str :=
  let errors := parsed.parserErrors
  if parsed.sections = [] then
    errors ++ [str "No template sections found with marker tags or heading sections."]
  else
    let errors := errors ++ dupIdErrorsAux [] parsed.sections
    if parsed.sections.any (fun s => s.sectionType = .fill) then errors
    else errors ++ [str "Template must contain at least one fillable section."]

/-! ## `models.py`: draft data model -/

/-- `MissingItem` from `models.py`. -/
structure MissingItem where
  id : Str
  sectionId : Str
  question : Str
  userResponse : Str
deriving DecidableEq, Repr

/-- `CheckboxToken` from `models.py`. -/
structure CheckboxToken where
  name : Str
  checked : Bool
deriving DecidableEq, Repr

/-- `DraftSection` from `models.py`. -/
structure DraftSection where
  id : Str
  title : Str
  status : DraftStatus
  checkboxes : List CheckboxToken
  attachments : List Str
  evidence : List Str
  missingItems : List MissingItem
  body : Str
deriving DecidableEq, Repr

/-- `DraftDocument` from `models.py`. -/
structure DraftDocument where
  sections : List DraftSection
deriving DecidableEq, Repr

/-- The `ensure_evidence_or_missing` pydantic invariant. -/
def DraftSection.evidenceOrMissing (s : DraftSection) : Bool :=
  s.evidence ≠ [] || s.missingItems ≠ []

/-- Errors a draft parse can surface: `DraftParseError`, an uncaught
`yaml.YAMLError` from `safe_load`, or a pydantic `ValidationError` from
`DraftSection` construction. -/
inductive DraftErr where
  | draftParse (msg : Str)
  | yamlError
  | validationError (msg : Str)
deriving DecidableEq, Repr

/-- `DraftSection(...)` construction including the pydantic validator. -/
def mkDraftSection (id title : Str) (status : DraftStatus) (checkboxes : List CheckboxToken)
    (attachments evidence : List Str) (missingItems : List MissingItem) (body : Str) :
    Except DraftErr DraftSection :=
  let s : DraftSection :=
    { id := id, title := title, status := status, checkboxes := checkboxes,
      attachments := attachments, evidence := evidence, missingItems := missingItems,
      body := body }
  if s.evidenceOrMissing then .ok s
  else .error (.validationError
    (str "Section '" ++ id ++ str "' must include at least one evidence entry or missing item."))

/-! ## A YAML value universe for `yaml.safe_dump` / `yaml.safe_load`

The metadata block of the draft format is produced by `yaml.safe_dump`
and consumed by `yaml.safe_load`.  The embedding models the fragment of
YAML this codec actually exchanges: block mappings whose values are plain
scalars, flow-empty lists `[]`, and block sequences of plain scalars or
flat mappings.  Quoted scalars, numeric resolution and deeper nesting are
outside the modelled fragment; the round-trip theorems restrict scalars
to `plainScalar` strings, on which PyYAML emits exactly this shape. -/

/-- YAML/JSON-ish values (`yaml.safe_load` / `json.loads` results). -/
inductive YVal where
  | s (v : Str)
  | b (v : Bool)
  | null
  | list (items : List YVal)
  | map (entries : List (Str × YVal))
deriving Repr

/-- Python truthiness (`bool(x)`) on the value universe. -/
def pyTruthy : YVal → Bool
  | .s v => !v.isEmpty
  | .b v => v
  | .null => false
  | .list xs => !xs.isEmpty
  | .map es => !es.isEmpty

/-- Comma-join for Python reprs. -/
def joinComma (xs : List Str) : Str := List.intercalate (str ", ") xs

mutual

/-- Python `repr` of a value (string escape sequences are not
modelled). -/
def pyReprY : YVal → Str
  | .s v => '\'' :: v ++ ['\'']
  | .b true => str "True"
  | .b false => str "False"
  | .null => str "None"
  | .list xs => '[' :: joinComma (pyReprYL xs) ++ [']']
  | .map es => '{' :: joinComma (pyReprYP es) ++ ['}']

/-- `repr` of the elements of a list value. -/
def pyReprYL : List YVal → List Str
  | [] => []
  | x :: xs => pyReprY x :: pyReprYL xs

/-- `repr` of the entries of a mapping value. -/
def pyReprYP : List (Str × YVal) → List Str
  | [] => []
  | (k, x) :: xs => ('\'' :: k ++ str "': " ++ pyReprY x) :: pyReprYP xs

end

/-- Python `str(x)`: identity on strings, `repr`-style otherwise. -/
def pyStr (v : YVal) : Str :=
  match v with
  | .s w => w
  | .b true => str "True"
  | .b false => str "False"
  | .null => str "None"
  | v => pyReprY v

/-- Membership test `key in dict` for a loaded mapping. -/
def ymMem (entries : List (Str × YVal)) (key : Str) : Bool :=
  entries.any (fun e => e.1 = key)

/-- Lookup `dict[key]` / `dict.get(key)`: the *last* binding wins, as in
a Python dict built by repeated insertion. -/
def ymGet (entries : List (Str × YVal)) (key : Str) : Option YVal :=
  (entries.reverse.find? (fun e => e.1 = key)).map (·.2)

/-- `str.splitlines`-style decomposition (content only). -/
def linesOf (s : Str) : List Str := (splitLinesPos s).map Prod.snd

/-- Split a YAML line at the first `':'` that ends the line or is
followed by a space: returns the key and what follows the colon. -/
def splitAtColon : Str → Option (Str × Str)
  | [] => none
  | ':' :: rest =>
    if rest = [] ∨ rest.take 1 = [' '] then some ([], rest)
    else (splitAtColon rest).map (fun p => (':' :: p.1, p.2))
  | c :: rest => (splitAtColon rest).map (fun p => (c :: p.1, p.2))

/-- PyYAML's boolean/null/flow-empty resolution for plain scalars (the
numeric resolvers are outside the modelled fragment). -/
def parseScalarFlow (v : Str) : YVal :=
  if v = str "[]" then .list []
  else if v = str "{}" then .map []
  else if v ∈ [str "null", str "Null", str "NULL", str "~"] then .null
  else if v ∈ [str "true", str "True", str "TRUE", str "yes", str "Yes", str "YES",
               str "on", str "On", str "ON"] then .b true
  else if v ∈ [str "false", str "False", str "FALSE", str "no", str "No", str "NO",
               str "off", str "Off", str "OFF"] then .b false
  else .s v

mutual

/-- Parse consecutive `key: value` / `key:` + block-sequence lines of a
block mapping (fuel-structural over the remaining line count). -/
def yamlPairsAux : Nat → List Str → Option (List (Str × YVal))
  | _, [] => some []
  | 0, _ :: _ => none
  | fuel + 1, l :: rest =>
    if l.take 1 |>.all (fun c => ¬ pySpace c) then
      match splitAtColon l with
      | none => none
      | some (key, after) =>
        if key = [] then none
        else
          let v := stripWS after
          if v ≠ [] then
            (yamlPairsAux fuel rest).map (fun tl => (key, parseScalarFlow v) :: tl)
          else
            let block := rest.takeWhile
              (fun x => (str "- ").isPrefixOf x ∨ (str "  ").isPrefixOf x ∨ x = str "-")
            if block = [] then
              (yamlPairsAux fuel rest).map (fun tl => (key, YVal.null) :: tl)
            else
              match yamlItemsAux fuel block with
              | none => none
              | some items =>
                (yamlPairsAux fuel (rest.drop block.length)).map
                  (fun tl => (key, YVal.list items) :: tl)
    else none

/-- Parse the `- item` lines of a block sequence, each item optionally
followed by two-space-indented continuation lines forming a mapping. -/
def yamlItemsAux : Nat → List Str → Option (List YVal)
  | _, [] => some []
  | 0, _ :: _ => none
  | fuel + 1, l :: rest =>
    if (str "- ").isPrefixOf l ∨ l = str "-" then
      let first := stripWS (l.drop 1)
      let conts := rest.takeWhile (fun x => (str "  ").isPrefixOf x)
      let contsBody := conts.map (fun x => x.drop 2)
      let item : Option YVal :=
        if first = [] then
          if conts = [] then some .null else (yamlPairsAux fuel contsBody).map .map
        else
          match splitAtColon first with
          | some _ => (yamlPairsAux fuel (first :: contsBody)).map .map
          | none => if conts = [] then some (parseScalarFlow first) else none
      match item with
      | none => none
      | some v =>
        (yamlItemsAux fuel (rest.drop conts.length)).map (fun tl => v :: tl)
    else none

end

/-- `yaml.safe_load` on the modelled fragment.  `none` stands for a
`yaml.YAMLError` (or for input outside the fragment). -/
def loadYaml (text : Str) : Option YVal :=
  let ls := (linesOf text).filter (fun l => stripWS l ≠ [])
  match ls with
  | [] => some .null
  | l :: _ =>
    if (str "- ").isPrefixOf l ∨ l = str "-" then
      (yamlItemsAux (ls.length + 1) ls).map .list
    else
      match splitAtColon l with
      | some _ => (yamlPairsAux (ls.length + 1) ls).map .map
      | none =>
        match ls with
        | [only] => some (parseScalarFlow (stripWS only))
        | _ => none

/-! ## `draft_parser.py` -/

/-- One attempted match of
`_SECTION_HEADER_RE = ^##\\s+\\[ID:([A-Za-z0-9_-]+)\\]\\s+(.+?)\\s*$` at an
anchor offset `a`: the literal `##`, a mandatory whitespace run (taken
greedily: a literal follows), the bracketed id, then the lazy tail.
Returns the match end, `group(1)` and `group(2)` stripped (the parser
strips it immediately). -/
def draftHeaderMatchAt (text : Str) (a : Nat) : Option (Nat × Str × Str) :=
  let rest := text.drop a
  if rest.take 2 = str "##" then
    let ws1 := (rest.drop 2).takeWhile pySpace
    if ws1 = [] then none
    else
      let afterWs := (rest.drop 2).drop ws1.length
      if afterWs.take 4 = str "[ID:" then
        let idRun := (afterWs.drop 4).takeWhile isIdChar
        if idRun ≠ [] ∧ ((afterWs.drop 4).drop idRun.length).take 1 = [']'] then
          (lazyTailMatch text (a + 2 + ws1.length + 4 + idRun.length + 1)).map
            fun (e, g) => (e, idRun, stripWS g)
        else none
      else none
  else none

/-- `finditer` scanning for `_SECTION_HEADER_RE` (anchor positions as
for `headingScanAux`). -/
def draftHeaderScanAux (text : Str) : Nat → Nat → List (Nat × Str × Str)
  | 0, _ => []
  | fuel + 1, p =>
    if p ≤ text.length then
      if p = 0 ∨ text.get? (p - 1) = some '\n' then
        match draftHeaderMatchAt text p with
        | some (e, id, g) => (p, id, g) :: draftHeaderScanAux text fuel (max e (p + 1))
        | none => draftHeaderScanAux text fuel (p + 1)
      else draftHeaderScanAux text fuel (p + 1)
    else []

/-- `_SECTION_HEADER_RE.finditer(text)`: start offset, `group(1)` id and
stripped `group(2)` title of every match, in order. -/
def draftHeaderMatches (text : Str) : List (Nat × Str × Str) :=
  draftHeaderScanAux text (text.length + 1) 0

/-- `_YAML_RE.search` (`` ```yaml\\s*\\n(.*?)\\n``` `` with `re.DOTALL`):
after the tag, `\\s*\\n` greedily ends at the last newline of the
whitespace run and the lazy group stops at the first `` \\n``` ``; when
that search fails, `\\s*` backtracks to an earlier newline — a new
occurrence can only start at the run's final newline, right before a
backquote fence that directly follows the run.  Returns the end offset
of the whole match and the `group(1)` text. -/
def yamlFindAux : Str → Nat → Option (Nat × Str)
  | [], _ => none
  | s@(_ :: rest), pos =>
    if (str "```yaml").isPrefixOf s then
      let afterTag := s.drop 7
      let wsRun := afterTag.takeWhile pySpace
      match lastIdxOf '\n' wsRun with
      | none => yamlFindAux rest (pos + 1)
      | some k =>
        let remainder := afterTag.drop (k + 1)
        match findSub remainder (str "\n```") with
        | some j => some (pos + 7 + k + 1 + j + 4, remainder.take j)
        | none =>
          if k = wsRun.length - 1 ∧ (str "```").isPrefixOf (afterTag.drop wsRun.length) then
            match lastIdxOf '\n' (wsRun.take k) with
            | some k2 => some (pos + 7 + k + 4, slice afterTag (k2 + 1) k)
            | none => yamlFindAux rest (pos + 1)
          else yamlFindAux rest (pos + 1)
    else yamlFindAux rest (pos + 1)

/-- Leftmost `_YAML_RE` match in a chunk. -/
def yamlFind (chunk : Str) : Option (Nat × Str) := yamlFindAux chunk 0

/-- Effectful map over a list in the `Except` monad, mirroring a Python
`for` loop that may raise (the first failure aborts). -/
def exceptMapM (f : α → Except ε β) : List α → Except ε (List β)
  | [] => .ok []
  | a :: rest => do
    let b ← f a
    let bs ← exceptMapM f rest
    .ok (b :: bs)

/-- `_parse_checkboxes` from `draft_parser.py` (the strict variant that
raises on malformed entries). -/
def parseCheckboxesStrict (raw : YVal) (sectionId : Str) : Except DraftErr (List CheckboxToken) :=
  match raw with
  | .list entries =>
    exceptMapM (fun entry =>
      match entry with
      | .map fields =>
        if ymMem fields (str "name") then
          match ymGet fields (str "name") with
          | some nameVal =>
            .ok { name := pyStr nameVal
                  checked := pyTruthy ((ymGet fields (str "checked")).getD (.b false)) }
          | none => .error (.draftParse (str "Section '" ++ sectionId ++
              str "' checkbox entries must be mappings with key 'name'."))
        else .error (.draftParse (str "Section '" ++ sectionId ++
          str "' checkbox entries must be mappings with key 'name'."))
      | _ => .error (.draftParse (str "Section '" ++ sectionId ++
          str "' checkbox entries must be mappings with key 'name'."))) entries
  | _ => .error (.draftParse (str "Section '" ++ sectionId ++ str "' field 'checkboxes' must be a list."))

/-- `_parse_str_list` from `draft_parser.py`. -/
def parseStrList (raw : YVal) (sectionId field : Str) : Except DraftErr (List Str) :=
  match raw with
  | .list entries =>
    if entries.all (fun e => match e with | .s _ => true | _ => false) then
      .ok (entries.filterMap fun e => match e with | .s v => some v | _ => none)
    else .error (.draftParse (str "Section '" ++ sectionId ++ str "' field '" ++ field ++
      str "' must be a list of strings."))
  | _ => .error (.draftParse (str "Section '" ++ sectionId ++ str "' field '" ++ field ++
      str "' must be a list of strings."))

/-- `_parse_missing_items` from `draft_parser.py` (the strict variant). -/
def parseMissingItemsStrict (raw : YVal) (sectionId : Str) : Except DraftErr (List MissingItem) :=
  match raw with
  | .list entries =>
    exceptMapM (fun entry =>
      match entry with
      | .map fields =>
        if ymMem fields (str "id") ∧ ymMem fields (str "question") then
          .ok { id := pyStr ((ymGet fields (str "id")).getD .null)
                sectionId :=
                  match ymGet fields (str "section_id") with
                  | some v => if pyTruthy v then pyStr v else sectionId
                  | none => sectionId
                question := pyStr ((ymGet fields (str "question")).getD .null)
                userResponse :=
                  match ymGet fields (str "user_response") with
                  | some v => pyStr v
                  | none => [] }
        else .error (.draftParse (str "Section '" ++ sectionId ++
          str "' missing_item entries must contain 'id' and 'question'."))
      | _ => .error (.draftParse (str "Section '" ++ sectionId ++
          str "' missing_item entries must contain 'id' and 'question'."))) entries
  | _ => .error (.draftParse (str "Section '" ++ sectionId ++
      str "' field 'missing_items' must be a list."))

/-- Parsed metadata record returned by `_parse_metadata`. -/
structure Metadata where
  status : DraftStatus
  checkboxes : List CheckboxToken
  attachments : List Str
  evidence : List Str
  missingItems : List MissingItem
deriving DecidableEq, Repr

/-- The status vocabulary of `_parse_metadata`: `complete` and `partial`
are the only accepted scalar values. -/
def statusOf : YVal → Option DraftStatus
  | .s v =>
    if v = str "complete" then some .Complete
    else if v = str "partial" then some .Partial
    else none
  | _ => none

/-- `_parse_metadata`: load the YAML text and enforce the metadata
contract (mapping shape, the five required keys, the status vocabulary,
and per-field well-formedness, in source order). -/
def parseMetadata (yamlText : Str) (sectionId : Str) : Except DraftErr Metadata :=
  match loadYaml yamlText with
  | none => .error .yamlError
  | some raw =>
    match raw with
    | .map fields =>
      let required := [str "status", str "checkboxes", str "attachments",
        str "evidence", str "missing_items"]
      let missing := required.filter (fun k => ¬ ymMem fields k)
      if missing ≠ [] then
        .error (.draftParse (str "Section '" ++ sectionId ++ str "' missing metadata keys: " ++
          joinComma missing ++ str "."))
      else
        match statusOf ((ymGet fields (str "status")).getD .null) with
        | none => .error (.draftParse (str "Section '" ++ sectionId ++
            str "' has invalid status. Expected 'complete' or 'partial'."))
        | some status => do
          let checkboxes ← parseCheckboxesStrict ((ymGet fields (str "checkboxes")).getD .null) sectionId
          let attachments ← parseStrList ((ymGet fields (str "attachments")).getD .null) sectionId (str "attachments")
          let evidence ← parseStrList ((ymGet fields (str "evidence")).getD .null) sectionId (str "evidence")
          let missingItems ← parseMissingItemsStrict ((ymGet fields (str "missing_items")).getD .null) sectionId
          .ok { status := status, checkboxes := checkboxes, attachments := attachments,
                evidence := evidence, missingItems := missingItems }
    | _ => .error (.draftParse (str "Section '" ++ sectionId ++ str "' metadata must be a YAML mapping."))

/-- One iteration of the section loop of `parse_draft_text`: `chunk` is
`text[header.start() : next header.start() or len(text)]`. -/
def parseDraftChunk (chunk : Str) (sectionId title : Str) : Except DraftErr DraftSection :=
  match yamlFind chunk with
  | none => .error (.draftParse (str "Section '" ++ sectionId ++
      str "' is missing required YAML code block."))
  | some (yEnd, yText) => do
    let md ← parseMetadata yText sectionId
    let body := stripWS (chunk.drop yEnd)
    mkDraftSection sectionId title md.status md.checkboxes md.attachments md.evidence
      md.missingItems body

/-- The chunk list of `parse_draft_text`: for each header, the slice
`text[header.start() : next header.start() or len(text)]` with the
header's id and title. -/
def draftChunkList (text : Str) : List (Nat × Str × Str) → List (Str × Str × Str)
  | [] => []
  | (start, id, title) :: rest =>
    let stop := match rest with
      | (nextStart, _, _) :: _ => nextStart
      | [] => text.length
    (slice text start stop, id, title) :: draftChunkList text rest

/-- The chunking loop of `parse_draft_text`. -/
def draftChunksAux (text : Str) (hs : List (Nat × Str × Str)) : Except DraftErr (List DraftSection) :=
  exceptMapM (fun (p : Str × Str × Str) => parseDraftChunk p.1 p.2.1 p.2.2) (draftChunkList text hs)

/-- `parse_draft_text`. -/
def parseDraftText (text : Str) : Except DraftErr DraftDocument :=
  let headers := draftHeaderMatches text
  if headers = [] then
    .error (.draftParse (str "No section headings found. Expected '## [ID:<section_id>] <title>'."))
  else
    (draftChunksAux text headers).map (fun sections => { sections := sections })

/-- YAML rendering of a boolean, as `safe_dump` emits it. -/
def boolStr : Bool → Str
  | true => str "true"
  | false => str "false"

/-- The lines `yaml.safe_dump(metadata, sort_keys=False)` produces for
the serializer's metadata dictionary (block style, indentless sequences,
plain scalars; faithful for `plainScalar` strings). -/
def dumpMetaLines (s : DraftSection) : List Str :=
  ((str "status: " ++ (match s.status with | .Complete => str "complete" | .Partial => str "partial")) ::
    (if s.checkboxes = [] then [str "checkboxes: []"]
     else str "checkboxes:" :: s.checkboxes.flatMap fun c =>
       [str "- name: " ++ c.name, str "  checked: " ++ boolStr c.checked])) ++
  (if s.attachments = [] then [str "attachments: []"]
   else str "attachments:" :: s.attachments.map (str "- " ++ ·)) ++
  (if s.evidence = [] then [str "evidence: []"]
   else str "evidence:" :: s.evidence.map (str "- " ++ ·)) ++
  (if s.missingItems = [] then [str "missing_items: []"]
   else str "missing_items:" :: s.missingItems.flatMap fun m =>
     [str "- id: " ++ m.id, str "  question: " ++ m.question, str "  section_id: " ++ m.sectionId])

/-- Join lines with newlines. -/
def joinNL (lines : List Str) : Str := List.intercalate ['\n'] lines

/-- `serialize_draft_markdown`.  Note that the serialized metadata
mapping carries only `id`, `question` and `section_id` for each missing
item: `user_response` is not emitted. -/
def serializeDraftMarkdown (d : DraftDocument) : Str :=
  let blocks := d.sections.flatMap fun s =>
    [str "## [ID:" ++ s.id ++ str "] " ++ s.title,
     str "```yaml",
     joinNL (dumpMetaLines s),
     str "```",
     [],
     stripWS s.body,
     []]
  rstripWS (joinNL blocks) ++ ['\n']

/-- The header line the serializer emits for a section. -/
def secHeader (s : DraftSection) : Str :=
  str "## [ID:" ++ s.id ++ str "] " ++ s.title

/-- The metadata text the serializer emits for a section. -/
def metaText (s : DraftSection) : Str := joinNL (dumpMetaLines s)

/-- The text a non-final section contributes to the serialization (its
lines joined, plus the separating newline before the next header). -/
def secTextMid (s : DraftSection) : Str :=
  secHeader s ++ str "\n```yaml\n" ++ metaText s ++ str "\n```\n\n" ++
    stripWS s.body ++ str "\n\n"

/-- The text the final section contributes after the serializer's
trailing `rstrip` and newline. -/
def secTextLast (s : DraftSection) : Str :=
  secHeader s ++ str "\n```yaml\n" ++ metaText s ++ str "\n```" ++
    (if stripWS s.body = [] then str "\n"
     else str "\n\n" ++ stripWS s.body ++ str "\n")

/-- The whole serialized text, section by section. -/
def secsText : List DraftSection → Str
  | [] => []
  | [s] => secTextLast s
  | s :: rest => secTextMid s ++ secsText rest

/-- The header matches the serializer's output induces: each section's
header starts where the previous section's text ended. -/
def secPositions : Nat → List DraftSection → List (Nat × Str × Str)
  | _, [] => []
  | base, s :: rest => (base, s.id, s.title) :: secPositions (base + (secTextMid s).length) rest

/-! ## `context_manager.py`: `merge_missing_items` -/

/-- The dictionary key `(item.id, item.section_id)`. -/
def itemKey (m : MissingItem) : Str × Str := (m.id, m.sectionId)

/-- Insertion into a Python dict modelled as an ordered association
list: overwriting an existing key keeps its position, a fresh key is
appended. -/
def dictUpdate : List MissingItem → MissingItem → List MissingItem
  | [], m => [m]
  | x :: rest, m => if itemKey x = itemKey m then m :: rest else x :: dictUpdate rest m

/-- One iteration of the `for item in new` loop of
`merge_missing_items`. -/
def mergeStep (acc : List MissingItem) (item : MissingItem) : List MissingItem :=
  match acc.find? (fun x => itemKey x = itemKey item) with
  | some preserved =>
    if preserved.userResponse ≠ [] then
      dictUpdate acc { item with userResponse := preserved.userResponse }
    else dictUpdate acc item
  | none => dictUpdate acc item

/-- Python string `<` (lexicographic by code point). -/
def strLt : Str → Str → Bool
  | [], [] => false
  | [], _ :: _ => true
  | _ :: _, [] => false
  | a :: as', b :: bs => if a < b then true else if b < a then false else strLt as' bs

/-- The `sorted` key comparison `(section_id, id) ≤ (section_id, id)`. -/
def keyLe (m n : MissingItem) : Prop :=
  strLt m.sectionId n.sectionId = true ∨
    (m.sectionId = n.sectionId ∧ (strLt m.id n.id = true ∨ m.id = n.id))

instance : DecidableRel keyLe := fun m n => by unfold keyLe; infer_instance

/-- `merge_missing_items`. -/
def mergeMissingItems (existing new : List MissingItem) : List MissingItem :=
  let merged := new.foldl mergeStep (existing.foldl dictUpdate [])
  merged.insertionSort keyLe

/-! ## `draft_generator.py`

`generate_draft` drives one external call per Fill section.  The
runtime invocation (`invoke_with_retry`) together with
`_parse_response_payload` (the JSON extraction, whose fallback is the
empty dict) is abstracted as an oracle from the section's position to
either the parsed payload dictionary or the message of the exception
that escaped; the surrounding `try` of `generate_draft` catches exactly
the failures this oracle's `error` case stands for. -/

/-- `_coerce_str_list`. -/
def coerceStrList (raw : YVal) : List Str :=
  match raw with
  | .list xs => (xs.map pyStr).filter (fun s => stripWS s ≠ [])
  | _ => []

/-- `_parse_checkboxes` from `draft_generator.py` (the tolerant variant
that skips malformed entries). -/
def parseCheckboxesLoose (raw : YVal) : List CheckboxToken :=
  match raw with
  | .list xs =>
    xs.filterMap fun entry =>
      match entry with
      | .map fields =>
        if ymMem fields (str "name") then
          some { name := pyStr ((ymGet fields (str "name")).getD .null)
                 checked := pyTruthy ((ymGet fields (str "checked")).getD (.b false)) }
        else none
      | _ => none
  | _ => []

/-- `_parse_missing_items` from `draft_generator.py` (tolerant variant;
note it always stamps the orchestrator's section id). -/
def parseMissingItemsLoose (raw : YVal) (sectionId : Str) : List MissingItem :=
  match raw with
  | .list xs =>
    xs.filterMap fun entry =>
      match entry with
      | .map fields =>
        if ymMem fields (str "id") ∧ ymMem fields (str "question") then
          some { id := pyStr ((ymGet fields (str "id")).getD .null)
                 sectionId := sectionId
                 question := pyStr ((ymGet fields (str "question")).getD .null)
                 userResponse :=
                   match ymGet fields (str "user_response") with
                   | some v => pyStr v
                   | none => [] }
        else none
      | _ => none
  | _ => []

/-- `_response_to_draft_section`, taking the already-extracted payload
dictionary. -/
def responseToDraftSection (payload : List (Str × YVal)) (sectionId title : Str) : DraftSection :=
  let body0 := stripWS (pyStr ((ymGet payload (str "body")).getD (.s [])))
  let body :=
    if body0 = [] then str "Information could not be generated from repository evidence."
    else body0
  let checkboxes := parseCheckboxesLoose ((ymGet payload (str "checkboxes")).getD (.list []))
  let attachments := coerceStrList ((ymGet payload (str "attachments")).getD (.list []))
  let evidence := coerceStrList ((ymGet payload (str "evidence")).getD (.list []))
  let missing0 := parseMissingItemsLoose ((ymGet payload (str "missing_items")).getD (.list [])) sectionId
  let missingItems :=
    if evidence = [] ∧ missing0 = [] then
      [{ id := sectionId ++ str "_missing_info"
         sectionId := sectionId
         question := str "Required information was not provided by the codebase."
         userResponse := [] }]
    else missing0
  let status := if missingItems ≠ [] then DraftStatus.Partial else DraftStatus.Complete
  { id := sectionId, title := title, status := status, checkboxes := checkboxes,
    attachments := attachments, evidence := evidence, missingItems := missingItems, body := body }

/-- The partial stub `generate_draft` emits when the per-section `try`
catches an exception with message `msg`. -/
def agentErrorStub (sec : TemplateSection) (msg : Str) : DraftSection :=
  { id := sec.id
    title := sec.title
    status := .Partial
    checkboxes := []
    attachments := []
    evidence := []
    missingItems := [{ id := sec.id ++ str "_agent_error"
                       sectionId := sec.id
                       question := str "Agent failed to generate this section: " ++ msg
                       userResponse := [] }]
    body := str "Section could not be generated due to an agent error." }

/-- The section loop of `generate_draft` over the fill sections, with
the oracle keyed by loop position. -/
def generateSectionsAux (oracle : Nat → Except Str (List (Str × YVal))) :
    Nat → List TemplateSection → List DraftSection
  | _, [] => []
  | i, sec :: rest =>
    (match oracle i with
     | .ok payload => responseToDraftSection payload sec.id sec.title
     | .error msg => agentErrorStub sec msg) :: generateSectionsAux oracle (i + 1) rest

/-- `generate_draft`. -/
def generateDraft (template : ParsedTemplate)
    (oracle : Nat → Except Str (List (Str × YVal))) : DraftDocument :=
  ⟨generateSectionsAux oracle 0 (template.sections.filter (fun s => s.sectionType = .fill))⟩

/-! ## `markdown_applier.py` -/

/-- The errors an apply call can raise. -/
inductive ApplyErr where
  | alreadyApplied
  | unsupportedTemplate (msg : Str)
deriving DecidableEq, Repr

/-- `_APPLIED_MARKER` of the markdown applier. -/
def appliedMarkerMd : Str := str "<!-- MRM_AGENT_APPLIED -->"

/-- `_SectionRange` of the markdown applier.  `headingStart` records
`match.start()` of the heading (the source keeps it implicitly in the
enclosing loop); it delimits the marker text for the preservation
statements. -/
structure SectionRange where
  sectionType : SectionType
  sectionId : Str
  headingStart : Nat
  bodyStart : Nat
  bodyEnd : Nat
deriving DecidableEq, Repr

/-- The loop of `_collect_section_ranges`, threading `used_ids` over the
full heading-match list (unparsed headings still bound ranges). -/
def mdRangesAux (text : Str) : List Str → List (Nat × Nat × Str) → List SectionRange
  | _, [] => []
  | used, (hStart, hEnd, headingText) :: rest =>
    let bodyEnd := match rest with
      | (nextStart, _, _) :: _ => nextStart
      | [] => text.length
    match parseHeadingMarker headingText false used with
    | (none, used') => mdRangesAux text used' rest
    | (some marker, used') =>
      { sectionType := marker.sectionType, sectionId := marker.id,
        headingStart := hStart, bodyStart := hEnd, bodyEnd := bodyEnd } ::
        mdRangesAux text used' rest

/-- `_collect_section_ranges`. -/
def collectSectionRanges (text : Str) : List SectionRange :=
  mdRangesAux text [] (headingMatches text)

/-- The dict comprehension `{r.section_id: r for r in ranges if fill}`:
lookup of the *last* fill range carrying the id. -/
def fillLookup (ranges : List SectionRange) (id : Str) : Option SectionRange :=
  ranges.reverse.find? (fun r => r.sectionType = .fill ∧ r.sectionId = id)

/-- `checkbox_map.get(name, False)` over the drafted checkboxes (later
entries of a duplicated name win, as in the Python dict). -/
def checkboxLookup (checkboxes : List CheckboxToken) (name : Str) : Bool :=
  ((checkboxes.reverse.find? (fun c => c.name = name)).map (·.checked)).getD false

/-- `_replace_checkbox_tokens`: `_CHECKBOX_RE.sub` rendering each
`[[CHECK:<name>]]` as a checked/unchecked glyph. -/
def subCheckboxAux (checkboxes : List CheckboxToken) : Nat → Str → Str
  | 0, s => s
  | _ + 1, [] => []
  | fuel + 1, s@(c :: rest) =>
    if (str "[[CHECK:").isPrefixOf s then
      let run := (s.drop 8).takeWhile isIdChar
      if run ≠ [] ∧ ((s.drop 8).drop run.length).take 2 = [']', ']'] then
        (if checkboxLookup checkboxes run then '☒' else '☐') ::
          subCheckboxAux checkboxes fuel (s.drop (8 + run.length + 2))
      else c :: subCheckboxAux checkboxes fuel rest
    else c :: subCheckboxAux checkboxes fuel rest

/-- `_replace_checkbox_tokens`. -/
def subCheckbox (s : Str) (checkboxes : List CheckboxToken) : Str :=
  subCheckboxAux checkboxes (s.length + 1) s

/-- The replacement text composed by `_replace_section_body`: trimmed
body, optional checkbox block, optional unresolved notice. -/
def composeReplacementText (sec : DraftSection) (contextReference : Str) : Str :=
  let t := stripWS sec.body
  let t :=
    if sec.checkboxes ≠ [] then
      t ++ str "\n\n" ++ joinNL (sec.checkboxes.map fun c =>
        c.name ++ str ": [[CHECK:" ++ c.name ++ str "]]")
    else t
  if sec.status = .Partial then
    t ++ str "\n\nUNRESOLVED: This section includes missing information. Review " ++
      contextReference ++ str " and update."
  else t

/-- `_replace_section_body`. -/
def replaceSectionBody (existingBody : Str) (sec : DraftSection)
    (contextReference : Str) (requireToken : Bool) : Except ApplyErr Str :=
  if ¬ containsSub existingBody sectionContentToken then
    if ¬ requireToken then .ok existingBody
    else .error (.unsupportedTemplate (str "Section '" ++ sec.id ++
      str "' is missing required token [[SECTION_CONTENT]]."))
  else
    let replacementText := composeReplacementText sec contextReference
    let output := replaceAll existingBody sectionContentToken replacementText
    .ok (subCheckbox output sec.checkboxes)

/-- The `for section in draft.sections` loop of
`apply_draft_to_markdown_template`: accumulates the replacement triples
and the unresolved ids, in draft order. -/
def mdApplyLoop (text : Str) (ranges : List SectionRange) (contextReference : Str)
    (requireToken : Bool) : List DraftSection → Except ApplyErr (List (Nat × Nat × Str) × List Str)
  | [] => .ok ([], [])
  | s :: rest =>
    match fillLookup ranges s.id with
    | none => mdApplyLoop text ranges contextReference requireToken rest
    | some target => do
      let existingBody := slice text target.bodyStart target.bodyEnd
      let replacementBody ← replaceSectionBody existingBody s contextReference requireToken
      let (reps, unresolved) ← mdApplyLoop text ranges contextReference requireToken rest
      .ok ((target.bodyStart, target.bodyEnd, replacementBody) :: reps,
        if s.status = .Partial then s.id :: unresolved else unresolved)

/-- Stable insertion for `sorted(key=start, reverse=True)`: a later
element goes after earlier elements whose start is `≥` its own. -/
def insertDescByStart (x : Nat × Nat × Str) : List (Nat × Nat × Str) → List (Nat × Nat × Str)
  | [] => [x]
  | y :: rest => if x.1 ≤ y.1 then y :: insertDescByStart x rest else x :: y :: rest

/-- `sorted(replacements, key=start, reverse=True)` (stable). -/
def sortDescByStart (xs : List (Nat × Nat × Str)) : List (Nat × Nat × Str) :=
  xs.foldl (fun acc x => insertDescByStart x acc) []

/-- The splice loop `output = output[:start] + value + output[end:]`. -/
def applyReplacements : Str → List (Nat × Nat × Str) → Str
  | text, [] => text
  | text, (s, e, v) :: rest => applyReplacements (text.take s ++ v ++ text.drop e) rest

/-- `apply_draft_to_markdown_template` on the template text.  The `ok`
result is the text written to the destination path together with the
unresolved section ids of the report; an `error` result means the
exception was raised before `out_path.write_text`, so nothing is
written. -/
def applyDraftToMarkdownTemplate (sourceText : Str) (draft : DraftDocument) (force : Bool)
    (contextReference : Str) : Except ApplyErr (Str × List Str) :=
  let alreadyApplied := containsSub sourceText appliedMarkerMd
  if alreadyApplied ∧ ¬ force then .error .alreadyApplied
  else do
    let ranges := collectSectionRanges sourceText
    let requireToken := ¬ (force ∧ alreadyApplied)
    let (reps, unresolved) ← mdApplyLoop sourceText ranges contextReference requireToken draft.sections
    let output := applyReplacements sourceText (sortDescByStart reps)
    let output := if output.getLast? = some '\n' then output else output ++ ['\n']
    .ok (output ++ '\n' :: (appliedMarkerMd ++ ['\n']), unresolved)

/-- What the markdown applier leaves at the destination path: `none`
when the call raised (the applier never writes before its single final
`write_text`). -/
def mdApplyWritten (sourceText : Str) (draft : DraftDocument) (force : Bool)
    (contextReference : Str) : Option Str :=
  match applyDraftToMarkdownTemplate sourceText draft force contextReference with
  | .ok (o, _) => some o
  | .error _ => none

/-! ## `docx_applier.py`

A DOCX document is embedded as the ordered block list `iter_block_items`
yields: paragraphs (style name and text) and tables (rows of cells, each
cell an ordered list of paragraph texts).  Paragraph objects are mutable
in the source; mutation is modelled by functional update at an explicit
paragraph location. -/

/-- A block of the flattened document. -/
inductive DocxBlock where
  | para (style : Str) (text : Str)
  | table (rows : List (List (List Str)))
deriving DecidableEq, Repr

/-- `_APPLIED_MARKER` of the DOCX applier. -/
def appliedMarkerDocx : Str := str "[MRM_AGENT_APPLIED]"

/-- `_is_heading`: the style name starts with `heading`
(case-insensitive). -/
def isHeadingBlock : DocxBlock → Bool
  | .para style _ => (str "heading").isPrefixOf (lowerStr style)
  | .table _ => false

/-- Marker search within one block (`_document_contains_marker` visits
paragraphs and all table cell paragraphs). -/
def blockContainsMarker (marker : Str) : DocxBlock → Bool
  | .para _ t => containsSub t marker
  | .table rows => rows.any fun r => r.any fun cell => cell.any fun p => containsSub p marker

/-- `_document_contains_marker`. -/
def documentContainsMarker (blocks : List DocxBlock) (marker : Str) : Bool :=
  blocks.any (blockContainsMarker marker)

/-- `_SectionRange` of the DOCX applier. -/
structure DocxSectionRange where
  sectionType : SectionType
  sectionId : Str
  headingBlockIndex : Nat
  bodyStartBlock : Nat
  bodyEndBlock : Nat
deriving DecidableEq, Repr

/-- The marker-parsing pass of `_collect_section_ranges`, threading
`used_ids` over the heading paragraphs. -/
def docxParsedMarkersAux : List Str → List (Nat × DocxBlock) → List (Nat × SectionType × Str)
  | _, [] => []
  | used, (idx, b) :: rest =>
    match b with
    | .para _ text =>
      if isHeadingBlock b then
        match parseHeadingMarker text true used with
        | (none, used') => docxParsedMarkersAux used' rest
        | (some m, used') => (idx, m.sectionType, m.id) :: docxParsedMarkersAux used' rest
      else docxParsedMarkersAux used rest
    | .table _ => docxParsedMarkersAux used rest

/-- The heading block positions of the document, in order. -/
def docxHeadingPositions (blocks : List DocxBlock) : List Nat :=
  blocks.enum.filterMap fun (i, b) => if isHeadingBlock b then some i else none

/-- `_collect_section_ranges` of the DOCX applier. -/
def collectSectionRangesDocx (blocks : List DocxBlock) : List DocxSectionRange :=
  (docxParsedMarkersAux [] blocks.enum).map fun (idx, t, id) =>
    let nextHeading := ((docxHeadingPositions blocks).find? (fun p => idx < p)).getD blocks.length
    { sectionType := t, sectionId := id, headingBlockIndex := idx,
      bodyStartBlock := idx + 1, bodyEndBlock := nextHeading }

/-- Location of one paragraph: top-level, or inside a table cell. -/
inductive ParaLoc where
  | top (blockIdx : Nat)
  | cell (blockIdx row cellIdx paraIdx : Nat)
deriving DecidableEq, Repr

/-- `_body_paragraphs`: the locations of every paragraph between the
range bounds, table cell paragraphs flattened in row/cell/paragraph
order. -/
def bodyParagraphLocs (blocks : List DocxBlock) (startB endB : Nat) : List ParaLoc :=
  (blocks.enum.filter (fun p => startB ≤ p.1 ∧ p.1 < endB)).flatMap fun (i, b) =>
    match b with
    | .para _ _ => [ParaLoc.top i]
    | .table rows => rows.enum.flatMap fun (r, row) =>
        row.enum.flatMap fun (c, cellParas) =>
          (cellParas.enum.map fun q => ParaLoc.cell i r c q.1)

/-- Text of the paragraph at a location. -/
def getParaText (blocks : List DocxBlock) : ParaLoc → Str
  | .top i =>
    match blocks.get? i with
    | some (.para _ t) => t
    | _ => []
  | .cell i r c p =>
    match blocks.get? i with
    | some (.table rows) => ((((rows.get? r).getD []).get? c).getD []).getD p []
    | _ => []

/-- Functional update at one list position. -/
def listModify (f : α → α) : Nat → List α → List α
  | _, [] => []
  | 0, x :: rest => f x :: rest
  | n + 1, x :: rest => x :: listModify f n rest

/-- `paragraph.text = new_text` at a location. -/
def setParaText (blocks : List DocxBlock) (loc : ParaLoc) (newText : Str) : List DocxBlock :=
  match loc with
  | .top i =>
    listModify (fun b => match b with | .para style _ => .para style newText | t => t) i blocks
  | .cell i r c p =>
    listModify (fun b => match b with
      | .table rows =>
        .table (listModify (listModify (listModify (fun _ => newText) p) c) r rows)
      | x => x) i blocks

/-- `_find_section_content_target`: first paragraph containing the
token, else the first non-empty paragraph, else the first paragraph. -/
def findSectionContentTarget (blocks : List DocxBlock) (locs : List ParaLoc) : ParaLoc :=
  match locs.find? (fun l => containsSub (getParaText blocks l) sectionContentToken) with
  | some l => l
  | none =>
    match locs.find? (fun l => stripWS (getParaText blocks l) ≠ []) with
    | some l => l
    | none => locs.headD (.top 0)

/-- `_replace_section_body` of the DOCX applier (the replacement text
hard-codes the `additinal-context.md` reference, sic). -/
def replaceSectionBodyDocx (blocks : List DocxBlock) (target : DocxSectionRange)
    (sec : DraftSection) : Except ApplyErr (List DocxBlock) :=
  let locs := bodyParagraphLocs blocks target.bodyStartBlock target.bodyEndBlock
  if locs = [] then
    .error (.unsupportedTemplate (str "Section '" ++ sec.id ++
      str "' has unsupported structure (no paragraph or table cells)."))
  else
    let replacementText := composeReplacementText sec (str "additinal-context.md")
    let loc := findSectionContentTarget blocks locs
    let t := getParaText blocks loc
    if containsSub t sectionContentToken then
      .ok (setParaText blocks loc (replaceAll t sectionContentToken replacementText))
    else .ok (setParaText blocks loc replacementText)

/-- `_apply_checkboxes` of the DOCX applier. -/
def applyCheckboxesDocx (blocks : List DocxBlock) (target : DocxSectionRange)
    (sec : DraftSection) : List DocxBlock :=
  (bodyParagraphLocs blocks target.bodyStartBlock target.bodyEndBlock).foldl
    (fun bs loc =>
      let t := getParaText bs loc
      if containsSub t (str "[[CHECK:") then setParaText bs loc (subCheckbox t sec.checkboxes)
      else bs)
    blocks

/-- The fill-range dictionary of the DOCX applier (last entry wins). -/
def fillLookupDocx (ranges : List DocxSectionRange) (id : Str) : Option DocxSectionRange :=
  ranges.reverse.find? (fun r => r.sectionType = .fill ∧ r.sectionId = id)

/-- The `for section in draft.sections` loop of
`apply_draft_to_template`. -/
def docxApplyLoop (ranges : List DocxSectionRange) :
    List DocxBlock → List DraftSection → Except ApplyErr (List DocxBlock × List Str)
  | blocks, [] => .ok (blocks, [])
  | blocks, s :: rest =>
    match fillLookupDocx ranges s.id with
    | none => docxApplyLoop ranges blocks rest
    | some target => do
      let blocks1 ← replaceSectionBodyDocx blocks target s
      let blocks2 := applyCheckboxesDocx blocks1 target s
      let (bs, unresolved) ← docxApplyLoop ranges blocks2 rest
      .ok (bs, if s.status = .Partial then s.id :: unresolved else unresolved)

/-- `apply_draft_to_template` with its write effect on the destination
path made explicit.  The first component is the file content at the
destination when the call returns or raises: the applier copies the
template there before anything else (`shutil.copy2`), and `document.save`
only runs on success, so on any raised error the destination holds the
untouched copy. -/
def docxApplyEffect (templateBlocks : List DocxBlock) (draft : DraftDocument) (force : Bool) :
    Option (List DocxBlock) × Except ApplyErr (List Str) :=
  if documentContainsMarker templateBlocks appliedMarkerDocx ∧ ¬ force then
    (some templateBlocks, .error .alreadyApplied)
  else
    match docxApplyLoop (collectSectionRangesDocx templateBlocks) templateBlocks draft.sections with
    | .error e => (some templateBlocks, .error e)
    | .ok (blocks, unresolved) =>
      (some (blocks ++ [DocxBlock.para (str "Normal") appliedMarkerDocx]), .ok unresolved)

/-! ## Specification-side predicates used by the theorem statements -/

/-- The fill sections of a parsed template, in template order. -/
def fillSections (t : ParsedTemplate) : List TemplateSection :=
  t.sections.filter (fun s => s.sectionType = .fill)

/-- The dictionary entry an item list induces at a key: the last item
carrying that key. -/
def lastWithKey (l : List MissingItem) (k : Str × Str) : Option MissingItem :=
  l.reverse.find? (fun x => itemKey x = k)

/-- Scalar strings on which `yaml.safe_dump` emits the plain unquoted
form (no folding, no quoting, no implicit typing) and `yaml.safe_load`
reads them back verbatim: short, starting with a letter, drawn from a
conservative character set, not ending in a space, and not a YAML
boolean/null word. -/
def plainScalar (s : Str) : Bool :=
  !s.isEmpty && s.length ≤ 60 &&
  (s.take 1).all Char.isAlpha &&
  s.getLast? ≠ some ' ' &&
  s.all (fun c => c.isAlpha || c.isDigit || c ∈ [' ', '_', '.', '/', '-', '?']) &&
  lowerStr s ∉ [str "true", str "false", str "null", str "yes", str "no", str "on", str "off"]

/-- Section ids that survive the `[ID:<id>]` header syntax. -/
def idOk (s : Str) : Bool := !s.isEmpty && s.all isIdChar

/-- Titles that survive the header line: single-line, no code-fence
backquotes, no surrounding whitespace. -/
def titleOk (s : Str) : Bool :=
  !s.isEmpty && !(s.take 1).all pySpace && s.getLast? ≠ some ' ' &&
  !(match s.getLast? with | some c => pySpace c | none => false) &&
  s.all (fun c => c ≠ '\n' ∧ c ≠ '`')

/-- A line at which the draft-header pattern cannot anchor: it may
start with `##` only when a non-whitespace character follows directly,
so the mandatory `\\s+` of the pattern fails there. -/
def lineSafe (l : Str) : Bool :=
  !((str "##").isPrefixOf l) ||
    (match l.drop 2 with
     | c :: _ => !pySpace c
     | [] => false)

/-- Bodies that survive chunking: no line of the trimmed body can
anchor a draft-header match. -/
def bodyOk (b : Str) : Bool := (linesOf (stripWS b)).all lineSafe

/-- A draft section the intermediate format can carry faithfully. -/
def sectionSerializable (s : DraftSection) : Bool :=
  idOk s.id && titleOk s.title && bodyOk s.body &&
  s.checkboxes.all (fun c => plainScalar c.name) &&
  s.attachments.all plainScalar &&
  s.evidence.all plainScalar &&
  s.missingItems.all (fun m =>
    plainScalar m.id && plainScalar m.question && plainScalar m.sectionId &&
    m.userResponse.isEmpty)

/-- Trim-normalisation of every section body (the comparison the
round-trip contract specifies). -/
def trimBodies (d : DraftDocument) : DraftDocument :=
  ⟨d.sections.map fun s => { s with body := stripWS s.body }⟩

/-- The metadata contract of `_parse_metadata`, stated on the loaded
YAML value: a mapping carrying all five required keys, a status drawn
from `{complete, partial}`, and well-typed field values (an absent key
reads as null). -/
def metadataWellFormed (v : YVal) : Bool :=
  match v with
  | .map fields =>
    [str "status", str "checkboxes", str "attachments", str "evidence",
      str "missing_items"].all (ymMem fields) &&
    (statusOf ((ymGet fields (str "status")).getD .null)).isSome &&
    (match (ymGet fields (str "checkboxes")).getD .null with
     | .list xs => xs.all (fun e => match e with
        | .map fs => ymMem fs (str "name")
        | _ => false)
     | _ => false) &&
    (match (ymGet fields (str "attachments")).getD .null with
     | .list xs => xs.all (fun e => match e with | .s _ => true | _ => false)
     | _ => false) &&
    (match (ymGet fields (str "evidence")).getD .null with
     | .list xs => xs.all (fun e => match e with | .s _ => true | _ => false)
     | _ => false) &&
    (match (ymGet fields (str "missing_items")).getD .null with
     | .list xs => xs.all (fun e => match e with
        | .map fs => ymMem fs (str "id") && ymMem fs (str "question")
        | _ => false)
     | _ => false)
  | _ => false

/-- Ordered-span invariant of a `finditer` match list: every match
starts at or after `lo`, spans forward, stays within `len`, and later
matches start at or after its end. -/
def matchChain (len : Nat) : Nat → List (Nat × Nat × Str) → Prop
  | _, [] => True
  | lo, (a, e, _) :: rest => lo ≤ a ∧ a < e ∧ e ≤ len ∧ matchChain len e rest

/-- Ordered-span invariant of the collected markdown section ranges:
headings are non-empty, bodies run to at most the next range's heading,
and everything stays within the text. -/
def rangeChain (len : Nat) : Nat → List SectionRange → Prop
  | _, [] => True
  | lo, r :: rest => lo ≤ r.headingStart ∧ r.headingStart < r.bodyStart ∧
      r.bodyStart ≤ r.bodyEnd ∧ r.bodyEnd ≤ len ∧ rangeChain len r.bodyEnd rest

/-- Replacement triples lying entirely at or above the window end `w`,
with starts descending below a running length bound. -/
def sepAbove (w : Nat) : Nat → List (Nat × Nat × Str) → Prop
  | _, [] => True
  | bound, (s, _, _) :: rest => w ≤ s ∧ s ≤ bound ∧ sepAbove w s rest

/-- Replacement triples lying entirely below a running front bound, in
strictly separated descending order. -/
def sepBelow : Nat → List (Nat × Nat × Str) → Prop
  | _, [] => True
  | m, (s, e, _) :: rest => s ≤ e ∧ e ≤ m ∧ sepBelow s rest

/-- Top-level block index of a paragraph location. -/
def paraBlockIdx : ParaLoc → Nat
  | .top i => i
  | .cell i _ _ _ => i

/-- Decimal decoding, inverse to `natStr` (proof-side). -/
def strToNat (s : Str) : Nat := s.foldl (fun acc c => acc * 10 + (c.toNat - 48)) 0

/-! ## Concrete example inputs used by counterexamples and witnesses -/

/-- A stored context item holding a prior non-empty user response. -/
def c8Existing : MissingItem :=
  { id := str "q1", sectionId := str "sec", question := str "Original question?",
    userResponse := str "the stored answer" }

/-- The regenerated item under the same key with a reworded question. -/
def c8New : MissingItem :=
  { id := str "q1", sectionId := str "sec", question := str "Reworded question?",
    userResponse := [] }

/-- The markdown template of the repository's duplicate-id test: two
headings carrying the same explicit `[ID:same]` tag. -/
def dupIdTemplate : Str :=
  str "# [FILL][ID:same] One\n\nResponse:\n[[SECTION_CONTENT]]\n\n# [FILL][ID:same] Two\n\nResponse:\n[[SECTION_CONTENT]]\n"

/-- A draft whose missing item carries a non-empty `user_response`. -/
def draftWithResponse : DraftDocument :=
  { sections := [
    { id := str "data_description", title := str "Data Description", status := .Partial,
      checkboxes := [{ name := str "data_checked", checked := false }],
      attachments := [str "results/metrics.json"],
      evidence := [str "evaluate.py:12"],
      missingItems := [
        { id := str "missing_data_owner", sectionId := str "data_description",
          question := str "Who owns data quality checks?",
          userResponse := str "PRIOR ANSWER" }],
      body := str "Content body" }] }

/-- A two-section serializable draft with empty user responses. -/
def roundTripDraft : DraftDocument :=
  { sections := [
    { id := str "alpha", title := str "Alpha", status := .Complete,
      checkboxes := [{ name := str "box_one", checked := true }],
      attachments := [], evidence := [str "see evaluation script"], missingItems := [],
      body := str "Hello\n\nWorld" },
    { id := str "beta", title := str "Beta", status := .Partial,
      checkboxes := [], attachments := [str "out/report.json"], evidence := [],
      missingItems := [
        { id := str "gap", sectionId := str "beta", question := str "What is missing?",
          userResponse := [] }],
      body := [] }] }

/-- A draft text whose metadata block does not immediately follow the
heading: a prose line sits in between (and is silently discarded). -/
def proseBeforeMetadata : Str :=
  str "## [ID:x] Title\nprose before metadata\n```yaml\nstatus: complete\ncheckboxes: []\nattachments: []\nevidence:\n- e.py:1\nmissing_items: []\n```\nreal body"

/-- A markdown template that already contains the idempotency marker. -/
def appliedMdTemplate : Str :=
  str "# [FILL] [ID:alpha] Alpha\n\ncontent\n\n<!-- MRM_AGENT_APPLIED -->\n"

/-- A DOCX block list that already contains the idempotency marker. -/
def appliedDocxBlocks : List DocxBlock :=
  [DocxBlock.para (str "Heading 1") (str "[FILL] [ID:alpha] Alpha"),
   DocxBlock.para (str "Normal") (str "[[SECTION_CONTENT]]"),
   DocxBlock.para (str "Normal") (str "[MRM_AGENT_APPLIED]")]

/-- The empty draft document. -/
def emptyDraft : DraftDocument := { sections := [] }

/-- A markdown template with one fill section (with token), one skip
section, and a trailing fill section, used by the applier claims. -/
def c5Template : Str :=
  str "# [FILL] [ID:x] A\n[[SECTION_CONTENT]]\n# [SKIP] [ID:y] B\nkeepme\n"

/-- A draft addressing `x` twice (duplicate section ids) with a body
shorter than the substitution token. -/
def c5DupDraft : DraftDocument :=
  { sections := [
    { id := str "x", title := str "A", status := .Complete, checkboxes := [],
      attachments := [], evidence := [str "e"], missingItems := [], body := str "hi" },
    { id := str "x", title := str "A", status := .Complete, checkboxes := [],
      attachments := [], evidence := [str "e"], missingItems := [], body := str "hi" }] }

/-- A draft addressing only `x`, with distinct ids. -/
def c5GoodDraft : DraftDocument :=
  { sections := [
    { id := str "x", title := str "A", status := .Complete, checkboxes := [],
      attachments := [], evidence := [str "e"], missingItems := [], body := str "hi" }] }

/-- A DOCX block list with one fill section (`x`) and one skip section
(`y`), used by the applier claims. -/
def c5DocxBlocks : List DocxBlock :=
  [DocxBlock.para (str "Heading 1") (str "[FILL] [ID:x] A"),
   DocxBlock.para (str "Normal") (str "[[SECTION_CONTENT]]"),
   DocxBlock.para (str "Heading 1") (str "[SKIP] [ID:y] B"),
   DocxBlock.para (str "Normal") (str "keepme")]

/-- A markdown template whose fill section lacks the substitution
token. -/
def c9Template : Str :=
  str "# [FILL] [ID:x] A\nno token here\n# [SKIP] [ID:y] B\nkeepme\n"

/-- A two-fill-section template for the generator claims. -/
def c4Template : ParsedTemplate :=
  { sections := [
    { id := str "exec_summary", title := str "Executive Summary", sectionType := .fill,
      markerText := str "[FILL] Executive Summary", headingIndex := 0,
      bodyText := str "[[SECTION_CONTENT]]", checkboxTokens := [] },
    { id := str "data_description", title := str "Data Description", sectionType := .fill,
      markerText := str "[FILL] Data Description", headingIndex := 1,
      bodyText := str "[[SECTION_CONTENT]]", checkboxTokens := [] }],
    parserErrors := [] }

/-- An oracle that fails only the first section. -/
def c4Oracle : Nat → Except Str (List (Str × YVal)) :=
  fun i => if i = 0 then .error (str "boom") else .ok [(str "body", .s (str "content")),
    (str "evidence", .list [.s (str "src.py:1")])]

end MRM

deriving instance DecidableEq for Except

namespace MRM

/-! # Theorems -/

/-! ## C7: the draft-section invariant of the orchestrator -/

/-- **C7.** For every parsed response payload, the `DraftSection` built
by `_response_to_draft_section` carries at least one evidence entry or
at least one missing item — when the payload supplies neither, a single
generic missing item is synthesized — and its status is `Partial` if and
only if its `missing_items` list is non-empty, else `Complete`. -/
theorem C7_response_section_invariant (payload : List (Str × YVal)) (sectionId title : Str) :
    ((responseToDraftSection payload sectionId title).evidence ≠ [] ∨
      (responseToDraftSection payload sectionId title).missingItems ≠ []) ∧
    ((responseToDraftSection payload sectionId title).status = .Partial ↔
      (responseToDraftSection payload sectionId title).missingItems ≠ []) := by
  unfold responseToDraftSection
  dsimp only
  by_cases h : coerceStrList ((ymGet payload (str "evidence")).getD (.list [])) = [] ∧
      parseMissingItemsLoose ((ymGet payload (str "missing_items")).getD (.list [])) sectionId = []
  · simp only [if_pos h]
    refine ⟨Or.inr (by simp), ?_⟩
    simp
  · simp only [if_neg h]
    rcases Decidable.not_and_iff_or_not.mp h with h' | h'
    · refine ⟨Or.inl h', ?_⟩
      by_cases hm : parseMissingItemsLoose ((ymGet payload (str "missing_items")).getD (.list [])) sectionId = []
      · simp [hm]
      · simp [hm]
    · refine ⟨Or.inr h', ?_⟩
      simp [h']

/-! ## C8: `merge_missing_items` -/

theorem mem_dictUpdate {l : List MissingItem} {m y : MissingItem}
    (h : y ∈ dictUpdate l m) : y = m ∨ y ∈ l := by
  induction l with
  | nil =>
    left
    simpa [dictUpdate] using h
  | cons x rest ih =>
    by_cases hx : itemKey x = itemKey m
    · rw [dictUpdate, if_pos hx] at h
      rcases List.mem_cons.mp h with h | h
      · exact Or.inl h
      · exact Or.inr (List.mem_cons_of_mem _ h)
    · rw [dictUpdate, if_neg hx] at h
      rcases List.mem_cons.mp h with h | h
      · exact Or.inr (by simp [h])
      · rcases ih h with h' | h'
        · exact Or.inl h'
        · exact Or.inr (List.mem_cons_of_mem _ h')

theorem self_mem_dictUpdate (l : List MissingItem) (m : MissingItem) :
    m ∈ dictUpdate l m := by
  induction l with
  | nil => simp [dictUpdate]
  | cons x rest ih =>
    by_cases hx : itemKey x = itemKey m
    · simp [dictUpdate, if_pos hx]
    · simp only [dictUpdate, if_neg hx]
      exact List.mem_cons_of_mem _ ih

theorem mem_dictUpdate_of_ne {l : List MissingItem} {m y : MissingItem}
    (hy : y ∈ l) (hne : itemKey y ≠ itemKey m) : y ∈ dictUpdate l m := by
  induction l with
  | nil => cases hy
  | cons x rest ih =>
    by_cases hx : itemKey x = itemKey m
    · simp only [dictUpdate, if_pos hx]
      rcases List.mem_cons.mp hy with h | h
      · exact absurd (h ▸ hx) hne
      · exact List.mem_cons_of_mem _ h
    · simp only [dictUpdate, if_neg hx]
      rcases List.mem_cons.mp hy with h | h
      · simp [h]
      · exact List.mem_cons_of_mem _ (ih h)

theorem dictFind_dictUpdate_self (l : List MissingItem) (m : MissingItem) :
    (dictUpdate l m).find? (fun x => itemKey x = itemKey m) = some m := by
  induction l with
  | nil => simp [dictUpdate]
  | cons x rest ih =>
    by_cases hx : itemKey x = itemKey m
    · simp [dictUpdate, hx]
    · simp only [dictUpdate, if_neg hx]
      rw [List.find?_cons_of_neg _ (by simpa using hx)]
      exact ih

theorem dictFind_dictUpdate_ne (l : List MissingItem) (m : MissingItem) (k : Str × Str)
    (h : itemKey m ≠ k) :
    (dictUpdate l m).find? (fun x => itemKey x = k) = l.find? (fun x => itemKey x = k) := by
  induction l with
  | nil => simp [dictUpdate, h]
  | cons x rest ih =>
    by_cases hx : itemKey x = itemKey m
    · simp only [dictUpdate, if_pos hx]
      rw [List.find?_cons_of_neg _ (by simpa using h),
        List.find?_cons_of_neg _ (by simpa [hx] using h)]
    · simp only [dictUpdate, if_neg hx]
      by_cases hk : itemKey x = k
      · rw [List.find?_cons_of_pos _ (by simpa using hk),
          List.find?_cons_of_pos _ (by simpa using hk)]
      · rw [List.find?_cons_of_neg _ (by simpa using hk),
          List.find?_cons_of_neg _ (by simpa using hk)]
        exact ih

/-- The dict built from `existing` holds, at each key, the last item of
`existing` carrying that key. -/
theorem dictFind_foldl_existing (existing : List MissingItem) (k : Str × Str) :
    (existing.foldl dictUpdate []).find? (fun x => itemKey x = k) = lastWithKey existing k := by
  induction existing using List.reverseRecOn with
  | nil => simp [lastWithKey]
  | append_singleton ex m ih =>
    rw [List.foldl_append]
    simp only [List.foldl_cons, List.foldl_nil]
    have hrev : ((ex ++ [m]).reverse) = m :: ex.reverse := by simp
    by_cases hm : itemKey m = k
    · rw [← hm, dictFind_dictUpdate_self]
      unfold lastWithKey
      rw [hrev, List.find?_cons_of_pos _ (by simp [hm])]
    · rw [dictFind_dictUpdate_ne _ _ _ hm, ih]
      unfold lastWithKey
      rw [hrev, List.find?_cons_of_neg _ (by simpa using hm)]

/-- `mergeStep` leaves lookups at other keys unchanged. -/
theorem dictFind_mergeStep_ne (acc : List MissingItem) (item : MissingItem) (k : Str × Str)
    (h : itemKey item ≠ k) :
    (mergeStep acc item).find? (fun x => itemKey x = k) = acc.find? (fun x => itemKey x = k) := by
  unfold mergeStep
  cases hf : acc.find? (fun x => itemKey x = itemKey item) with
  | none => exact dictFind_dictUpdate_ne _ _ _ h
  | some preserved =>
    by_cases hr : preserved.userResponse ≠ []
    · simp only [if_pos hr]
      exact dictFind_dictUpdate_ne _ _ _ (by simpa using h)
    · simp only [if_neg hr]
      exact dictFind_dictUpdate_ne _ _ _ h

/-- `mergeStep` preserves a non-empty stored response at the item's key. -/
theorem dictFind_mergeStep_preserves (acc : List MissingItem) (item z : MissingItem)
    (k : Str × Str) (hz : acc.find? (fun x => itemKey x = k) = some z)
    (hr : z.userResponse ≠ []) :
    ∃ z', (mergeStep acc item).find? (fun x => itemKey x = k) = some z' ∧
      z'.userResponse = z.userResponse := by
  by_cases hk : itemKey item = k
  · subst hk
    unfold mergeStep
    rw [hz]
    simp only [if_pos hr]
    refine ⟨{ item with userResponse := z.userResponse }, ?_, rfl⟩
    have : itemKey { item with userResponse := z.userResponse } = itemKey item := rfl
    rw [← this, dictFind_dictUpdate_self]
  · rw [dictFind_mergeStep_ne _ _ _ hk, hz]
    exact ⟨z, rfl, rfl⟩

/-- Folding `mergeStep` over the new items preserves a non-empty stored
response. -/
theorem dictFind_foldl_mergeStep (new : List MissingItem) (acc : List MissingItem)
    (z : MissingItem) (k : Str × Str) (hz : acc.find? (fun x => itemKey x = k) = some z)
    (hr : z.userResponse ≠ []) :
    ∃ z', (new.foldl mergeStep acc).find? (fun x => itemKey x = k) = some z' ∧
      z'.userResponse = z.userResponse := by
  induction new generalizing acc z with
  | nil => exact ⟨z, hz, rfl⟩
  | cons item rest ih =>
    obtain ⟨z', hz', hr'⟩ := dictFind_mergeStep_preserves acc item z k hz hr
    obtain ⟨z'', hz'', hr''⟩ := ih (mergeStep acc item) z' hz' (hr' ▸ hr)
    exact ⟨z'', hz'', hr''.trans hr'⟩

theorem keysNodup_dictUpdate {l : List MissingItem} (m : MissingItem)
    (h : (l.map itemKey).Nodup) : ((dictUpdate l m).map itemKey).Nodup := by
  induction l with
  | nil => simp [dictUpdate]
  | cons x rest ih =>
    simp only [List.map_cons, List.nodup_cons] at h
    by_cases hx : itemKey x = itemKey m
    · simp only [dictUpdate, if_pos hx, List.map_cons, List.nodup_cons]
      exact ⟨hx ▸ h.1, h.2⟩
    · simp only [dictUpdate, if_neg hx, List.map_cons, List.nodup_cons]
      refine ⟨?_, ih h.2⟩
      intro hmem
      rcases List.mem_map.mp hmem with ⟨y, hy, hky⟩
      rcases mem_dictUpdate hy with rfl | hy'
      · exact hx hky.symm
      · exact h.1 (List.mem_map.mpr ⟨y, hy', hky⟩)

theorem keysNodup_mergeStep (acc : List MissingItem) (item : MissingItem)
    (h : (acc.map itemKey).Nodup) : ((mergeStep acc item).map itemKey).Nodup := by
  unfold mergeStep
  cases acc.find? (fun x => itemKey x = itemKey item) with
  | none => exact keysNodup_dictUpdate _ h
  | some preserved =>
    by_cases hr : preserved.userResponse ≠ []
    · simp only [if_pos hr]; exact keysNodup_dictUpdate _ h
    · simp only [if_neg hr]; exact keysNodup_dictUpdate _ h

theorem keysNodup_merged (existing new : List MissingItem) :
    (((new.foldl mergeStep (existing.foldl dictUpdate [])).map itemKey)).Nodup := by
  have base : ∀ l : List MissingItem, ((l.foldl dictUpdate []).map itemKey).Nodup := by
    intro l
    induction l using List.reverseRecOn with
    | nil => simp
    | append_singleton ex m ih =>
      rw [List.foldl_append]
      exact keysNodup_dictUpdate _ ih
  have step : ∀ (ns : List MissingItem) (acc : List MissingItem),
      ((acc.map itemKey)).Nodup → (((ns.foldl mergeStep acc).map itemKey)).Nodup := by
    intro ns
    induction ns with
    | nil => intro acc h; exact h
    | cons n rest ih => intro acc h; exact ih _ (keysNodup_mergeStep acc n h)
  exact step new _ (base existing)

/-- In a list with pairwise-distinct keys, every member at a key equals
the `find?` result. -/
theorem mem_eq_find_of_keysNodup {l : List MissingItem} {z y : MissingItem} {k : Str × Str}
    (hnd : (l.map itemKey).Nodup) (hz : l.find? (fun x => itemKey x = k) = some z)
    (hy : y ∈ l) (hky : itemKey y = k) : y = z := by
  induction l with
  | nil => cases hy
  | cons x rest ih =>
    simp only [List.map_cons, List.nodup_cons] at hnd
    by_cases hx : itemKey x = k
    · rw [List.find?_cons_of_pos _ (by simpa using hx)] at hz
      cases hz
      rcases List.mem_cons.mp hy with rfl | hy'
      · rfl
      · exact absurd (List.mem_map.mpr ⟨y, hy', hky.trans hx.symm⟩) hnd.1
    · rw [List.find?_cons_of_neg _ (by simpa using hx)] at hz
      rcases List.mem_cons.mp hy with rfl | hy'
      · exact absurd hky hx
      · exact ih hnd.2 hz hy'

/-- Coverage: a key present in the dict stays present through
`mergeStep`. -/
theorem dictFind_mergeStep_isSome (acc : List MissingItem) (item : MissingItem) (k : Str × Str)
    (h : (acc.find? (fun x => itemKey x = k)).isSome) :
    ((mergeStep acc item).find? (fun x => itemKey x = k)).isSome := by
  by_cases hk : itemKey item = k
  · unfold mergeStep
    cases acc.find? (fun x => itemKey x = itemKey item) with
    | none => rw [← hk, dictFind_dictUpdate_self]; rfl
    | some preserved =>
      by_cases hr : preserved.userResponse ≠ []
      · simp only [if_pos hr]
        have : itemKey { item with userResponse := preserved.userResponse } = itemKey item := rfl
        rw [← hk, ← this, dictFind_dictUpdate_self]; rfl
      · simp only [if_neg hr]
        rw [← hk, dictFind_dictUpdate_self]; rfl
  · rw [dictFind_mergeStep_ne _ _ _ hk]
    exact h

theorem dictFind_foldl_mergeStep_isSome (new : List MissingItem) (acc : List MissingItem)
    (k : Str × Str)
    (h : (acc.find? (fun x => itemKey x = k)).isSome ∨ ∃ x ∈ new, itemKey x = k) :
    (((new.foldl mergeStep acc)).find? (fun x => itemKey x = k)).isSome := by
  induction new generalizing acc with
  | nil =>
    rcases h with h | ⟨x, hx, _⟩
    · exact h
    · cases hx
  | cons item rest ih =>
    rcases h with h | ⟨x, hx, hk⟩
    · exact ih _ (Or.inl (dictFind_mergeStep_isSome acc item k h))
    · rcases List.mem_cons.mp hx with rfl | hx'
      · refine ih _ (Or.inl ?_)
        by_cases hcase : (acc.find? (fun y => itemKey y = k)).isSome
        · exact dictFind_mergeStep_isSome acc x k hcase
        · unfold mergeStep
          cases acc.find? (fun y => itemKey y = itemKey x) with
          | none => rw [← hk, dictFind_dictUpdate_self]; rfl
          | some preserved =>
            by_cases hr : preserved.userResponse ≠ []
            · simp only [if_pos hr]
              have heq : itemKey { x with userResponse := preserved.userResponse } = itemKey x := rfl
              rw [← hk, ← heq, dictFind_dictUpdate_self]; rfl
            · simp only [if_neg hr]
              rw [← hk, dictFind_dictUpdate_self]; rfl
      · exact ih _ (Or.inr ⟨x, hx', hk⟩)

/-- **C8.** `merge_missing_items` merges the two lists keyed by
`(id, section_id)`: every key present in either input appears in the
output, and a non-empty `user_response` stored under a key in `existing`
(by its last item at that key, i.e. the item the dict retains) survives
to every output item at that key, even when the new item's question text
differs. -/
theorem C8_merge_preserves_responses (existing new : List MissingItem) (k : Str × Str) :
    (((∃ x ∈ existing, itemKey x = k) ∨ ∃ x ∈ new, itemKey x = k) →
      ∃ y ∈ mergeMissingItems existing new, itemKey y = k) ∧
    (∀ e, lastWithKey existing k = some e → e.userResponse ≠ [] →
      ∀ y ∈ mergeMissingItems existing new, itemKey y = k →
        y.userResponse = e.userResponse) := by
  have hperm : (mergeMissingItems existing new).Perm
      (new.foldl mergeStep (existing.foldl dictUpdate [])) := by
    unfold mergeMissingItems
    exact List.perm_insertionSort _ _
  constructor
  · intro h
    have hsome : (((new.foldl mergeStep (existing.foldl dictUpdate []))).find?
        (fun x => itemKey x = k)).isSome := by
      apply dictFind_foldl_mergeStep_isSome
      rcases h with ⟨x, hx, hk⟩ | h
      · refine Or.inl ?_
        rw [dictFind_foldl_existing]
        unfold lastWithKey
        rw [List.find?_isSome]
        exact ⟨x, List.mem_reverse.mpr hx, by simpa using hk⟩
      · exact Or.inr h
    rcases Option.isSome_iff_exists.mp hsome with ⟨y, hy⟩
    refine ⟨y, hperm.mem_iff.mpr (List.mem_of_find?_eq_some hy), ?_⟩
    simpa using List.find?_some hy
  · intro e he hr y hy hk
    have hz : ((existing.foldl dictUpdate []).find? (fun x => itemKey x = k)) = some e := by
      rw [dictFind_foldl_existing]; exact he
    obtain ⟨z', hz', hr'⟩ := dictFind_foldl_mergeStep new _ e k hz hr
    have hnd := keysNodup_merged existing new
    have : y = z' :=
      mem_eq_find_of_keysNodup hnd hz' (hperm.mem_iff.mp hy) hk
    rw [this, hr']

/-- Witness for C8 at a concrete merge whose regenerated question text
differs from the stored one. -/
theorem C8_merge_witness :
    (∃ y ∈ mergeMissingItems [c8Existing] [c8New], itemKey y = (str "q1", str "sec")) ∧
    ∀ y ∈ mergeMissingItems [c8Existing] [c8New], itemKey y = (str "q1", str "sec") →
      y.userResponse = str "the stored answer" := by
  have h := C8_merge_preserves_responses [c8Existing] [c8New] (str "q1", str "sec")
  refine ⟨h.1 (Or.inl ⟨c8Existing, by simp, by decide⟩), ?_⟩
  intro y hy hk
  exact h.2 c8Existing (by decide) (by decide) y hy hk

/-! ## C10: derived section ids -/

theorem natStrAux_fuel_irrel :
    ∀ fuel₁ fuel₂ n, n < fuel₁ → n < fuel₂ → natStrAux fuel₁ n = natStrAux fuel₂ n := by
  intro fuel₁
  induction fuel₁ with
  | zero => intro _ n h; omega
  | succ f ih =>
    intro fuel₂ n h1 h2
    cases fuel₂ with
    | zero => omega
    | succ g =>
      by_cases hn : n < 10
      · simp [natStrAux, hn]
      · simp only [natStrAux, if_neg hn]
        have hd : n / 10 < n := Nat.div_lt_self (by omega) (by omega)
        rw [ih g (n / 10) (by omega) (by omega)]

theorem strToNat_append_digit (xs : Str) (c : Char) :
    strToNat (xs ++ [c]) = strToNat xs * 10 + (c.toNat - 48) := by
  unfold strToNat
  rw [List.foldl_append]
  rfl

theorem toNat_digitChar {d : Nat} (h : d < 10) : (digitChar d).toNat = 48 + d := by
  interval_cases d <;> decide

theorem strToNat_natStr (n : Nat) : strToNat (natStr n) = n := by
  induction n using Nat.strong_induction_on with
  | _ n ih =>
    unfold natStr
    by_cases hn : n < 10
    · simp only [natStrAux, if_pos hn]
      unfold strToNat
      simp [toNat_digitChar hn]
    · simp only [natStrAux, if_neg hn]
      have hd : n / 10 < n := Nat.div_lt_self (by omega) (by omega)
      rw [natStrAux_fuel_irrel n (n / 10 + 1) (n / 10) (by omega) (by omega)]
      rw [strToNat_append_digit]
      have hmod : n % 10 < 10 := Nat.mod_lt _ (by omega)
      rw [toNat_digitChar hmod]
      have := ih (n / 10) hd
      unfold natStr at this
      rw [this]
      omega

theorem natStr_injective : Function.Injective natStr := by
  intro a b h
  have := strToNat_natStr a
  rw [h, strToNat_natStr] at this
  omega

theorem suffixCandidate_injective (base : Str) :
    Function.Injective (suffixCandidate base) := by
  intro a b h
  unfold suffixCandidate at h
  have h' := List.append_cancel_left h
  exact natStr_injective (by simpa using h')

theorem dedupeFrom_not_mem (base : Str) (used : List Str) :
    ∀ fuel suffix, (∃ k < fuel, suffixCandidate base (suffix + k) ∉ used) →
      dedupeFrom base used suffix fuel ∉ used := by
  intro fuel
  induction fuel with
  | zero =>
    rintro suffix ⟨k, hk, -⟩
    omega
  | succ f ih =>
    rintro suffix ⟨k, hk, hnot⟩
    by_cases hmem : suffixCandidate base suffix ∈ used
    · rw [dedupeFrom, if_pos hmem]
      apply ih
      rcases k with - | k'
      · exact absurd (by simpa using hmem) (by simpa using hnot)
      · exact ⟨k', by omega, by have : suffix + 1 + k' = suffix + (k' + 1) := by omega
                                rw [this]; exact hnot⟩
    · rw [dedupeFrom, if_neg hmem]
      exact hmem

/-- `_dedupe_id` never returns an id already in the used set. -/
theorem dedupeId_not_mem (id : Str) (used : List Str) : dedupeId id used ∉ used := by
  unfold dedupeId
  by_cases hmem : id ∈ used
  · rw [if_pos hmem]
    apply dedupeFrom_not_mem
    by_contra hall
    push_neg at hall
    have hsub : ((List.range (used.length + 1)).map fun k => suffixCandidate id (2 + k)) ⊆ used := by
      intro x hx
      rcases List.mem_map.mp hx with ⟨k, hk, rfl⟩
      exact hall k (List.mem_range.mp hk)
    have hnd : ((List.range (used.length + 1)).map fun k => suffixCandidate id (2 + k)).Nodup := by
      refine (List.nodup_range _).map ?_
      intro a b hab
      have := suffixCandidate_injective id hab
      omega
    have := (hnd.subperm hsub).length_le
    simp at this
  · rw [if_neg hmem]
    exact hmem

/-- The result of the dedupe loop is the base id or a suffixed form. -/
theorem dedupeId_shape (id : Str) (used : List Str) :
    dedupeId id used = id ∨ ∃ s, dedupeId id used = suffixCandidate id s := by
  unfold dedupeId
  by_cases hmem : id ∈ used
  · rw [if_pos hmem]
    right
    generalize 2 = suffix
    generalize used.length + 1 = fuel
    induction fuel generalizing suffix with
    | zero => exact ⟨suffix, rfl⟩
    | succ f ih =>
      rw [dedupeFrom]
      by_cases h : suffixCandidate id suffix ∈ used
      · rw [if_pos h]; exact ih _
      · rw [if_neg h]; exact ⟨suffix, rfl⟩
  · rw [if_neg hmem]
    exact Or.inl rfl

theorem slugReAux_chars : ∀ (prev : Bool) (s : Str), ∀ c ∈ slugReAux prev s,
    isSlugChar c = true ∨ c = '_' := by
  intro prev s
  induction s generalizing prev with
  | nil => intro c hc; cases hc
  | cons d rest ih =>
    intro c hc
    by_cases hd : isSlugChar d = true
    · rw [slugReAux, if_pos hd] at hc
      rcases List.mem_cons.mp hc with rfl | hc'
      · exact Or.inl hd
      · exact ih _ _ hc'
    · rw [slugReAux, if_neg hd] at hc
      cases prev with
      | true => exact ih _ _ (by simpa using hc)
      | false =>
        rcases List.mem_cons.mp (by simpa using hc) with rfl | hc'
        · exact Or.inr rfl
        · exact ih _ _ hc'

theorem dropWhile_head_false {p : Char → Bool} :
    ∀ {l : List Char} {c : Char} {rest : Str}, l.dropWhile p = c :: rest → p c = false := by
  intro l
  induction l with
  | nil => intro c rest h; cases h
  | cons x xs ih =>
    intro c rest h
    by_cases hx : p x = true
    · rw [List.dropWhile_cons_of_pos hx] at h
      exact ih h
    · rw [List.dropWhile_cons_of_neg (by simpa using hx)] at h
      cases h
      simpa using hx

theorem mem_of_mem_dropWhile' {p : Char → Bool} :
    ∀ {l : List Char} {c : Char}, c ∈ l.dropWhile p → c ∈ l := by
  intro l
  induction l with
  | nil => intro c h; cases h
  | cons x xs ih =>
    intro c h
    by_cases hx : p x = true
    · rw [List.dropWhile_cons_of_pos hx] at h
      exact List.mem_cons_of_mem _ (ih h)
    · rwa [List.dropWhile_cons_of_neg (by simpa using hx)] at h

theorem mem_of_mem_stripChars {cs : List Char} {s : Str} {c : Char}
    (h : c ∈ stripChars cs s) : c ∈ s := by
  unfold stripChars at h
  rw [List.mem_reverse] at h
  have h1 := mem_of_mem_dropWhile' h
  rw [List.mem_reverse] at h1
  exact mem_of_mem_dropWhile' h1

theorem mem_of_mem_lstripChars {cs : List Char} {s : Str} {c : Char}
    (h : c ∈ lstripChars cs s) : c ∈ s := mem_of_mem_dropWhile' h

theorem slugify_ne_nil (t : Str) : slugify t ≠ [] := by
  simp only [slugify]
  split
  · decide
  · assumption

theorem slugify_chars (t : Str) : ∀ c ∈ slugify t, isSlugChar c = true ∨ c = '_' := by
  intro c hc
  simp only [slugify] at hc
  split at hc
  · rw [show str "section" = ['s', 'e', 'c', 't', 'i', 'o', 'n'] from rfl] at hc
    simp only [List.mem_cons, List.not_mem_nil, or_false] at hc
    rcases hc with rfl | rfl | rfl | rfl | rfl | rfl | rfl <;> decide
  · exact slugReAux_chars false _ c
      (mem_of_mem_stripChars (mem_of_mem_lstripChars hc))

theorem slugify_head (t : Str) : ∀ c rest, slugify t = c :: rest → 'a' ≤ c ∧ c ≤ 'z' := by
  intro c rest h
  simp only [slugify] at h
  split at h
  · cases h
    constructor <;> decide
  · have hhead : c ∉ ['0', '1', '2', '3', '4', '5', '6', '7', '8', '9', '_'] := by
      have := dropWhile_head_false (p := fun x =>
        decide (x ∈ ['0', '1', '2', '3', '4', '5', '6', '7', '8', '9', '_'])) h
      simpa using this
    have hmem : c ∈ slugify t := by
      simp only [slugify]
      split
      · next hnil => rw [h] at hnil; cases hnil
      · rw [h]; exact List.mem_cons_self _ _
    rcases slugify_chars t c hmem with hch | hch
    · unfold isSlugChar at hch
      rcases Bool.or_eq_true_iff.mp hch with hlz | hdig
      · exact ⟨by simpa using (Bool.and_eq_true_iff.mp hlz).1,
          by simpa using (Bool.and_eq_true_iff.mp hlz).2⟩
      · exfalso
        simp only [Char.isDigit, Bool.and_eq_true, decide_eq_true_eq] at hdig
        obtain ⟨hd1, hd2⟩ := hdig
        have hd1' : 48 ≤ c.toNat := hd1
        have hd2' : c.toNat ≤ 57 := hd2
        have hofnat : Char.ofNat c.toNat = c := Char.ofNat_toNat c
        have hd : c.toNat = 48 ∨ c.toNat = 49 ∨ c.toNat = 50 ∨ c.toNat = 51 ∨
            c.toNat = 52 ∨ c.toNat = 53 ∨ c.toNat = 54 ∨ c.toNat = 55 ∨
            c.toNat = 56 ∨ c.toNat = 57 := by omega
        apply hhead
        rcases hd with h | h | h | h | h | h | h | h | h | h <;>
          (rw [← hofnat, h]; decide)
    · subst hch
      exact absurd (by decide : '_' ∈ ['0', '1', '2', '3', '4', '5', '6', '7', '8', '9', '_']) hhead

theorem natStrAux_chars : ∀ fuel n, ∀ c ∈ natStrAux fuel n, c.isDigit = true := by
  intro fuel
  induction fuel with
  | zero => intro n c hc; cases hc
  | succ f ih =>
    intro n c hc
    by_cases hn : n < 10
    · rw [natStrAux, if_pos hn] at hc
      rcases List.mem_cons.mp hc with rfl | hc'
      · interval_cases n <;> decide
      · cases hc'
    · rw [natStrAux, if_neg hn] at hc
      rcases List.mem_append.mp hc with hc' | hc'
      · exact ih _ _ hc'
      · rcases List.mem_cons.mp hc' with rfl | hc''
        · have hlt : n % 10 < 10 := Nat.mod_lt _ (by omega)
          revert hlt
          generalize n % 10 = m
          intro hlt
          interval_cases m <;> decide
        · cases hc''

/-- Every character of a dedupe result is drawn from the slug result
plus underscores and digits. -/
theorem dedupeId_chars (slug : Str) (used : List Str) :
    ∀ c ∈ dedupeId slug used, c ∈ slug ∨ c = '_' ∨ c.isDigit = true := by
  intro c hc
  rcases dedupeId_shape slug used with h | ⟨s, h⟩
  · rw [h] at hc
    exact Or.inl hc
  · rw [h] at hc
    unfold suffixCandidate at hc
    rcases List.mem_append.mp hc with hc' | hc'
    · exact Or.inl hc'
    · rcases List.mem_cons.mp hc' with rfl | hc''
      · exact Or.inr (Or.inl rfl)
      · exact Or.inr (Or.inr (natStrAux_chars _ _ _ hc''))

/-- A dedupe result starts with the same character as the slug. -/
theorem dedupeId_head (slug : Str) (used : List Str) (c : Char) (rest : Str)
    (hslug : slug = c :: rest) :
    ∃ rest', dedupeId slug used = c :: rest' := by
  rcases dedupeId_shape slug used with h | ⟨s, h⟩
  · exact ⟨rest, h.trans hslug⟩
  · rw [h]
    unfold suffixCandidate
    rw [hslug]
    exact ⟨rest ++ '_' :: natStr s, rfl⟩

/-- **C10.** For every heading text without an explicit `[ID:...]` tag
from which `parse_heading_marker` derives a section id, the derived id
is non-empty, consists only of lowercase letters, digits and
underscores, does not begin with a digit or an underscore (the constant
`"section"` standing in when slugification yields nothing), is distinct
from every id already in the caller-supplied used-id set, and equals the
plain slug whenever that slug is not yet taken. -/
theorem C10_derived_id_properties (headingText : Str) (fallbackFill : Bool) (used : List Str)
    (hNoId : extractId (stripWS headingText) = none)
    (r : MarkerResult) (used' : List Str)
    (hParse : parseHeadingMarker headingText fallbackFill used = (some r, used')) :
    r.id ≠ [] ∧
    (∀ c ∈ r.id, ('a' ≤ c ∧ c ≤ 'z') ∨ c.isDigit = true ∨ c = '_') ∧
    (∀ c rest, r.id = c :: rest → 'a' ≤ c ∧ c ≤ 'z') ∧
    r.id ∉ used ∧
    (slugify (cleanTitle (stripWS headingText)) ∉ used →
      r.id = slugify (cleanTitle (stripWS headingText))) := by
  unfold parseHeadingMarker at hParse
  by_cases hraw : stripWS headingText = []
  · rw [if_pos hraw] at hParse
    cases hParse
  · rw [if_neg hraw] at hParse
    cases htype : extractSectionTypeWithFallback (stripWS headingText) fallbackFill with
    | none => rw [htype] at hParse; cases hParse
    | some st =>
      rw [htype, hNoId] at hParse
      have hid : r.id = dedupeId (slugify (cleanTitle (stripWS headingText))) used := by
        have := congrArg Prod.fst hParse
        simp only at this
        cases this
        rfl
      set slug := slugify (cleanTitle (stripWS headingText)) with hslug
      obtain ⟨c, rest, hcons⟩ : ∃ c rest, slug = c :: rest := by
        cases hsl : slug with
        | nil => exact absurd hsl (slugify_ne_nil _)
        | cons c rest => exact ⟨c, rest, rfl⟩
      refine ⟨?_, ?_, ?_, ?_, ?_⟩
      · rw [hid]
        obtain ⟨rest', h'⟩ := dedupeId_head slug used c rest hcons
        rw [h']
        simp
      · intro ch hch
        rw [hid] at hch
        rcases dedupeId_chars slug used ch hch with h' | h' | h'
        · rcases slugify_chars _ ch h' with h'' | h''
          · unfold isSlugChar at h''
            rcases Bool.or_eq_true_iff.mp h'' with hlz | hdig
            · exact Or.inl ⟨by simpa using (Bool.and_eq_true_iff.mp hlz).1,
                by simpa using (Bool.and_eq_true_iff.mp hlz).2⟩
            · exact Or.inr (Or.inl hdig)
          · exact Or.inr (Or.inr h'')
        · exact Or.inr (Or.inr h')
        · exact Or.inr (Or.inl h')
      · intro ch rest' h'
        rw [hid] at h'
        obtain ⟨rest'', h''⟩ := dedupeId_head slug used c rest hcons
        rw [h''] at h'
        cases h'
        exact slugify_head _ _ _ hcons
      · rw [hid]
        exact dedupeId_not_mem _ _
      · intro hfree
        rw [hid]
        unfold dedupeId
        rw [if_neg hfree]

/-- Witness for C10 on a concrete untagged heading with a used-id
collision. -/
theorem C10_derived_id_witness :
    extractId (stripWS (str "[FILL] Executive Summary!")) = none ∧
    (parseHeadingMarker (str "[FILL] Executive Summary!") false
        [str "executive_summary"]).1 =
      some ⟨.fill, str "executive_summary_2", str "Executive Summary!"⟩ ∧
    str "executive_summary_2" ∉ [str "executive_summary"] := by
  refine ⟨by decide, ?_, by decide⟩
  have h := C10_derived_id_properties (str "[FILL] Executive Summary!") false
    [str "executive_summary"] (by decide)
  decide

/-! ## C4: per-section failure isolation of `generate_draft` -/

theorem generateSectionsAux_get? (oracle : Nat → Except Str (List (Str × YVal))) :
    ∀ (secs : List TemplateSection) (i j : Nat),
      (generateSectionsAux oracle i secs)[j]? =
        (secs[j]?).map (fun sec =>
          match oracle (i + j) with
          | .ok payload => responseToDraftSection payload sec.id sec.title
          | .error msg => agentErrorStub sec msg) := by
  intro secs
  induction secs with
  | nil => intro i j; simp [generateSectionsAux]
  | cons sec rest ih =>
    intro i j
    cases j with
    | zero => simp [generateSectionsAux]
    | succ j' =>
      simp only [generateSectionsAux, List.getElem?_cons_succ]
      rw [ih (i + 1) j']
      have : i + 1 + j' = i + (j' + 1) := by omega
      rw [this]

theorem generateSectionsAux_length (oracle : Nat → Except Str (List (Str × YVal))) :
    ∀ (secs : List TemplateSection) (i : Nat),
      (generateSectionsAux oracle i secs).length = secs.length := by
  intro secs
  induction secs with
  | nil => intro i; rfl
  | cons sec rest ih => intro i; simp [generateSectionsAux, ih]

/-- **C4.** For a parsed template with `N` fill sections, if the
generation oracle fails (throws) for exactly one position `k` and
succeeds elsewhere, `generate_draft` still returns a `DraftDocument`
with `N` sections in template order: the failed position holds the
`Partial` stub with a single failure-describing missing item, and every
other position holds exactly the section its own response would produce. -/
theorem C4_failure_isolation (template : ParsedTemplate)
    (oracle : Nat → Except Str (List (Str × YVal))) (k : Nat)
    (_hk : k < (fillSections template).length)
    (msg : Str) (hfail : oracle k = .error msg)
    (_hok : ∀ i < (fillSections template).length, i ≠ k → ∃ p, oracle i = .ok p) :
    (generateDraft template oracle).sections.length = (fillSections template).length ∧
    (∀ i : Nat, ((generateDraft template oracle).sections[i]?).map
        (fun s : DraftSection => s.id) =
      ((fillSections template)[i]?).map (fun s : TemplateSection => s.id)) ∧
    ((generateDraft template oracle).sections[k]? =
      ((fillSections template)[k]?).map (fun sec => agentErrorStub sec msg)) ∧
    (∀ sec, (agentErrorStub sec msg).status = .Partial ∧
      (agentErrorStub sec msg).missingItems.length = 1) ∧
    (∀ i : Nat, i ≠ k → ∀ p, oracle i = .ok p →
      (generateDraft template oracle).sections[i]? =
        ((fillSections template)[i]?).map (fun sec =>
          responseToDraftSection p sec.id sec.title)) := by
  have hGen : (generateDraft template oracle).sections =
      generateSectionsAux oracle 0 (fillSections template) := rfl
  refine ⟨?_, ?_, ?_, ?_, ?_⟩
  · rw [hGen]
    exact generateSectionsAux_length oracle _ 0
  · intro i
    rw [hGen, generateSectionsAux_get? oracle _ 0 i]
    cases h : (fillSections template)[i]? with
    | none => rfl
    | some sec =>
      simp only [Option.map_some']
      cases h2 : oracle (0 + i) <;> rfl
  · rw [hGen, generateSectionsAux_get? oracle _ 0 k]
    cases h : (fillSections template)[k]? with
    | none => rfl
    | some sec =>
      simp only [Option.map_some']
      rw [show (0 + k) = k by omega, hfail]
  · intro sec
    exact ⟨rfl, rfl⟩
  · intro i hne p hp
    rw [hGen, generateSectionsAux_get? oracle _ 0 i]
    cases h : (fillSections template)[i]? with
    | none => rfl
    | some sec =>
      simp only [Option.map_some']
      rw [show (0 + i) = i by omega, hp]

/-- Witness for C4 on a concrete two-fill-section template whose first
section's generation fails. -/
theorem C4_failure_isolation_witness :
    (generateDraft c4Template c4Oracle).sections.length = 2 ∧
    ((generateDraft c4Template c4Oracle).sections[0]?).map
      (fun s : DraftSection => s.status) = some .Partial ∧
    ((generateDraft c4Template c4Oracle).sections[0]?).map
      (fun s : DraftSection => s.missingItems.length) = some 1 ∧
    ((generateDraft c4Template c4Oracle).sections[1]?).map
      (fun s : DraftSection => s.id) = some (str "data_description") := by
  have h := C4_failure_isolation c4Template c4Oracle 0 (by decide) (str "boom") rfl
    (fun i hi hne => by
      match i, hne with
      | 1, _ => exact ⟨[(str "body", .s (str "content")),
          (str "evidence", .list [.s (str "src.py:1")])], rfl⟩
      | i + 2, _ => simp [fillSections, c4Template] at hi)
  refine ⟨h.1.trans (by decide), ?_, ?_, ?_⟩
  · rw [h.2.2.1]
    decide
  · rw [h.2.2.1]
    decide
  · rw [h.2.1 1]
    decide

/-! ## C1: section-id uniqueness and the validators -/

theorem mem_usedAdd {a b : Str} {used : List Str} :
    a ∈ usedAdd b used ↔ a = b ∨ a ∈ used := by
  unfold usedAdd
  by_cases h : b ∈ used
  · rw [if_pos h]
    constructor
    · exact Or.inr
    · rintro (rfl | ha)
      · exact h
      · exact ha
  · rw [if_neg h]
    exact List.mem_cons

theorem phm_none {ht : Str} {fb : Bool} {used u' : List Str}
    (h : parseHeadingMarker ht fb used = (none, u')) : u' = used := by
  unfold parseHeadingMarker at h
  by_cases hraw : stripWS ht = []
  · rw [if_pos hraw] at h
    cases h
    rfl
  · rw [if_neg hraw] at h
    cases htype : extractSectionTypeWithFallback (stripWS ht) fb with
    | none => rw [htype] at h; cases h; rfl
    | some st =>
      rw [htype] at h
      exact absurd (congrArg Prod.fst h) (by simp)

theorem phm_some {ht : Str} {fb : Bool} {used u' : List Str} {r : MarkerResult}
    (h : parseHeadingMarker ht fb used = (some r, u')) :
    u' = usedAdd r.id used ∧
    (extractId (stripWS ht) = none →
      r.id = dedupeId (slugify (cleanTitle (stripWS ht))) used) := by
  unfold parseHeadingMarker at h
  by_cases hraw : stripWS ht = []
  · rw [if_pos hraw] at h
    cases h
  · rw [if_neg hraw] at h
    cases htype : extractSectionTypeWithFallback (stripWS ht) fb with
    | none => rw [htype] at h; cases h
    | some st =>
      rw [htype] at h
      cases hid : extractId (stripWS ht) with
      | none =>
        rw [hid] at h
        dsimp only at h
        rw [Prod.mk.injEq, Option.some.injEq] at h
        obtain ⟨h1, h2⟩ := h
        subst h1
        exact ⟨h2.symm, fun _ => rfl⟩
      | some explicitId =>
        rw [hid] at h
        dsimp only at h
        rw [Prod.mk.injEq, Option.some.injEq] at h
        obtain ⟨h1, h2⟩ := h
        subst h1
        exact ⟨h2.symm, fun hc => absurd hc (by simp [hid])⟩

theorem mdSectionsAux_nodup (text : Str) :
    ∀ (ms : List (Nat × Nat × Str)) (idx : Nat) (used : List Str),
      (∀ m ∈ ms, extractId (stripWS m.2.2) = none) →
      (((mdSectionsAux text idx used ms).map (fun s => s.id)).Nodup ∧
        ∀ s ∈ mdSectionsAux text idx used ms, s.id ∉ used) := by
  intro ms
  induction ms with
  | nil => intro idx used _; exact ⟨List.nodup_nil, fun s hs => absurd hs (List.not_mem_nil s)⟩
  | cons m rest ih =>
    intro idx used hno
    obtain ⟨hS, hE, ht⟩ := m
    rcases hp : parseHeadingMarker ht false used with ⟨o, used'⟩
    cases o with
    | none =>
      simp only [mdSectionsAux, hp]
      rw [phm_none hp]
      exact ih (idx + 1) used (fun m hm => hno m (List.mem_cons_of_mem _ hm))
    | some marker =>
      obtain ⟨hused, hidf⟩ := phm_some hp
      have hNoId : extractId (stripWS ht) = none := hno (hS, hE, ht) (List.mem_cons_self _ _)
      have hnotmem : marker.id ∉ used := by
        rw [hidf hNoId]
        exact dedupeId_not_mem _ _
      have hrec := ih (idx + 1) (usedAdd marker.id used)
        (fun m hm => hno m (List.mem_cons_of_mem _ hm))
      simp only [mdSectionsAux, hp]
      rw [hused]
      constructor
      · rw [List.map_cons, List.nodup_cons]
        refine ⟨?_, hrec.1⟩
        intro hmem
        rcases List.mem_map.mp hmem with ⟨s, hs, hks⟩
        exact (hrec.2 s hs) (mem_usedAdd.mpr (Or.inl hks))
      · intro s hs
        rcases List.mem_cons.mp hs with rfl | hs'
        · exact hnotmem
        · intro hmem
          exact (hrec.2 s hs') (mem_usedAdd.mpr (Or.inr hmem))

theorem dupIdErrorsAux_eq_nil_iff :
    ∀ (l : List TemplateSection) (seen : List Str),
      dupIdErrorsAux seen l = [] ↔
        ((l.map (fun s => s.id)).Nodup ∧ ∀ s ∈ l, s.id ∉ seen) := by
  intro l
  induction l with
  | nil => intro seen; simp [dupIdErrorsAux]
  | cons s rest ih =>
    intro seen
    by_cases hs : s.id ∈ seen
    · rw [dupIdErrorsAux, if_pos hs]
      refine iff_of_false (by simp) ?_
      rintro ⟨-, hall⟩
      exact (hall s (List.mem_cons_self _ _)) hs
    · rw [dupIdErrorsAux, if_neg hs, ih (usedAdd s.id seen)]
      constructor
      · rintro ⟨hnd, hall⟩
        refine ⟨?_, ?_⟩
        · rw [List.map_cons, List.nodup_cons]
          refine ⟨?_, hnd⟩
          intro hmem
          rcases List.mem_map.mp hmem with ⟨t, ht, hkt⟩
          exact (hall t ht) (mem_usedAdd.mpr (Or.inl hkt))
        · intro t ht
          rcases List.mem_cons.mp ht with rfl | ht'
          · exact hs
          · intro hmem
            exact (hall t ht') (mem_usedAdd.mpr (Or.inr hmem))
      · rintro ⟨hnd, hall⟩
        rw [List.map_cons, List.nodup_cons] at hnd
        refine ⟨hnd.2, ?_⟩
        intro t ht hmem
        rcases mem_usedAdd.mp hmem with heq | hmem'
        · exact hnd.1 (List.mem_map.mpr ⟨t, ht, heq⟩)
        · exact (hall t (List.mem_cons_of_mem _ ht)) hmem'

theorem dupIdErrorsAux_prefix :
    ∀ (l : List TemplateSection) (seen : List Str),
      ∀ e ∈ dupIdErrorsAux seen l, (str "Duplicate section ID: ").isPrefixOf e = true := by
  intro l
  induction l with
  | nil => intro seen e he; cases he
  | cons s rest ih =>
    intro seen e he
    by_cases hs : s.id ∈ seen
    · rw [dupIdErrorsAux, if_pos hs] at he
      rcases List.mem_cons.mp he with rfl | he'
      · exact List.isPrefixOf_iff_prefix.mpr (List.prefix_append _ _)
      · exact ih _ e he'
    · rw [dupIdErrorsAux, if_neg hs] at he
      exact ih _ e he

/-- **C1 (amended).** Section ids derived without explicit `[ID:...]`
tags are deduplicated during a parse, so they are pairwise distinct;
and the generic template validator's error list contains a
`Duplicate section ID` error exactly when some pair of parsed section
ids collides (explicit tags being the only way such a collision can
arise).  The markdown-specific validator performs no uniqueness check,
as the counterexample shows. -/
theorem C1_id_uniqueness_amended (text : Str) (parsed : ParsedTemplate) :
    ((∀ m ∈ headingMatches text, extractId (stripWS m.2.2) = none) →
      ((parseMarkdownTemplate text).sections.map (fun s => s.id)).Nodup) ∧
    (parsed.parserErrors = [] →
      ((∃ e ∈ validateTemplate parsed, (str "Duplicate section ID: ").isPrefixOf e = true) ↔
        ¬ ((parsed.sections.map (fun s => s.id)).Nodup))) := by
  constructor
  · intro hno
    exact (mdSectionsAux_nodup text (headingMatches text) 0 [] hno).1
  · intro hpe
    unfold validateTemplate
    rw [hpe]
    by_cases hnil : parsed.sections = []
    · rw [if_pos hnil]
      constructor
      · rintro ⟨e, he, hpre⟩
        have he' : e = str "No template sections found with marker tags or heading sections." := by
          simpa using he
        subst he'
        exact absurd hpre (by decide)
      · intro hnd
        exact absurd (by rw [hnil]; exact List.nodup_nil) hnd
    · rw [if_neg hnil]
      simp only [List.nil_append]
      have key : (∃ e ∈ dupIdErrorsAux [] parsed.sections,
          (str "Duplicate section ID: ").isPrefixOf e = true) ↔
          ¬ ((parsed.sections.map (fun s => s.id)).Nodup) := by
        constructor
        · rintro ⟨e, he, -⟩ hnd
          have : dupIdErrorsAux [] parsed.sections = [] :=
            (dupIdErrorsAux_eq_nil_iff _ _).mpr ⟨hnd, fun s _ h => (List.not_mem_nil _ h)⟩
          rw [this] at he
          cases he
        · intro hnd
          cases hde : dupIdErrorsAux [] parsed.sections with
          | nil =>
            exact absurd ((dupIdErrorsAux_eq_nil_iff _ _).mp hde).1 hnd
          | cons e rest =>
            refine ⟨e, List.mem_cons_self _ _,
              dupIdErrorsAux_prefix parsed.sections [] e ?_⟩
            rw [hde]
            exact List.mem_cons_self _ _
      by_cases hfill : parsed.sections.any (fun s => s.sectionType = .fill)
      · rw [if_pos hfill]
        exact key
      · rw [if_neg hfill]
        constructor
        · rintro ⟨e, he, hpre⟩
          rcases List.mem_append.mp he with he' | he'
          · exact key.mp ⟨e, he', hpre⟩
          · rcases List.mem_cons.mp he' with rfl | h'
            · cases hpre
            · cases h'
        · intro hnd
          obtain ⟨e, he, hpre⟩ := key.mpr hnd
          exact ⟨e, List.mem_append.mpr (Or.inl he), hpre⟩

set_option maxRecDepth 10000 in
/-- Witness for C1's amended statement: a template with no explicit id
tags parses to distinct ids, and the duplicate-id characterisation of
the generic validator applied to the duplicate-id template. -/
theorem C1_id_uniqueness_witness :
    ((parseMarkdownTemplate (str "# [FILL] Alpha\n[[SECTION_CONTENT]]\n# [SKIP] Alpha\nbody\n")).sections.map
      (fun s => s.id)).Nodup ∧
    ∃ e ∈ validateTemplate (parseMarkdownTemplate dupIdTemplate),
      (str "Duplicate section ID: ").isPrefixOf e = true := by
  constructor
  · exact (C1_id_uniqueness_amended
      (str "# [FILL] Alpha\n[[SECTION_CONTENT]]\n# [SKIP] Alpha\nbody\n")
      (parseMarkdownTemplate dupIdTemplate)).1 (by decide)
  · exact ((C1_id_uniqueness_amended
      (str "# [FILL] Alpha\n[[SECTION_CONTENT]]\n# [SKIP] Alpha\nbody\n")
      (parseMarkdownTemplate dupIdTemplate)).2 (by decide)).mpr (by decide)

set_option maxRecDepth 10000 in
/-- **C1 (counterexample).** The repository's own duplicate-id template
parses to the id list `[same, same]` — parsed section ids are *not*
pairwise distinct when headings carry explicit `[ID:...]` tags — while
the markdown validator reports no error at all, so validation does not
fail when a pair of ids collides. -/
theorem C1_counterexample :
    (parseMarkdownTemplate dupIdTemplate).sections.map (fun s => s.id) =
      [str "same", str "same"] ∧
    ¬ (((parseMarkdownTemplate dupIdTemplate).sections.map (fun s => s.id)).Nodup) ∧
    validateMarkdownTemplate (parseMarkdownTemplate dupIdTemplate) = [] := by
  refine ⟨by decide, by decide, by decide⟩

/-! ## C6: the draft-parse metadata contract -/

theorem exceptMapM_ok_iff {α β ε : Type} (l : List α) (f : α → Except ε β) :
    (∃ r, exceptMapM f l = .ok r) ↔ ∀ x ∈ l, ∃ y, f x = .ok y := by
  induction l with
  | nil =>
    refine iff_of_true ⟨[], rfl⟩ ?_
    intro x hx
    cases hx
  | cons a rest ih =>
    constructor
    · rintro ⟨r, hr⟩ x hx
      rw [exceptMapM] at hr
      cases hfa : f a with
      | error e =>
        rw [hfa] at hr
        exact Except.noConfusion hr
      | ok y =>
        rw [hfa] at hr
        simp only [Bind.bind, Except.bind] at hr
        cases hrest : exceptMapM f rest with
        | error e =>
          rw [hrest] at hr
          exact Except.noConfusion hr
        | ok rs =>
          rcases List.mem_cons.mp hx with rfl | hx'
          · exact ⟨y, hfa⟩
          · exact ih.mp ⟨rs, hrest⟩ x hx'
    · intro hall
      obtain ⟨y, hy⟩ := hall a (List.mem_cons_self _ _)
      obtain ⟨rs, hrs⟩ := ih.mpr (fun x hx => hall x (List.mem_cons_of_mem _ hx))
      refine ⟨y :: rs, ?_⟩
      rw [exceptMapM, hy]
      simp only [Bind.bind, Except.bind]
      rw [hrs]

theorem exceptMapM_ok_length {α β ε : Type} (l : List α) (f : α → Except ε β)
    (r : List β) (h : exceptMapM f l = .ok r) : r.length = l.length := by
  induction l generalizing r with
  | nil =>
    rw [exceptMapM] at h
    cases h
    rfl
  | cons a rest ih =>
    rw [exceptMapM] at h
    cases hfa : f a with
    | error e =>
      rw [hfa] at h
      exact Except.noConfusion h
    | ok y =>
      rw [hfa] at h
      cases hrest : exceptMapM f rest with
      | error e =>
        rw [hrest] at h
        exact Except.noConfusion h
      | ok rs =>
        rw [hrest] at h
        cases h
        simp [ih rs hrest]

theorem ymGet_isSome_of_mem (fields : List (Str × YVal)) (k : Str)
    (h : ymMem fields k = true) : ∃ v, ymGet fields k = some v := by
  unfold ymMem at h
  rw [List.any_eq_true] at h
  obtain ⟨e, he, hk⟩ := h
  have hsome : (fields.reverse.find? (fun p => p.1 = k)).isSome := by
    rw [List.find?_isSome]
    exact ⟨e, List.mem_reverse.mpr he, hk⟩
  rcases Option.isSome_iff_exists.mp hsome with ⟨v, hv⟩
  exact ⟨v.2, by unfold ymGet; rw [hv]; rfl⟩

theorem parseCheckboxesStrict_ok_iff (raw : YVal) (sectionId : Str) :
    (∃ r, parseCheckboxesStrict raw sectionId = .ok r) ↔
      (match raw with
       | .list xs => xs.all (fun e => match e with
          | .map fs => ymMem fs (str "name")
          | _ => false)
       | _ => false) = true := by
  cases raw with
  | list xs =>
    unfold parseCheckboxesStrict
    rw [exceptMapM_ok_iff]
    simp only [List.all_eq_true]
    constructor
    · intro hall e he
      obtain ⟨y, hy⟩ := hall e he
      cases e with
      | map fs =>
        dsimp only at hy
        by_contra hm
        rw [if_neg (by simpa using hm)] at hy
        exact Except.noConfusion hy
      | s v => exact Except.noConfusion hy
      | b v => exact Except.noConfusion hy
      | null => exact Except.noConfusion hy
      | list ys => exact Except.noConfusion hy
    · intro hall e he
      have hm := hall e he
      cases e with
      | map fs =>
        dsimp only
        obtain ⟨v, hv⟩ := ymGet_isSome_of_mem fs _ (by simpa using hm)
        rw [if_pos (by simpa using hm), hv]
        exact ⟨_, rfl⟩
      | s v => exact absurd hm (by simp)
      | b v => exact absurd hm (by simp)
      | null => exact absurd hm (by simp)
      | list ys => exact absurd hm (by simp)
  | s v => exact iff_of_false (by rintro ⟨r, hr⟩; exact Except.noConfusion hr) (by simp)
  | b v => exact iff_of_false (by rintro ⟨r, hr⟩; exact Except.noConfusion hr) (by simp)
  | null => exact iff_of_false (by rintro ⟨r, hr⟩; exact Except.noConfusion hr) (by simp)
  | map fs => exact iff_of_false (by rintro ⟨r, hr⟩; exact Except.noConfusion hr) (by simp)

theorem parseStrList_ok_iff (raw : YVal) (sectionId field : Str) :
    (∃ r, parseStrList raw sectionId field = .ok r) ↔
      (match raw with
       | .list xs => xs.all (fun e => match e with | .s _ => true | _ => false)
       | _ => false) = true := by
  cases raw with
  | list xs =>
    unfold parseStrList
    dsimp only
    by_cases hall : xs.all (fun e => match e with | .s _ => true | _ => false) = true
    · rw [if_pos hall]
      exact iff_of_true ⟨_, rfl⟩ hall
    · rw [if_neg hall]
      exact iff_of_false (by rintro ⟨r, hr⟩; exact Except.noConfusion hr) hall
  | s v => exact iff_of_false (by rintro ⟨r, hr⟩; exact Except.noConfusion hr) (by simp)
  | b v => exact iff_of_false (by rintro ⟨r, hr⟩; exact Except.noConfusion hr) (by simp)
  | null => exact iff_of_false (by rintro ⟨r, hr⟩; exact Except.noConfusion hr) (by simp)
  | map fs => exact iff_of_false (by rintro ⟨r, hr⟩; exact Except.noConfusion hr) (by simp)

theorem parseMissingItemsStrict_ok_iff (raw : YVal) (sectionId : Str) :
    (∃ r, parseMissingItemsStrict raw sectionId = .ok r) ↔
      (match raw with
       | .list xs => xs.all (fun e => match e with
          | .map fs => ymMem fs (str "id") && ymMem fs (str "question")
          | _ => false)
       | _ => false) = true := by
  cases raw with
  | list xs =>
    unfold parseMissingItemsStrict
    rw [exceptMapM_ok_iff]
    simp only [List.all_eq_true]
    constructor
    · intro hall e he
      obtain ⟨y, hy⟩ := hall e he
      cases e with
      | map fs =>
        dsimp only at hy
        by_contra hm
        simp only [Bool.and_eq_true] at hm
        rw [if_neg (by simpa [Decidable.not_and_iff_or_not] using hm)] at hy
        exact Except.noConfusion hy
      | s v => exact Except.noConfusion hy
      | b v => exact Except.noConfusion hy
      | null => exact Except.noConfusion hy
      | list ys => exact Except.noConfusion hy
    · intro hall e he
      have hm := hall e he
      cases e with
      | map fs =>
        dsimp only
        simp only [Bool.and_eq_true] at hm
        rw [if_pos ⟨hm.1, hm.2⟩]
        exact ⟨_, rfl⟩
      | s v => exact absurd hm (by simp)
      | b v => exact absurd hm (by simp)
      | null => exact absurd hm (by simp)
      | list ys => exact absurd hm (by simp)
  | s v => exact iff_of_false (by rintro ⟨r, hr⟩; exact Except.noConfusion hr) (by simp)
  | b v => exact iff_of_false (by rintro ⟨r, hr⟩; exact Except.noConfusion hr) (by simp)
  | null => exact iff_of_false (by rintro ⟨r, hr⟩; exact Except.noConfusion hr) (by simp)
  | map fs => exact iff_of_false (by rintro ⟨r, hr⟩; exact Except.noConfusion hr) (by simp)

theorem metadataTail_iff (fields : List (Str × YVal)) (sectionId : Str) (st : DraftStatus)
    (hkeys : ([str "status", str "checkboxes", str "attachments", str "evidence",
      str "missing_items"].all (ymMem fields)) = true)
    (hstatus : (statusOf ((ymGet fields (str "status")).getD .null)).isSome = true) :
    (∃ md, (do
      let checkboxes ← parseCheckboxesStrict ((ymGet fields (str "checkboxes")).getD .null) sectionId
      let attachments ← parseStrList ((ymGet fields (str "attachments")).getD .null) sectionId (str "attachments")
      let evidence ← parseStrList ((ymGet fields (str "evidence")).getD .null) sectionId (str "evidence")
      let missingItems ← parseMissingItemsStrict ((ymGet fields (str "missing_items")).getD .null) sectionId
      (.ok { status := st, checkboxes := checkboxes, attachments := attachments,
             evidence := evidence, missingItems := missingItems } : Except DraftErr Metadata)) = .ok md) ↔
      metadataWellFormed (.map fields) = true := by
  have hRHS : metadataWellFormed (.map fields) = true ↔
      ((∃ r, parseCheckboxesStrict ((ymGet fields (str "checkboxes")).getD .null) sectionId = .ok r) ∧
       (∃ r, parseStrList ((ymGet fields (str "attachments")).getD .null) sectionId (str "attachments") = .ok r) ∧
       (∃ r, parseStrList ((ymGet fields (str "evidence")).getD .null) sectionId (str "evidence") = .ok r) ∧
       (∃ r, parseMissingItemsStrict ((ymGet fields (str "missing_items")).getD .null) sectionId = .ok r)) := by
    rw [parseCheckboxesStrict_ok_iff, parseStrList_ok_iff, parseStrList_ok_iff,
      parseMissingItemsStrict_ok_iff]
    simp only [metadataWellFormed, Bool.and_eq_true]
    constructor
    · rintro ⟨⟨⟨⟨⟨-, -⟩, h3⟩, h4⟩, h5⟩, h6⟩
      exact ⟨h3, h4, h5, h6⟩
    · rintro ⟨h3, h4, h5, h6⟩
      exact ⟨⟨⟨⟨⟨hkeys, hstatus⟩, h3⟩, h4⟩, h5⟩, h6⟩
  rw [hRHS]
  cases hcb : parseCheckboxesStrict ((ymGet fields (str "checkboxes")).getD .null) sectionId with
  | error e =>
    refine iff_of_false ?_ ?_
    · rintro ⟨md, hmd⟩
      simp only [Bind.bind, Except.bind, hcb] at hmd
      exact Except.noConfusion hmd
    · rintro ⟨⟨r, hr⟩, -⟩
      exact Except.noConfusion hr
  | ok cb =>
    cases hatt : parseStrList ((ymGet fields (str "attachments")).getD .null) sectionId (str "attachments") with
    | error e =>
      refine iff_of_false ?_ ?_
      · rintro ⟨md, hmd⟩
        simp only [Bind.bind, Except.bind, hcb, hatt] at hmd
        exact Except.noConfusion hmd
      · rintro ⟨-, ⟨r, hr⟩, -⟩
        exact Except.noConfusion hr
    | ok att =>
      cases hev : parseStrList ((ymGet fields (str "evidence")).getD .null) sectionId (str "evidence") with
      | error e =>
        refine iff_of_false ?_ ?_
        · rintro ⟨md, hmd⟩
          simp only [Bind.bind, Except.bind, hcb, hatt, hev] at hmd
          exact Except.noConfusion hmd
        · rintro ⟨-, -, ⟨r, hr⟩, -⟩
          exact Except.noConfusion hr
      | ok ev =>
        cases hmi : parseMissingItemsStrict ((ymGet fields (str "missing_items")).getD .null) sectionId with
        | error e =>
          refine iff_of_false ?_ ?_
          · rintro ⟨md, hmd⟩
            simp only [Bind.bind, Except.bind, hcb, hatt, hev, hmi] at hmd
            exact Except.noConfusion hmd
          · rintro ⟨-, -, -, r, hr⟩
            exact Except.noConfusion hr
        | ok mi =>
          refine iff_of_true (Exists.intro (Metadata.mk st cb att ev mi) ?_)
            ⟨⟨cb, rfl⟩, ⟨att, rfl⟩, ⟨ev, rfl⟩, ⟨mi, rfl⟩⟩
          simp only [Bind.bind, Except.bind, hcb, hatt, hev, hmi]

theorem parseMetadata_ok_iff (yamlText sectionId : Str) :
    (∃ md, parseMetadata yamlText sectionId = .ok md) ↔
      (∃ v, loadYaml yamlText = some v ∧ metadataWellFormed v = true) := by
  unfold parseMetadata
  cases hl : loadYaml yamlText with
  | none =>
    refine iff_of_false (by rintro ⟨md, hmd⟩; exact Except.noConfusion hmd) ?_
    rintro ⟨v, hv, -⟩
    exact Option.noConfusion hv
  | some raw =>
    have hRHS : (∃ v, some raw = some v ∧ metadataWellFormed v = true) ↔
        metadataWellFormed raw = true := by
      constructor
      · rintro ⟨v, hv, hwf⟩
        cases hv
        exact hwf
      · intro hwf
        exact ⟨raw, rfl, hwf⟩
    rw [hRHS]
    cases raw with
    | s v => exact iff_of_false (by rintro ⟨md, hmd⟩; exact Except.noConfusion hmd) (by simp [metadataWellFormed])
    | b v => exact iff_of_false (by rintro ⟨md, hmd⟩; exact Except.noConfusion hmd) (by simp [metadataWellFormed])
    | null => exact iff_of_false (by rintro ⟨md, hmd⟩; exact Except.noConfusion hmd) (by simp [metadataWellFormed])
    | list xs => exact iff_of_false (by rintro ⟨md, hmd⟩; exact Except.noConfusion hmd) (by simp [metadataWellFormed])
    | map fields =>
      dsimp only
      by_cases hmiss : ([str "status", str "checkboxes", str "attachments",
          str "evidence", str "missing_items"].filter (fun k => ¬ ymMem fields k)) ≠ []
      · rw [if_pos hmiss]
        refine iff_of_false (by rintro ⟨md, hmd⟩; exact Except.noConfusion hmd) ?_
        intro hwf
        apply hmiss
        rw [List.filter_eq_nil_iff]
        intro k hk
        simp only [metadataWellFormed, Bool.and_eq_true, List.all_eq_true] at hwf
        have := hwf.1.1.1.1.1 k hk
        simp [this]
      · rw [if_neg hmiss]
        push_neg at hmiss
        have hkeys : ([str "status", str "checkboxes", str "attachments",
            str "evidence", str "missing_items"].all (ymMem fields)) = true := by
          rw [List.all_eq_true]
          intro k hk
          by_contra hc
          have : k ∈ ([str "status", str "checkboxes", str "attachments",
              str "evidence", str "missing_items"].filter (fun k => ¬ ymMem fields k)) :=
            List.mem_filter.mpr ⟨hk, by simpa using hc⟩
          rw [hmiss] at this
          cases this
        have hstatFalse : ∀ hstat :
            (statusOf ((ymGet fields (str "status")).getD .null)).isSome = false,
            ((∃ md, (Except.error (DraftErr.draftParse (str "Section '" ++ sectionId ++
              str "' has invalid status. Expected 'complete' or 'partial'.")) :
                Except DraftErr Metadata) = .ok md) ↔
              metadataWellFormed (.map fields) = true) := by
          intro hstat
          refine iff_of_false (by rintro ⟨md, hmd⟩; exact Except.noConfusion hmd) ?_
          intro hwf
          simp only [metadataWellFormed, Bool.and_eq_true] at hwf
          rw [hwf.1.1.1.1.2] at hstat
          exact Bool.noConfusion hstat
        cases hst : statusOf ((ymGet fields (str "status")).getD YVal.null) with
        | none => exact hstatFalse (by rw [hst]; rfl)
        | some st => exact metadataTail_iff fields sectionId st hkeys (by rw [hst]; rfl)

theorem mkDraftSection_ok_iff (id title : Str) (st : DraftStatus) (cbs : List CheckboxToken)
    (atts evs : List Str) (mis : List MissingItem) (body : Str) :
    (∃ s, mkDraftSection id title st cbs atts evs mis body = .ok s) ↔ (evs ≠ [] ∨ mis ≠ []) := by
  unfold mkDraftSection
  dsimp only [DraftSection.evidenceOrMissing]
  by_cases he : evs ≠ [] ∨ mis ≠ []
  · rw [if_pos (by simpa using he)]
    exact iff_of_true ⟨_, rfl⟩ he
  · rw [if_neg (by simpa using he)]
    exact iff_of_false (by rintro ⟨s, hs⟩; exact Except.noConfusion hs) he

theorem parseDraftChunk_ok_iff (chunk id title : Str) :
    (∃ s, parseDraftChunk chunk id title = .ok s) ↔
      (∃ q, yamlFind chunk = some q ∧
        ∃ md, parseMetadata q.2 id = .ok md ∧
          (md.evidence ≠ [] ∨ md.missingItems ≠ [])) := by
  unfold parseDraftChunk
  cases hy : yamlFind chunk with
  | none =>
    refine iff_of_false (by rintro ⟨s, hs⟩; exact Except.noConfusion hs) ?_
    rintro ⟨q, hq, -⟩
    exact Option.noConfusion hq
  | some q =>
    obtain ⟨yEnd, yText⟩ := q
    dsimp only
    cases hm : parseMetadata yText id with
    | error e =>
      refine iff_of_false ?_ ?_
      · rintro ⟨s, hs⟩
        simp only [Bind.bind, Except.bind, hm] at hs
        exact Except.noConfusion hs
      · rintro ⟨q', hq', md', hmd', -⟩
        injection hq' with hq''
        subst hq''
        dsimp only at hmd'
        rw [hm] at hmd'
        exact Except.noConfusion hmd'
    | ok md =>
      have hmk := mkDraftSection_ok_iff id title md.status md.checkboxes md.attachments
        md.evidence md.missingItems (stripWS (chunk.drop yEnd))
      constructor
      · rintro ⟨s, hs⟩
        simp only [Bind.bind, Except.bind, hm] at hs
        exact ⟨(yEnd, yText), rfl, md, hm, hmk.mp ⟨s, hs⟩⟩
      · rintro ⟨q', hq', md', hmd', hev⟩
        injection hq' with hq''
        subst hq''
        dsimp only at hmd'
        rw [hm] at hmd'
        injection hmd' with hmd''
        subst hmd''
        obtain ⟨s, hs⟩ := hmk.mpr hev
        refine ⟨s, ?_⟩
        simp only [Bind.bind, Except.bind, hm]
        exact hs

theorem parseDraftText_ok_iff (text : Str) :
    (∃ d, parseDraftText text = .ok d) ↔
      (draftHeaderMatches text ≠ [] ∧
        ∀ p ∈ draftChunkList text (draftHeaderMatches text),
          ∃ s, parseDraftChunk p.1 p.2.1 p.2.2 = .ok s) := by
  unfold parseDraftText
  dsimp only
  by_cases hh : draftHeaderMatches text = []
  · rw [if_pos hh]
    refine iff_of_false (by rintro ⟨d, hd⟩; exact Except.noConfusion hd) ?_
    rintro ⟨hne, -⟩
    exact hne hh
  · rw [if_neg hh]
    cases hc : draftChunksAux text (draftHeaderMatches text) with
    | error e =>
      refine iff_of_false ?_ ?_
      · rintro ⟨d, hd⟩
        exact Except.noConfusion hd
      · rintro ⟨-, hall⟩
        have hex : ∃ r, draftChunksAux text (draftHeaderMatches text) = .ok r := by
          exact (exceptMapM_ok_iff (draftChunkList text (draftHeaderMatches text))
            (fun (p : Str × Str × Str) => parseDraftChunk p.1 p.2.1 p.2.2)).mpr hall
        obtain ⟨r, hr⟩ := hex
        rw [hc] at hr
        exact Except.noConfusion hr
    | ok secs =>
      refine iff_of_true ⟨⟨secs⟩, ?_⟩ ⟨hh, ?_⟩
      · rfl
      · exact (exceptMapM_ok_iff (draftChunkList text (draftHeaderMatches text))
          (fun (p : Str × Str × Str) => parseDraftChunk p.1 p.2.1 p.2.2)).mp ⟨secs, hc⟩

set_option maxRecDepth 10000 in
/-- C6 (counterexample): the draft text `proseBeforeMetadata` places a
prose line between the section heading and the metadata block, so the
metadata block does not immediately follow its heading; `parse_draft_text`
nevertheless accepts it (silently discarding the prose), refuting the
claim that acceptance requires the metadata block to immediately follow
the heading. -/
theorem C6_counterexample :
    parseDraftText proseBeforeMetadata = .ok
      ⟨[{ id := str "x", title := str "Title", status := .Complete, checkboxes := [],
          attachments := [], evidence := [str "e.py:1"], missingItems := [],
          body := str "real body" }]⟩ ∧
    (str "```yaml").isPrefixOf (proseBeforeMetadata.drop 16) = false ∧
    slice proseBeforeMetadata 16 37 = str "prose before metadata" := by
  refine ⟨by decide, by decide, by decide⟩

/-- C6 (amended): `parse_draft_text` accepts a draft text iff it has at
least one section heading and every section chunk contains a fenced YAML
metadata block somewhere in the chunk (the first fence is used; text
before it is discarded, so the block need not immediately follow the
heading) whose loaded value is a mapping with all five required keys,
a status drawn from {complete, partial}, well-typed field values, and a
non-empty evidence or missing-items list; any violation makes the whole
parse return a section-scoped error and no `DraftDocument` at all. -/
theorem C6_strict_metadata_amended (text chunk id title yamlText sectionId : Str) :
    ((∃ d, parseDraftText text = .ok d) ↔
      (draftHeaderMatches text ≠ [] ∧
        ∀ p ∈ draftChunkList text (draftHeaderMatches text),
          ∃ s, parseDraftChunk p.1 p.2.1 p.2.2 = .ok s)) ∧
    ((∃ s, parseDraftChunk chunk id title = .ok s) ↔
      (∃ q, yamlFind chunk = some q ∧
        ∃ md, parseMetadata q.2 id = .ok md ∧
          (md.evidence ≠ [] ∨ md.missingItems ≠ []))) ∧
    ((∃ md, parseMetadata yamlText sectionId = .ok md) ↔
      (∃ v, loadYaml yamlText = some v ∧ metadataWellFormed v = true)) :=
  ⟨parseDraftText_ok_iff text, parseDraftChunk_ok_iff chunk id title,
   parseMetadata_ok_iff yamlText sectionId⟩

/-! ## C9: the missing substitution token is a pre-write terminal error -/

theorem mdApplyLoop_error (text : Str) (ranges : List SectionRange) (ctx : Str)
    (sections : List DraftSection) (s : DraftSection) (target : SectionRange)
    (hs : s ∈ sections)
    (htarget : fillLookup ranges s.id = some target)
    (htok : containsSub (slice text target.bodyStart target.bodyEnd) sectionContentToken = false) :
    ∃ e, mdApplyLoop text ranges ctx true sections = .error e := by
  induction sections with
  | nil => cases hs
  | cons a rest ih =>
    rw [List.mem_cons] at hs
    rcases hs with rfl | hs
    · have hrb : replaceSectionBody (slice text target.bodyStart target.bodyEnd) s ctx true =
          .error (.unsupportedTemplate (str "Section '" ++ s.id ++
            str "' is missing required token [[SECTION_CONTENT]].")) := by
        unfold replaceSectionBody
        rw [if_pos (by simp [htok]), if_neg (by simp)]
      refine ⟨.unsupportedTemplate (str "Section '" ++ s.id ++
        str "' is missing required token [[SECTION_CONTENT]]."), ?_⟩
      simp only [mdApplyLoop, htarget]
      simp only [Bind.bind, Except.bind, hrb]
    · cases hl : fillLookup ranges a.id with
      | none =>
        simp only [mdApplyLoop, hl]
        exact ih hs
      | some t =>
        cases hra : replaceSectionBody (slice text t.bodyStart t.bodyEnd) a ctx true with
        | error e =>
          refine ⟨e, ?_⟩
          simp only [mdApplyLoop, hl]
          simp only [Bind.bind, Except.bind, hra]
        | ok rb =>
          obtain ⟨e, he⟩ := ih hs
          refine ⟨e, ?_⟩
          simp only [mdApplyLoop, hl]
          simp only [Bind.bind, Except.bind, hra, he]

/-- **C9.** For the markdown format, if some draft section addresses a
fill range whose body has no literal `[[SECTION_CONTENT]]` token and the
call is not a force re-application of an already-applied document, then
`apply_draft_to_markdown_template` raises a terminal error and nothing
is written to the destination path. -/
theorem C9_missing_token_terminal (sourceText ctx : Str) (draft : DraftDocument)
    (force : Bool) (s : DraftSection) (target : SectionRange)
    (hreq : ¬ (force = true ∧ containsSub sourceText appliedMarkerMd = true))
    (hs : s ∈ draft.sections)
    (htarget : fillLookup (collectSectionRanges sourceText) s.id = some target)
    (htok : containsSub (slice sourceText target.bodyStart target.bodyEnd)
      sectionContentToken = false) :
    (∃ e, applyDraftToMarkdownTemplate sourceText draft force ctx = .error e) ∧
    mdApplyWritten sourceText draft force ctx = none := by
  have herr : ∃ e, applyDraftToMarkdownTemplate sourceText draft force ctx = .error e := by
    unfold applyDraftToMarkdownTemplate
    dsimp only
    by_cases halready : containsSub sourceText appliedMarkerMd = true ∧ ¬ force = true
    · rw [if_pos halready]
      exact ⟨.alreadyApplied, rfl⟩
    · rw [if_neg halready]
      have hreqb : (decide ¬ (force = true ∧ containsSub sourceText appliedMarkerMd = true)) =
          true := by simp only [decide_eq_true_eq]; exact hreq
      obtain ⟨e, he⟩ := mdApplyLoop_error sourceText (collectSectionRanges sourceText) ctx
        draft.sections s target hs htarget htok
      refine ⟨e, ?_⟩
      rw [hreqb]
      simp only [Bind.bind, Except.bind, he]
  obtain ⟨e, he⟩ := herr
  refine ⟨⟨e, he⟩, ?_⟩
  unfold mdApplyWritten
  rw [he]

set_option maxRecDepth 10000 in
/-- Witness for C9 at the concrete template `c9Template` (fill section
`x` without the token) and the draft `c5GoodDraft` addressing it. -/
theorem C9_missing_token_witness :
    (∃ e, applyDraftToMarkdownTemplate c9Template c5GoodDraft false
      (str "additional-context.md") = .error e) ∧
    mdApplyWritten c9Template c5GoodDraft false (str "additional-context.md") = none :=
  C9_missing_token_terminal c9Template (str "additional-context.md") c5GoodDraft false
    { id := str "x", title := str "A", status := .Complete, checkboxes := [],
      attachments := [], evidence := [str "e"], missingItems := [], body := str "hi" }
    { sectionType := .fill, sectionId := str "x", headingStart := 0, bodyStart := 17,
      bodyEnd := 32 }
    (by decide) (by decide) (by decide) (by decide)

/-! ## C3: behaviour of apply on an already-applied document -/

/-- C3 (counterexample): for the markdown format, the already-applied
error is raised before the destination is ever written — the markdown
applier never copies the template — so the destination is *not* left as
an untouched copy of the template; nothing is written at all. -/
theorem C3_counterexample :
    applyDraftToMarkdownTemplate appliedMdTemplate emptyDraft false
      (str "additional-context.md") = .error .alreadyApplied ∧
    mdApplyWritten appliedMdTemplate emptyDraft false (str "additional-context.md") = none ∧
    mdApplyWritten appliedMdTemplate emptyDraft false (str "additional-context.md") ≠
      some appliedMdTemplate := by
  refine ⟨by decide, by decide, by decide⟩

/-- **C3 (amended).** If the template document already contains the
literal idempotency marker and `force` is false, apply raises the
already-applied error in either format; the destination is left as an
untouched copy of the template in the DOCX format (which copies before
scanning), while in the markdown format nothing is written to the
destination at all. -/
theorem C3_already_applied_amended (sourceText ctx : Str) (templateBlocks : List DocxBlock)
    (draftMd draftDocx : DraftDocument)
    (hmd : containsSub sourceText appliedMarkerMd = true)
    (hdx : documentContainsMarker templateBlocks appliedMarkerDocx = true) :
    (applyDraftToMarkdownTemplate sourceText draftMd false ctx = .error .alreadyApplied ∧
      mdApplyWritten sourceText draftMd false ctx = none) ∧
    docxApplyEffect templateBlocks draftDocx false =
      (some templateBlocks, .error .alreadyApplied) := by
  have hmdApp : applyDraftToMarkdownTemplate sourceText draftMd false ctx =
      .error .alreadyApplied := by
    unfold applyDraftToMarkdownTemplate
    dsimp only
    rw [if_pos ⟨hmd, by simp⟩]
  refine ⟨⟨hmdApp, ?_⟩, ?_⟩
  · unfold mdApplyWritten
    rw [hmdApp]
  · unfold docxApplyEffect
    rw [if_pos ⟨hdx, by simp⟩]

/-- Witness for C3 at the concrete already-applied markdown template and
DOCX block list. -/
theorem C3_already_applied_witness :
    (applyDraftToMarkdownTemplate appliedMdTemplate emptyDraft false
        (str "additional-context.md") = .error .alreadyApplied ∧
      mdApplyWritten appliedMdTemplate emptyDraft false (str "additional-context.md") = none) ∧
    docxApplyEffect appliedDocxBlocks emptyDraft false =
      (some appliedDocxBlocks, .error .alreadyApplied) :=
  C3_already_applied_amended appliedMdTemplate (str "additional-context.md") appliedDocxBlocks
    emptyDraft emptyDraft (by decide) (by decide)

/-! ## C5: frame preservation for sections absent from the draft -/

theorem findSub_lt_length (s pat : Str) (i : Nat) (hp : pat ≠ [])
    (h : findSub s pat = some i) : i < s.length := by
  induction s generalizing i with
  | nil =>
    rw [findSub, if_neg hp] at h
    exact Option.noConfusion h
  | cons c rest ih =>
    rw [findSub] at h
    by_cases hpre : pat.isPrefixOf (c :: rest)
    · rw [if_pos hpre] at h
      injection h with h'
      subst h'
      simp
    · rw [if_neg hpre] at h
      cases hf : findSub rest pat with
      | none => rw [hf] at h; exact Option.noConfusion h
      | some j =>
        rw [hf] at h
        simp only [Option.map] at h
        injection h with h'
        subst h'
        have := ih j hf
        simp only [List.length_cons]
        omega

theorem lastIdxOf_lt_length (c : Char) (s : Str) (k : Nat)
    (h : lastIdxOf c s = some k) : k < s.length := by
  unfold lastIdxOf at h
  cases hf : findSub s.reverse [c] with
  | none => rw [hf] at h; exact Option.noConfusion h
  | some i =>
    rw [hf] at h
    simp only [Option.map] at h
    injection h with h'
    subst h'
    have hi := findSub_lt_length s.reverse [c] i (by simp) hf
    rw [List.length_reverse] at hi
    omega

theorem rstripWS_length_le (s : Str) : (rstripWS s).length ≤ s.length := by
  unfold rstripWS
  rw [List.length_reverse]
  calc (s.reverse.dropWhile pySpace).length ≤ s.reverse.length :=
        (List.dropWhile_sublist _).length_le
    _ = s.length := List.length_reverse s

theorem lazyTailMatch_bounds (text : Str) (w e : Nat) (g : Str)
    (h : lazyTailMatch text w = some (e, g)) : w < e ∧ e ≤ text.length := by
  unfold lazyTailMatch at h
  dsimp only at h
  by_cases hrun : (text.drop w).takeWhile pySpace = []
  · rw [if_pos hrun] at h; exact Option.noConfusion h
  · rw [if_neg hrun] at h
    have hrunlen : 1 ≤ ((text.drop w).takeWhile pySpace).length := by
      cases hx : (text.drop w).takeWhile pySpace with
      | nil => exact absurd hx hrun
      | cons y ys => simp
    have hrunle : ((text.drop w).takeWhile pySpace).length ≤ text.length - w := by
      calc ((text.drop w).takeWhile pySpace).length ≤ (text.drop w).length :=
            (List.takeWhile_sublist _).length_le
        _ = text.length - w := List.length_drop w text
    have hwlen : w < text.length := by
      by_contra hc
      push_neg at hc
      rw [List.drop_eq_nil_of_le hc] at hrun
      exact hrun rfl
    by_cases hend : w + ((text.drop w).takeWhile pySpace).length = text.length
    · rw [if_pos hend] at h
      cases hgl : ((((text.drop w).takeWhile pySpace).enum.filter
          (fun p => p.2 ≠ '\n')).getLast?) with
      | none => rw [hgl] at h; exact Option.noConfusion h
      | some p =>
        obtain ⟨i, ch⟩ := p
        rw [hgl] at h
        dsimp only at h
        by_cases hi : 1 ≤ i
        · rw [if_pos hi] at h
          injection h with h'
          have he : e = text.length := (congrArg Prod.fst h').symm
          omega
        · rw [if_neg hi] at h
          exact Option.noConfusion h
    · rw [if_neg hend] at h
      have hcontent : (rstripWS (((text.drop w).drop
          ((text.drop w).takeWhile pySpace).length).takeWhile (· ≠ '\n'))).length ≤
          text.length - w - ((text.drop w).takeWhile pySpace).length := by
        calc (rstripWS (((text.drop w).drop
              ((text.drop w).takeWhile pySpace).length).takeWhile (· ≠ '\n'))).length
            ≤ (((text.drop w).drop
              ((text.drop w).takeWhile pySpace).length).takeWhile (· ≠ '\n')).length :=
              rstripWS_length_le _
          _ ≤ ((text.drop w).drop ((text.drop w).takeWhile pySpace).length).length :=
              (List.takeWhile_sublist _).length_le
          _ = (text.drop w).length - ((text.drop w).takeWhile pySpace).length :=
              List.length_drop _ _
          _ = text.length - w - ((text.drop w).takeWhile pySpace).length := by
              rw [List.length_drop]
      by_cases hend2 : w + ((text.drop w).takeWhile pySpace).length +
          (rstripWS (((text.drop w).drop
            ((text.drop w).takeWhile pySpace).length).takeWhile (· ≠ '\n'))).length +
          ((text.drop (w + ((text.drop w).takeWhile pySpace).length +
            (rstripWS (((text.drop w).drop
              ((text.drop w).takeWhile pySpace).length).takeWhile (· ≠ '\n'))).length)).takeWhile
                pySpace).length = text.length
      · rw [if_pos hend2] at h
        injection h with h'
        have he : e = text.length := (congrArg Prod.fst h').symm
        omega
      · rw [if_neg hend2] at h
        cases hli : lastIdxOf '\n' ((text.drop (w + ((text.drop w).takeWhile pySpace).length +
            (rstripWS (((text.drop w).drop
              ((text.drop w).takeWhile pySpace).length).takeWhile (· ≠ '\n'))).length)).takeWhile
                pySpace) with
        | none => rw [hli] at h; exact Option.noConfusion h
        | some k =>
          rw [hli] at h
          injection h with h'
          have he : e = w + ((text.drop w).takeWhile pySpace).length +
              (rstripWS (((text.drop w).drop
                ((text.drop w).takeWhile pySpace).length).takeWhile (· ≠ '\n'))).length + k :=
            (congrArg Prod.fst h').symm
          have hk := lastIdxOf_lt_length _ _ _ hli
          have hrun2 : ((text.drop (w + ((text.drop w).takeWhile pySpace).length +
              (rstripWS (((text.drop w).drop
                ((text.drop w).takeWhile pySpace).length).takeWhile (· ≠ '\n'))).length)).takeWhile
                  pySpace).length ≤ text.length - (w + ((text.drop w).takeWhile pySpace).length +
              (rstripWS (((text.drop w).drop
                ((text.drop w).takeWhile pySpace).length).takeWhile (· ≠ '\n'))).length) := by
            calc ((text.drop (w + ((text.drop w).takeWhile pySpace).length +
                (rstripWS (((text.drop w).drop
                  ((text.drop w).takeWhile pySpace).length).takeWhile (· ≠ '\n'))).length)).takeWhile
                    pySpace).length
                ≤ (text.drop (w + ((text.drop w).takeWhile pySpace).length +
                  (rstripWS (((text.drop w).drop
                    ((text.drop w).takeWhile pySpace).length).takeWhile (· ≠ '\n'))).length)).length :=
                  (List.takeWhile_sublist _).length_le
              _ = _ := List.length_drop _ _
          omega

theorem headingMatchAt_bounds (text : Str) (a e : Nat) (g : Str)
    (h : headingMatchAt text a = some (e, g)) : a < e ∧ e ≤ text.length := by
  unfold headingMatchAt at h
  dsimp only at h
  by_cases hh : 1 ≤ ((text.drop a).takeWhile (· = '#')).length ∧
      ((text.drop a).takeWhile (· = '#')).length ≤ 6
  · rw [if_pos hh] at h
    cases hl : lazyTailMatch text (a + ((text.drop a).takeWhile (· = '#')).length) with
    | none => rw [hl] at h; exact Option.noConfusion h
    | some p =>
      obtain ⟨e', g'⟩ := p
      rw [hl] at h
      simp only [Option.map] at h
      injection h with h'
      have he : e' = e := congrArg Prod.fst h'
      obtain ⟨hlt, hle⟩ := lazyTailMatch_bounds text _ e' g' hl
      omega
  · rw [if_neg hh] at h
    exact Option.noConfusion h

theorem matchChain_mono (len lo lo' : Nat) (l : List (Nat × Nat × Str))
    (h : matchChain len lo l) (hle : lo' ≤ lo) : matchChain len lo' l := by
  cases l with
  | nil => trivial
  | cons m rest =>
    obtain ⟨a, e, g⟩ := m
    simp only [matchChain] at h ⊢
    exact ⟨le_trans hle h.1, h.2.1, h.2.2.1, h.2.2.2⟩

theorem headingScanAux_chain (text : Str) (fuel : Nat) : ∀ p,
    matchChain text.length p (headingScanAux text fuel p) := by
  induction fuel with
  | zero => intro p; rw [headingScanAux]; trivial
  | succ n ih =>
    intro p
    rw [headingScanAux]
    by_cases hp : p ≤ text.length
    · rw [if_pos hp]
      by_cases ha : p = 0 ∨ text.get? (p - 1) = some '\n'
      · rw [if_pos ha]
        cases hm : headingMatchAt text p with
        | none => exact matchChain_mono _ _ _ _ (ih (p + 1)) (by omega)
        | some q =>
          obtain ⟨e, g⟩ := q
          obtain ⟨hpe, hel⟩ := headingMatchAt_bounds text p e g hm
          simp only [matchChain]
          exact ⟨le_refl p, hpe, hel,
            matchChain_mono _ _ _ _ (ih (max e (p + 1))) (le_max_left _ _)⟩
      · rw [if_neg ha]
        exact matchChain_mono _ _ _ _ (ih (p + 1)) (by omega)
    · rw [if_neg hp]
      trivial

theorem headingMatches_chain (text : Str) :
    matchChain text.length 0 (headingMatches text) :=
  headingScanAux_chain text (text.length + 1) 0

theorem rangeChain_mono (len lo lo' : Nat) (l : List SectionRange)
    (h : rangeChain len lo l) (hle : lo' ≤ lo) : rangeChain len lo' l := by
  cases l with
  | nil => trivial
  | cons r rest =>
    simp only [rangeChain] at h ⊢
    exact ⟨le_trans hle h.1, h.2⟩

theorem mdRangesAux_chain (text : Str) (ms : List (Nat × Nat × Str)) : ∀ used lo,
    matchChain text.length lo ms →
    rangeChain text.length lo (mdRangesAux text used ms) := by
  induction ms with
  | nil => intro used lo _; simp only [mdRangesAux]; trivial
  | cons m rest ih =>
    intro used lo hm
    obtain ⟨a, e, g⟩ := m
    simp only [matchChain] at hm
    obtain ⟨hlo, hae, helen, hrest⟩ := hm
    simp only [mdRangesAux]
    cases hp : parseHeadingMarker g false used with
    | mk mo used' =>
      cases mo with
      | none =>
        exact rangeChain_mono _ _ _ _ (ih used' e hrest) (by omega)
      | some marker =>
        simp only [rangeChain]
        cases rest with
        | nil =>
          dsimp only
          refine ⟨hlo, hae, helen, le_refl _, ?_⟩
          exact ih used' text.length (by trivial)
        | cons m2 rest2 =>
          obtain ⟨a2, e2, g2⟩ := m2
          dsimp only
          simp only [matchChain] at hrest
          refine ⟨hlo, hae, hrest.1, by omega, ?_⟩
          exact ih used' a2 (by simp only [matchChain]; exact ⟨le_refl a2, hrest.2⟩)

theorem collectSectionRanges_chain (text : Str) :
    rangeChain text.length 0 (collectSectionRanges text) :=
  mdRangesAux_chain text (headingMatches text) [] 0 (headingMatches_chain text)

theorem rangeChain_all (len : Nat) (l : List SectionRange) : ∀ lo, rangeChain len lo l →
    ∀ r ∈ l, lo ≤ r.headingStart ∧ r.headingStart < r.bodyStart ∧
      r.bodyStart ≤ r.bodyEnd ∧ r.bodyEnd ≤ len := by
  induction l with
  | nil => intro lo _ r hr; cases hr
  | cons x rest ih =>
    intro lo h r hr
    simp only [rangeChain] at h
    obtain ⟨h1, h2, h3, h4, h5⟩ := h
    rcases List.mem_cons.mp hr with rfl | hr'
    · exact ⟨h1, h2, h3, h4⟩
    · have := ih x.bodyEnd h5 r hr'
      exact ⟨by omega, this.2.1, this.2.2.1, this.2.2.2⟩

theorem rangeChain_pairwise (len : Nat) (l : List SectionRange) : ∀ lo, rangeChain len lo l →
    l.Pairwise (fun r t => r.bodyEnd ≤ t.headingStart) := by
  induction l with
  | nil => intro lo _; exact List.Pairwise.nil
  | cons x rest ih =>
    intro lo h
    simp only [rangeChain] at h
    refine List.Pairwise.cons ?_ (ih x.bodyEnd h.2.2.2.2)
    intro t ht
    exact (rangeChain_all len rest x.bodyEnd h.2.2.2.2 t ht).1

theorem pairwise_two_sided {α : Type} {R : α → α → Prop} (l : List α)
    (h : l.Pairwise R) (a b : α) (ha : a ∈ l) (hb : b ∈ l) (hne : a ≠ b) :
    R a b ∨ R b a := by
  induction l with
  | nil => cases ha
  | cons x rest ih =>
    rcases List.pairwise_cons.mp h with ⟨hx, hrest⟩
    rcases List.mem_cons.mp ha with rfl | ha'
    · rcases List.mem_cons.mp hb with rfl | hb'
      · exact absurd rfl hne
      · exact Or.inl (hx b hb')
    · rcases List.mem_cons.mp hb with rfl | hb'
      · exact Or.inr (hx a ha')
      · exact ih hrest ha' hb'

theorem fillLookup_spec (ranges : List SectionRange) (id : Str) (t : SectionRange)
    (h : fillLookup ranges id = some t) :
    t ∈ ranges ∧ t.sectionType = .fill ∧ t.sectionId = id := by
  unfold fillLookup at h
  have hmem := List.mem_reverse.mp (List.mem_of_find?_eq_some h)
  have hpred := List.find?_some h
  simp only [decide_eq_true_eq] at hpred
  exact ⟨hmem, hpred.1, hpred.2⟩

theorem mdApplyLoop_reps (text : Str) (ranges : List SectionRange) (ctx : Str) (rt : Bool)
    (sections : List DraftSection) : ∀ reps unres,
    mdApplyLoop text ranges ctx rt sections = .ok (reps, unres) →
    ∀ p ∈ reps, ∃ s ∈ sections, ∃ t, fillLookup ranges s.id = some t ∧
      p.1 = t.bodyStart ∧ p.2.1 = t.bodyEnd := by
  induction sections with
  | nil =>
    intro reps unres hok p hp
    simp only [mdApplyLoop] at hok
    injection hok with h'
    have : ([] : List (Nat × Nat × Str)) = reps := congrArg Prod.fst h'
    subst this
    cases hp
  | cons a rest ih =>
    intro reps unres hok p hp
    simp only [mdApplyLoop] at hok
    cases hl : fillLookup ranges a.id with
    | none =>
      rw [hl] at hok
      obtain ⟨s, hs, t, ht, h1, h2⟩ := ih reps unres hok p hp
      exact ⟨s, List.mem_cons_of_mem a hs, t, ht, h1, h2⟩
    | some target =>
      rw [hl] at hok
      dsimp only at hok
      cases hrb : replaceSectionBody (slice text target.bodyStart target.bodyEnd) a ctx rt with
      | error e =>
        simp only [Bind.bind, Except.bind, hrb] at hok
        exact Except.noConfusion hok
      | ok rb =>
        simp only [Bind.bind, Except.bind, hrb] at hok
        cases hrec : mdApplyLoop text ranges ctx rt rest with
        | error e =>
          rw [hrec] at hok
          exact Except.noConfusion hok
        | ok pr =>
          obtain ⟨reps', unres'⟩ := pr
          rw [hrec] at hok
          dsimp only at hok
          injection hok with h'
          have hreps : (target.bodyStart, target.bodyEnd, rb) :: reps' = reps :=
            congrArg Prod.fst h'
          subst hreps
          rcases List.mem_cons.mp hp with rfl | hp'
          · exact ⟨a, List.mem_cons_self a rest, target, hl, rfl, rfl⟩
          · obtain ⟨s, hs, t, ht, h1, h2⟩ := ih reps' unres' hrec p hp'
            exact ⟨s, List.mem_cons_of_mem a hs, t, ht, h1, h2⟩

theorem mdApplyLoop_reps_pairwise (text : Str) (ranges : List SectionRange) (ctx : Str)
    (rt : Bool)
    (hpw : ranges.Pairwise (fun r t => r.bodyEnd ≤ t.headingStart))
    (hall : ∀ r ∈ ranges, r.headingStart < r.bodyStart ∧ r.bodyStart ≤ r.bodyEnd)
    (sections : List DraftSection) : ∀ reps unres,
    ((sections.map (fun s : DraftSection => s.id)).Nodup) →
    mdApplyLoop text ranges ctx rt sections = .ok (reps, unres) →
    reps.Pairwise (fun p q => (p.2.1 ≤ q.1 ∨ q.2.1 ≤ p.1) ∧ p.1 ≠ q.1) := by
  induction sections with
  | nil =>
    intro reps unres _ hok
    simp only [mdApplyLoop] at hok
    injection hok with h'
    have : ([] : List (Nat × Nat × Str)) = reps := congrArg Prod.fst h'
    subst this
    exact List.Pairwise.nil
  | cons a rest ih =>
    intro reps unres hnd hok
    simp only [List.map_cons, List.nodup_cons] at hnd
    obtain ⟨hnotin, hnd'⟩ := hnd
    simp only [mdApplyLoop] at hok
    cases hl : fillLookup ranges a.id with
    | none =>
      rw [hl] at hok
      exact ih reps unres hnd' hok
    | some ta =>
      rw [hl] at hok
      dsimp only at hok
      cases hrb : replaceSectionBody (slice text ta.bodyStart ta.bodyEnd) a ctx rt with
      | error e =>
        simp only [Bind.bind, Except.bind, hrb] at hok
        exact Except.noConfusion hok
      | ok rb =>
        simp only [Bind.bind, Except.bind, hrb] at hok
        cases hrec : mdApplyLoop text ranges ctx rt rest with
        | error e =>
          rw [hrec] at hok
          exact Except.noConfusion hok
        | ok pr =>
          obtain ⟨reps', unres'⟩ := pr
          rw [hrec] at hok
          dsimp only at hok
          injection hok with h'
          have hreps : (ta.bodyStart, ta.bodyEnd, rb) :: reps' = reps := congrArg Prod.fst h'
          subst hreps
          refine List.Pairwise.cons ?_ (ih reps' unres' hnd' hrec)
          intro q hq
          obtain ⟨s', hs', tq, htq, hq1, hq2⟩ :=
            mdApplyLoop_reps text ranges ctx rt rest reps' unres' hrec q hq
          obtain ⟨hta_mem, hta_fill, hta_id⟩ := fillLookup_spec ranges a.id ta hl
          obtain ⟨htq_mem, htq_fill, htq_id⟩ := fillLookup_spec ranges s'.id tq htq
          have hne : ta ≠ tq := by
            intro hc
            apply hnotin
            rw [show a.id = s'.id by rw [← hta_id, ← htq_id, hc]]
            exact List.mem_map_of_mem (fun s : DraftSection => s.id) hs'
          have hsep := pairwise_two_sided ranges hpw ta tq hta_mem htq_mem hne
          obtain ⟨h1a, h2a⟩ := hall ta hta_mem
          obtain ⟨h1q, h2q⟩ := hall tq htq_mem
          dsimp only
          rw [hq1, hq2]
          rcases hsep with hcase | hcase
          · exact ⟨Or.inl (by omega), by omega⟩
          · exact ⟨Or.inr (by omega), by omega⟩

theorem insertDescByStart_perm (x : Nat × Nat × Str) (l : List (Nat × Nat × Str)) :
    (insertDescByStart x l).Perm (x :: l) := by
  induction l with
  | nil => exact List.Perm.refl _
  | cons y rest ih =>
    rw [insertDescByStart]
    by_cases hxy : x.1 ≤ y.1
    · rw [if_pos hxy]
      exact (List.Perm.cons y ih).trans (List.Perm.swap x y rest)
    · rw [if_neg hxy]

theorem sortDescByStart_perm (xs : List (Nat × Nat × Str)) : (sortDescByStart xs).Perm xs := by
  have key : ∀ (l acc : List (Nat × Nat × Str)),
      ((l.foldl (fun acc x => insertDescByStart x acc) acc)).Perm (acc ++ l) := by
    intro l
    induction l with
    | nil => intro acc; simp
    | cons x rest ih =>
      intro acc
      rw [List.foldl_cons]
      have h1 := ih (insertDescByStart x acc)
      have h2 : (insertDescByStart x acc ++ rest).Perm ((x :: acc) ++ rest) :=
        (insertDescByStart_perm x acc).append_right rest
      have h3 : ((x :: acc) ++ rest).Perm (acc ++ x :: rest) := by
        simp only [List.cons_append]
        exact List.perm_middle.symm
      exact h1.trans (h2.trans h3)
  exact (key xs []).trans (by simp)

theorem insertDescByStart_sorted (x : Nat × Nat × Str) (l : List (Nat × Nat × Str))
    (h : l.Pairwise (fun p q => q.1 ≤ p.1)) :
    (insertDescByStart x l).Pairwise (fun p q => q.1 ≤ p.1) := by
  induction l with
  | nil => simp [insertDescByStart]
  | cons y rest ih =>
    rcases List.pairwise_cons.mp h with ⟨hy, hrest⟩
    rw [insertDescByStart]
    by_cases hxy : x.1 ≤ y.1
    · rw [if_pos hxy]
      refine List.pairwise_cons.mpr ⟨?_, ih hrest⟩
      intro q hq
      have hq2 := (insertDescByStart_perm x rest).mem_iff.mp hq
      rcases List.mem_cons.mp hq2 with rfl | hq'
      · exact hxy
      · exact hy q hq'
    · rw [if_neg hxy]
      push_neg at hxy
      refine List.pairwise_cons.mpr ⟨?_, h⟩
      intro q hq
      rcases List.mem_cons.mp hq with rfl | hq'
      · omega
      · have := hy q hq'
        omega

theorem sortDescByStart_sorted (xs : List (Nat × Nat × Str)) :
    (sortDescByStart xs).Pairwise (fun p q => q.1 ≤ p.1) := by
  have key : ∀ (l acc : List (Nat × Nat × Str)),
      acc.Pairwise (fun p q => q.1 ≤ p.1) →
      ((l.foldl (fun acc x => insertDescByStart x acc) acc)).Pairwise
        (fun p q => q.1 ≤ p.1) := by
    intro l
    induction l with
    | nil => intro acc h; exact h
    | cons x rest ih =>
      intro acc h
      rw [List.foldl_cons]
      exact ih _ (insertDescByStart_sorted x acc h)
  exact key xs [] List.Pairwise.nil

theorem except_bind_ok {α β ε : Type} {x : Except ε α} {f : α → Except ε β} {b : β}
    (h : (x >>= f) = .ok b) : ∃ a, x = .ok a ∧ f a = .ok b := by
  cases x with
  | error e =>
    simp only [Bind.bind, Except.bind] at h
    exact Except.noConfusion h
  | ok a =>
    refine ⟨a, rfl, ?_⟩
    simpa only [Bind.bind, Except.bind] using h

theorem applyReplacements_append (l1 l2 : List (Nat × Nat × Str)) : ∀ t : Str,
    applyReplacements t (l1 ++ l2) = applyReplacements (applyReplacements t l1) l2 := by
  induction l1 with
  | nil => intro t; rfl
  | cons x rest ih =>
    intro t
    obtain ⟨s, e, v⟩ := x
    rw [List.cons_append]
    simp only [applyReplacements]
    exact ih _

theorem applyReplacements_take (reps : List (Nat × Nat × Str)) : ∀ (t : Str) (w bound : Nat),
    bound ≤ t.length → sepAbove w bound reps →
    (applyReplacements t reps).take w = t.take w := by
  induction reps with
  | nil => intro t w bound _ _; rfl
  | cons x rest ih =>
    intro t w bound hb hsep
    obtain ⟨s, e, v⟩ := x
    simp only [sepAbove] at hsep
    obtain ⟨hws, hsb, hrest⟩ := hsep
    simp only [applyReplacements]
    have hslen : s ≤ t.length := le_trans hsb hb
    have htake : (t.take s).length = s := by rw [List.length_take]; omega
    have hlen' : s ≤ (t.take s ++ v ++ t.drop e).length := by
      simp only [List.length_append, htake]
      omega
    rw [ih (t.take s ++ v ++ t.drop e) w s hlen' hrest]
    rw [List.append_assoc, List.take_append_of_le_length (by omega : w ≤ (t.take s).length)]
    rw [List.take_take]
    congr 1
    omega

theorem applyReplacements_suffix (reps : List (Nat × Nat × Str)) :
    ∀ (front tail : Str) (m : Nat), m ≤ front.length → sepBelow m reps →
    ∃ front2 : Str, applyReplacements (front ++ tail) reps = front2 ++ tail := by
  induction reps with
  | nil => intro front tail m _ _; exact ⟨front, rfl⟩
  | cons x rest ih =>
    intro front tail m hm hsep
    obtain ⟨s, e, v⟩ := x
    simp only [sepBelow] at hsep
    obtain ⟨hse, hem, hrest⟩ := hsep
    simp only [applyReplacements]
    have hs : s ≤ front.length := by omega
    have he : e ≤ front.length := by omega
    have htake : (front ++ tail).take s = front.take s := List.take_append_of_le_length hs
    have hdrop : (front ++ tail).drop e = front.drop e ++ tail := List.drop_append_of_le_length he
    rw [htake, hdrop]
    have hassoc : front.take s ++ v ++ (front.drop e ++ tail) =
        (front.take s ++ v ++ front.drop e) ++ tail := by
      simp only [List.append_assoc]
    rw [hassoc]
    refine ih (front.take s ++ v ++ front.drop e) tail s ?_ hrest
    have hts : (front.take s).length = s := by rw [List.length_take]; omega
    simp only [List.length_append, hts]
    omega

theorem split_hi_lo (h w : Nat) (l : List (Nat × Nat × Str))
    (hsorted : l.Pairwise (fun p q => q.1 ≤ p.1))
    (hout : ∀ p ∈ l, p.2.1 ≤ h ∨ w ≤ p.1) :
    ∃ hi lo, l = hi ++ lo ∧ (∀ p ∈ hi, w ≤ p.1) ∧ (∀ p ∈ lo, p.2.1 ≤ h) := by
  induction l with
  | nil =>
    refine ⟨[], [], rfl, ?_, ?_⟩
    · intro p hp; cases hp
    · intro p hp; cases hp
  | cons x rest ih =>
    rcases List.pairwise_cons.mp hsorted with ⟨hx, hrest⟩
    by_cases hxw : w ≤ x.1
    · obtain ⟨hi, lo, heq, hhi, hlo⟩ := ih hrest (fun p hp => hout p (List.mem_cons_of_mem x hp))
      refine ⟨x :: hi, lo, by rw [List.cons_append, heq], ?_, hlo⟩
      intro p hp
      rcases List.mem_cons.mp hp with rfl | hp'
      · exact hxw
      · exact hhi p hp'
    · refine ⟨[], x :: rest, rfl, ?_, ?_⟩
      · intro p hp; cases hp
      intro p hp
      rcases List.mem_cons.mp hp with hpe | hp'
      · subst hpe
        rcases hout p (List.mem_cons_self p rest) with hc | hc
        · exact hc
        · omega
      · have hple := hx p hp'
        rcases hout p (List.mem_cons_of_mem x hp') with hc | hc
        · exact hc
        · omega

theorem sepAbove_of_sorted (w : Nat) (l : List (Nat × Nat × Str)) : ∀ bound,
    l.Pairwise (fun p q => q.1 ≤ p.1) →
    (∀ p ∈ l, w ≤ p.1) → (∀ p ∈ l, p.1 ≤ bound) →
    sepAbove w bound l := by
  induction l with
  | nil => intro bound _ _ _; trivial
  | cons x rest ih =>
    intro bound hsorted hw hb
    obtain ⟨s, e, v⟩ := x
    rcases List.pairwise_cons.mp hsorted with ⟨hx, hrest⟩
    simp only [sepAbove]
    refine ⟨hw _ (List.mem_cons_self _ _), hb _ (List.mem_cons_self _ _), ?_⟩
    exact ih s hrest (fun p hp => hw p (List.mem_cons_of_mem _ hp)) (fun p hp => hx p hp)

theorem sepBelow_of_sorted (l : List (Nat × Nat × Str)) : ∀ m,
    l.Pairwise (fun p q => q.2.1 ≤ p.1) →
    (∀ p ∈ l, p.1 ≤ p.2.1) → (∀ p ∈ l, p.2.1 ≤ m) →
    sepBelow m l := by
  induction l with
  | nil => intro m _ _ _; trivial
  | cons x rest ih =>
    intro m hsorted hse hm
    obtain ⟨s, e, v⟩ := x
    rcases List.pairwise_cons.mp hsorted with ⟨hx, hrest⟩
    simp only [sepBelow]
    refine ⟨hse _ (List.mem_cons_self _ _), hm _ (List.mem_cons_self _ _), ?_⟩
    exact ih s hrest (fun p hp => hse p (List.mem_cons_of_mem _ hp)) (fun p hp => hx p hp)

theorem pairwise_sep_of_sorted_disjoint (l : List (Nat × Nat × Str))
    (hsorted : l.Pairwise (fun p q => q.1 ≤ p.1))
    (hdis : l.Pairwise (fun p q => (p.2.1 ≤ q.1 ∨ q.2.1 ≤ p.1) ∧ p.1 ≠ q.1))
    (hse : ∀ p ∈ l, p.1 ≤ p.2.1) :
    l.Pairwise (fun p q => q.2.1 ≤ p.1) := by
  have hand := hsorted.and hdis
  refine hand.imp_of_mem ?_
  intro p q hp hq hpq
  obtain ⟨hle, hdis', hne⟩ := hpq
  have h1 := hse p hp
  have h2 := hse q hq
  rcases hdis' with hc | hc
  · omega
  · exact hc

theorem mdApply_absent_section_preserved (sourceText ctx : Str) (draft : DraftDocument)
    (force : Bool) (r : SectionRange) (out : Str) (unres : List Str)
    (hnodup : ((draft.sections.map (fun s : DraftSection => s.id)).Nodup))
    (hr : r ∈ collectSectionRanges sourceText)
    (habsent : ∀ s ∈ draft.sections, s.id ≠ r.sectionId)
    (hok : applyDraftToMarkdownTemplate sourceText draft force ctx = .ok (out, unres)) :
    ∃ pre post, out = pre ++ slice sourceText r.headingStart r.bodyEnd ++ post := by
  unfold applyDraftToMarkdownTemplate at hok
  dsimp only at hok
  by_cases halready : containsSub sourceText appliedMarkerMd = true ∧ ¬ force = true
  · rw [if_pos halready] at hok
    exact Except.noConfusion hok
  · rw [if_neg halready] at hok
    obtain ⟨pr, hloop, hk⟩ := except_bind_ok hok
    obtain ⟨reps, unres'⟩ := pr
    dsimp only at hk
    injection hk with hk'
    have hout : (if (applyReplacements sourceText (sortDescByStart reps)).getLast? = some '\n'
        then applyReplacements sourceText (sortDescByStart reps)
        else applyReplacements sourceText (sortDescByStart reps) ++ ['\n']) ++
        '\n' :: (appliedMarkerMd ++ ['\n']) = out := congrArg Prod.fst hk'
    -- structural facts about the collected ranges
    have hchain := collectSectionRanges_chain sourceText
    have hallr := rangeChain_all sourceText.length (collectSectionRanges sourceText) 0 hchain
    have hpwr := rangeChain_pairwise sourceText.length (collectSectionRanges sourceText) 0 hchain
    obtain ⟨-, hhb, hbb, hbl⟩ := hallr r hr
    have hhw : r.headingStart < r.bodyEnd := by omega
    -- facts about the replacement list
    have hmemspec := mdApplyLoop_reps sourceText (collectSectionRanges sourceText) ctx _
      draft.sections reps unres' hloop
    have hperm := sortDescByStart_perm reps
    have hsorted := sortDescByStart_sorted reps
    have hmemspec' : ∀ p ∈ sortDescByStart reps, ∃ s ∈ draft.sections,
        ∃ t, fillLookup (collectSectionRanges sourceText) s.id = some t ∧
          p.1 = t.bodyStart ∧ p.2.1 = t.bodyEnd := by
      intro p hp
      exact hmemspec p (hperm.mem_iff.mp hp)
    have houtside : ∀ p ∈ sortDescByStart reps,
        p.2.1 ≤ r.headingStart ∨ r.bodyEnd ≤ p.1 := by
      intro p hp
      obtain ⟨s, hs, t, htl, hp1, hp2⟩ := hmemspec' p hp
      obtain ⟨htmem, -, htid⟩ := fillLookup_spec _ _ _ htl
      have hne : t ≠ r := by
        intro hc
        exact habsent s hs (by rw [← htid, hc])
      obtain ⟨-, h1t, h2t, -⟩ := hallr t htmem
      rcases pairwise_two_sided _ hpwr t r htmem hr hne with hc | hc
      · left; omega
      · right; omega
    have hse : ∀ p ∈ sortDescByStart reps, p.1 ≤ p.2.1 := by
      intro p hp
      obtain ⟨s, hs, t, htl, hp1, hp2⟩ := hmemspec' p hp
      obtain ⟨htmem, -, -⟩ := fillLookup_spec _ _ _ htl
      obtain ⟨-, -, h2t, -⟩ := hallr t htmem
      omega
    have hstartle : ∀ p ∈ sortDescByStart reps, p.1 ≤ sourceText.length := by
      intro p hp
      obtain ⟨s, hs, t, htl, hp1, hp2⟩ := hmemspec' p hp
      obtain ⟨htmem, -, -⟩ := fillLookup_spec _ _ _ htl
      obtain ⟨-, -, h2t, h3t⟩ := hallr t htmem
      omega
    have hdis : (sortDescByStart reps).Pairwise
        (fun p q => (p.2.1 ≤ q.1 ∨ q.2.1 ≤ p.1) ∧ p.1 ≠ q.1) := by
      exact (hperm.pairwise_iff (fun hpq => ⟨hpq.1.symm, hpq.2.symm⟩)).mpr
        (mdApplyLoop_reps_pairwise sourceText (collectSectionRanges sourceText) ctx _
          hpwr (fun t ht => ⟨(hallr t ht).2.1, (hallr t ht).2.2.1⟩)
          draft.sections reps unres' hnodup hloop)
    -- split the sorted replacement list around the preserved window
    obtain ⟨hi, lo, heq, hhi, hlo⟩ := split_hi_lo r.headingStart r.bodyEnd
      (sortDescByStart reps) hsorted houtside
    have hhi_sorted : hi.Pairwise (fun p q : Nat × Nat × Str => q.1 ≤ p.1) :=
      (List.pairwise_append.mp (heq ▸ hsorted)).1
    have hlo_sorted : lo.Pairwise (fun p q : Nat × Nat × Str => q.1 ≤ p.1) :=
      (List.pairwise_append.mp (heq ▸ hsorted)).2.1
    have hlo_dis : lo.Pairwise
        (fun p q => (p.2.1 ≤ q.1 ∨ q.2.1 ≤ p.1) ∧ p.1 ≠ q.1) :=
      (List.pairwise_append.mp (heq ▸ hdis)).2.1
    have hmem_hi : ∀ p ∈ hi, p ∈ sortDescByStart reps := by
      intro p hp; rw [heq]; exact List.mem_append_left lo hp
    have hmem_lo : ∀ p ∈ lo, p ∈ sortDescByStart reps := by
      intro p hp; rw [heq]; exact List.mem_append_right hi hp
    -- phase 1: replacements above the window preserve the prefix
    have habove : sepAbove r.bodyEnd sourceText.length hi :=
      sepAbove_of_sorted r.bodyEnd hi sourceText.length hhi_sorted hhi
        (fun p hp => hstartle p (hmem_hi p hp))
    have htake : (applyReplacements sourceText hi).take r.bodyEnd =
        sourceText.take r.bodyEnd :=
      applyReplacements_take hi sourceText r.bodyEnd sourceText.length (le_refl _) habove
    have hlent1 : r.bodyEnd ≤ (applyReplacements sourceText hi).length := by
      have hc := congrArg List.length htake
      simp only [List.length_take] at hc
      omega
    -- phase 2: replacements below the window preserve the suffix
    have hlo_sep : sepBelow r.headingStart lo :=
      sepBelow_of_sorted lo r.headingStart
        (pairwise_sep_of_sorted_disjoint lo hlo_sorted hlo_dis
          (fun p hp => hse p (hmem_lo p hp)))
        (fun p hp => hse p (hmem_lo p hp)) hlo
    have hfront_len : ((applyReplacements sourceText hi).take r.headingStart).length =
        r.headingStart := by
      rw [List.length_take]
      omega
    obtain ⟨front2, hA⟩ := applyReplacements_suffix lo
      ((applyReplacements sourceText hi).take r.headingStart)
      ((applyReplacements sourceText hi).drop r.headingStart)
      r.headingStart (by omega) hlo_sep
    rw [List.take_append_drop] at hA
    -- the preserved window sits at the start of the kept suffix
    have htail : (applyReplacements sourceText hi).drop r.headingStart =
        slice sourceText r.headingStart r.bodyEnd ++
          (applyReplacements sourceText hi).drop r.bodyEnd := by
      conv_lhs => rw [← List.take_append_drop r.bodyEnd (applyReplacements sourceText hi)]
      rw [List.drop_append_of_le_length (by rw [List.length_take]; omega)]
      rw [htake]
      rfl
    have hfull : applyReplacements sourceText (sortDescByStart reps) =
        front2 ++ (slice sourceText r.headingStart r.bodyEnd ++
          (applyReplacements sourceText hi).drop r.bodyEnd) := by
      rw [heq, applyReplacements_append, hA, htail]
    by_cases hlast : (applyReplacements sourceText (sortDescByStart reps)).getLast? = some '\n'
    · refine ⟨front2, (applyReplacements sourceText hi).drop r.bodyEnd ++
        '\n' :: (appliedMarkerMd ++ ['\n']), ?_⟩
      rw [← hout, if_pos hlast, hfull]
      simp only [List.append_assoc]
    · refine ⟨front2, (applyReplacements sourceText hi).drop r.bodyEnd ++ ['\n'] ++
        '\n' :: (appliedMarkerMd ++ ['\n']), ?_⟩
      rw [← hout, if_neg hlast, hfull]
      simp only [List.append_assoc]

theorem pairwise_fst_lt_enumFrom {α : Type} (l : List α) : ∀ n,
    (List.enumFrom n l).Pairwise (fun a b => a.1 < b.1) := by
  induction l with
  | nil => intro n; simp
  | cons x rest ih =>
    intro n
    rw [List.enumFrom_cons]
    refine List.pairwise_cons.mpr ⟨?_, ih (n + 1)⟩
    intro q hq
    obtain ⟨i, b⟩ := q
    have := (List.mem_enumFrom hq).1
    dsimp only
    omega

theorem mem_docxHeadingPositions (blocks : List DocxBlock) (p : Nat) :
    p ∈ docxHeadingPositions blocks ↔
      ∃ b, blocks[p]? = some b ∧ isHeadingBlock b = true := by
  unfold docxHeadingPositions
  rw [List.mem_filterMap]
  constructor
  · rintro ⟨⟨i, b⟩, hmem, hf⟩
    dsimp only at hf
    by_cases hh : isHeadingBlock b = true
    · rw [if_pos hh] at hf
      injection hf with hf'
      subst hf'
      exact ⟨b, List.mk_mem_enum_iff_getElem?.mp hmem, hh⟩
    · rw [if_neg hh] at hf
      exact Option.noConfusion hf
  · rintro ⟨b, hb, hh⟩
    refine ⟨(p, b), List.mk_mem_enum_iff_getElem?.mpr hb, ?_⟩
    dsimp only
    rw [if_pos hh]

theorem docxHeadingPositions_sorted (blocks : List DocxBlock) :
    (docxHeadingPositions blocks).Pairwise (· < ·) := by
  unfold docxHeadingPositions
  rw [List.pairwise_filterMap]
  refine List.Pairwise.imp ?_ (pairwise_fst_lt_enumFrom blocks 0)
  intro a b hab
  obtain ⟨i, ba⟩ := a
  obtain ⟨j, bb⟩ := b
  intro c hc d hd
  dsimp only at hc hd hab
  by_cases hha : isHeadingBlock ba = true
  · rw [if_pos hha] at hc
    by_cases hhb : isHeadingBlock bb = true
    · rw [if_pos hhb] at hd
      rw [Option.mem_some_iff] at hc hd
      omega
    · rw [if_neg hhb] at hd
      cases hd
  · rw [if_neg hha] at hc
    cases hc

theorem docxParsedMarkersAux_mem : ∀ (l : List (Nat × DocxBlock)) (used : List Str)
    (m : Nat × SectionType × Str), m ∈ docxParsedMarkersAux used l →
    ∃ b, (m.1, b) ∈ l ∧ isHeadingBlock b = true := by
  intro l
  induction l with
  | nil => intro used m hm; simp [docxParsedMarkersAux] at hm
  | cons x rest ih =>
    intro used m hm
    obtain ⟨idx, b⟩ := x
    simp only [docxParsedMarkersAux] at hm
    cases b with
    | table rows =>
      obtain ⟨b', hb', hh'⟩ := ih used m hm
      exact ⟨b', List.mem_cons_of_mem _ hb', hh'⟩
    | para style txt =>
      dsimp only at hm
      by_cases hh : isHeadingBlock (DocxBlock.para style txt) = true
      · rw [if_pos hh] at hm
        cases hp : parseHeadingMarker txt true used with
        | mk mo used' =>
          rw [hp] at hm
          cases mo with
          | none =>
            obtain ⟨b', hb', hh'⟩ := ih used' m hm
            exact ⟨b', List.mem_cons_of_mem _ hb', hh'⟩
          | some mk =>
            dsimp only at hm
            rcases List.mem_cons.mp hm with hme | hm'
            · subst hme
              exact ⟨DocxBlock.para style txt, List.mem_cons_self _ _, hh⟩
            · obtain ⟨b', hb', hh'⟩ := ih used' m hm'
              exact ⟨b', List.mem_cons_of_mem _ hb', hh'⟩
      · rw [if_neg hh] at hm
        obtain ⟨b', hb', hh'⟩ := ih used m hm
        exact ⟨b', List.mem_cons_of_mem _ hb', hh'⟩

theorem docxParsedMarkersAux_pairwise : ∀ (l : List (Nat × DocxBlock)) (used : List Str),
    l.Pairwise (fun a b => a.1 < b.1) →
    (docxParsedMarkersAux used l).Pairwise (fun a b => a.1 < b.1) := by
  intro l
  induction l with
  | nil => intro used _; simp [docxParsedMarkersAux]
  | cons x rest ih =>
    intro used hpw
    obtain ⟨idx, b⟩ := x
    rcases List.pairwise_cons.mp hpw with ⟨hx, hrest⟩
    simp only [docxParsedMarkersAux]
    cases b with
    | table rows => exact ih used hrest
    | para style txt =>
      dsimp only
      by_cases hh : isHeadingBlock (DocxBlock.para style txt) = true
      · rw [if_pos hh]
        cases hp : parseHeadingMarker txt true used with
        | mk mo used' =>
          cases mo with
          | none => exact ih used' hrest
          | some mk =>
            dsimp only
            refine List.pairwise_cons.mpr ⟨?_, ih used' hrest⟩
            intro q hq
            obtain ⟨b', hb', -⟩ := docxParsedMarkersAux_mem rest used' q hq
            have := hx (q.1, b') hb'
            dsimp only at this ⊢
            exact this
      · rw [if_neg hh]
        exact ih used hrest

theorem find?_sorted_least {l : List Nat} {pred : Nat → Bool} {q : Nat}
    (hs : l.Pairwise (· < ·)) (hf : l.find? pred = some q) :
    ∀ p ∈ l, pred p = true → q ≤ p := by
  induction l with
  | nil => intro p hp; cases hp
  | cons x rest ih =>
    rcases List.pairwise_cons.mp hs with ⟨hx, hrest⟩
    intro p hp hpred
    by_cases hpx : pred x = true
    · rw [List.find?_cons_of_pos rest hpx] at hf
      injection hf with hf'
      subst hf'
      rcases List.mem_cons.mp hp with hpe | hp'
      · subst hpe; exact le_refl p
      · exact le_of_lt (hx p hp')
    · rw [List.find?_cons_of_neg rest hpx] at hf
      rcases List.mem_cons.mp hp with hpe | hp'
      · subst hpe; exact absurd hpred hpx
      · exact ih hrest hf p hp' hpred

theorem collectSectionRangesDocx_spec (blocks : List DocxBlock) :
    ∀ r ∈ collectSectionRangesDocx blocks,
      r.bodyStartBlock = r.headingBlockIndex + 1 ∧
      r.headingBlockIndex < r.bodyEndBlock ∧
      r.bodyEndBlock ≤ blocks.length ∧
      r.headingBlockIndex ∈ docxHeadingPositions blocks ∧
      (∀ p ∈ docxHeadingPositions blocks, r.headingBlockIndex < p → r.bodyEndBlock ≤ p) := by
  intro r hr
  unfold collectSectionRangesDocx at hr
  rw [List.mem_map] at hr
  obtain ⟨⟨idx, ty, id⟩, hm, heq⟩ := hr
  subst heq
  obtain ⟨b, hmem, hhb⟩ := docxParsedMarkersAux_mem blocks.enum [] (idx, ty, id) hm
  dsimp only at hmem
  have hget := List.mk_mem_enum_iff_getElem?.mp hmem
  have hlt : idx < blocks.length := (List.getElem?_eq_some.mp hget).1
  have hpos : idx ∈ docxHeadingPositions blocks :=
    (mem_docxHeadingPositions blocks idx).mpr ⟨b, hget, hhb⟩
  dsimp only
  cases hf : (docxHeadingPositions blocks).find? (fun p => idx < p) with
  | none =>
    simp only [Option.getD_none]
    refine ⟨trivial, by omega, le_refl _, hpos, ?_⟩
    intro p hp hip
    exfalso
    have := List.find?_eq_none.mp hf p hp
    simp only [decide_eq_true_eq] at this
    exact this hip
  | some q =>
    have hq_mem := List.mem_of_find?_eq_some hf
    have hq_gt : idx < q := by
      have := List.find?_some hf
      simpa using this
    have hq_le : q ≤ blocks.length := by
      rcases (mem_docxHeadingPositions blocks q).mp hq_mem with ⟨b', hb', -⟩
      exact le_of_lt (List.getElem?_eq_some.mp hb').1
    simp only [Option.getD_some]
    refine ⟨trivial, by omega, hq_le, hpos, ?_⟩
    intro p hp hip
    exact find?_sorted_least (docxHeadingPositions_sorted blocks) hf p hp (by simpa using hip)

theorem docx_ranges_sep (blocks : List DocxBlock) (r t : DocxSectionRange)
    (hr : r ∈ collectSectionRangesDocx blocks) (ht : t ∈ collectSectionRangesDocx blocks)
    (hne : r.sectionId ≠ t.sectionId) :
    r.bodyEndBlock ≤ t.headingBlockIndex ∨ t.bodyEndBlock ≤ r.headingBlockIndex := by
  have hrspec := collectSectionRangesDocx_spec blocks r hr
  have htspec := collectSectionRangesDocx_spec blocks t ht
  have hne_idx : r.headingBlockIndex ≠ t.headingBlockIndex := by
    unfold collectSectionRangesDocx at hr ht
    rw [List.mem_map] at hr ht
    obtain ⟨⟨ir, tyr, idr⟩, hmr, heqr⟩ := hr
    obtain ⟨⟨it, tyt, idt⟩, hmt, heqt⟩ := ht
    have hpw := docxParsedMarkersAux_pairwise blocks.enum []
      (by rw [List.enum]; exact pairwise_fst_lt_enumFrom blocks 0)
    have hmne : (ir, tyr, idr) ≠ (it, tyt, idt) := by
      intro hc
      apply hne
      rw [← heqr, ← heqt]
      dsimp only
      rw [show idr = idt from congrArg (fun m : Nat × SectionType × Str => m.2.2) hc]
    rcases pairwise_two_sided _ hpw _ _ hmr hmt hmne with hc | hc
    · rw [← heqr, ← heqt]
      dsimp only at hc ⊢
      omega
    · rw [← heqr, ← heqt]
      dsimp only at hc ⊢
      omega
  by_cases hcmp : r.headingBlockIndex < t.headingBlockIndex
  · exact Or.inl (hrspec.2.2.2.2 t.headingBlockIndex htspec.2.2.2.1 hcmp)
  · exact Or.inr (htspec.2.2.2.2 r.headingBlockIndex hrspec.2.2.2.1 (by omega))

theorem listModify_length {α : Type} (f : α → α) : ∀ (n : Nat) (l : List α),
    (listModify f n l).length = l.length := by
  intro n
  induction n with
  | zero => intro l; cases l <;> simp [listModify]
  | succ k ih =>
    intro l
    cases l with
    | nil => simp [listModify]
    | cons x rest => simp [listModify, ih rest]

theorem listModify_get?_ne {α : Type} (f : α → α) : ∀ (n i : Nat) (l : List α), i ≠ n →
    (listModify f n l)[i]? = l[i]? := by
  intro n
  induction n with
  | zero =>
    intro i l hne
    cases l with
    | nil => simp [listModify]
    | cons x rest =>
      simp only [listModify]
      cases i with
      | zero => exact absurd rfl hne
      | succ j => simp
  | succ k ih =>
    intro i l hne
    cases l with
    | nil => simp [listModify]
    | cons x rest =>
      simp only [listModify]
      cases i with
      | zero => simp
      | succ j =>
        simp only [List.getElem?_cons_succ]
        exact ih j rest (by omega)

theorem setParaText_length (blocks : List DocxBlock) (loc : ParaLoc) (t : Str) :
    (setParaText blocks loc t).length = blocks.length := by
  cases loc with
  | top i => exact listModify_length _ i blocks
  | cell i r c p => exact listModify_length _ i blocks

theorem setParaText_get?_ne (blocks : List DocxBlock) (loc : ParaLoc) (t : Str) (i : Nat)
    (hne : i ≠ paraBlockIdx loc) :
    (setParaText blocks loc t)[i]? = blocks[i]? := by
  cases loc with
  | top j => exact listModify_get?_ne _ j i blocks hne
  | cell j r c p => exact listModify_get?_ne _ j i blocks hne

theorem bodyParagraphLocs_bounds (blocks : List DocxBlock) (startB endB : Nat) :
    ∀ loc ∈ bodyParagraphLocs blocks startB endB,
      startB ≤ paraBlockIdx loc ∧ paraBlockIdx loc < endB := by
  intro loc hloc
  unfold bodyParagraphLocs at hloc
  rw [List.mem_flatMap] at hloc
  obtain ⟨⟨i, b⟩, hmem, hin⟩ := hloc
  have hfilter := List.of_mem_filter hmem
  simp only [decide_eq_true_eq] at hfilter
  suffices h : paraBlockIdx loc = i by
    rw [h]
    exact hfilter
  cases b with
  | para st tx =>
    dsimp only at hin
    rcases List.mem_singleton.mp hin with rfl
    rfl
  | table rows =>
    dsimp only at hin
    rw [List.mem_flatMap] at hin
    obtain ⟨⟨ri, row⟩, -, hin2⟩ := hin
    rw [List.mem_flatMap] at hin2
    obtain ⟨⟨ci, cell⟩, -, hin3⟩ := hin2
    rw [List.mem_map] at hin3
    obtain ⟨⟨pi, para⟩, -, heq⟩ := hin3
    rw [← heq]
    rfl

theorem findSectionContentTarget_mem (blocks : List DocxBlock) (locs : List ParaLoc)
    (hne : locs ≠ []) : findSectionContentTarget blocks locs ∈ locs := by
  unfold findSectionContentTarget
  cases h1 : locs.find? (fun l => containsSub (getParaText blocks l) sectionContentToken) with
  | some l => exact List.mem_of_find?_eq_some h1
  | none =>
    cases h2 : locs.find? (fun l => stripWS (getParaText blocks l) ≠ []) with
    | some l => exact List.mem_of_find?_eq_some h2
    | none =>
      cases locs with
      | nil => exact absurd rfl hne
      | cons x rest => exact List.mem_cons_self x rest

theorem replaceSectionBodyDocx_frame (blocks : List DocxBlock) (target : DocxSectionRange)
    (sec : DraftSection) (bs : List DocxBlock)
    (hok : replaceSectionBodyDocx blocks target sec = .ok bs) :
    bs.length = blocks.length ∧
    ∀ i, (i < target.bodyStartBlock ∨ target.bodyEndBlock ≤ i) → bs[i]? = blocks[i]? := by
  unfold replaceSectionBodyDocx at hok
  dsimp only at hok
  by_cases hl : bodyParagraphLocs blocks target.bodyStartBlock target.bodyEndBlock = []
  · rw [if_pos hl] at hok
    exact Except.noConfusion hok
  · rw [if_neg hl] at hok
    have hmem := findSectionContentTarget_mem blocks
      (bodyParagraphLocs blocks target.bodyStartBlock target.bodyEndBlock) hl
    have hbounds := bodyParagraphLocs_bounds blocks target.bodyStartBlock target.bodyEndBlock
      _ hmem
    by_cases hc : containsSub (getParaText blocks (findSectionContentTarget blocks
        (bodyParagraphLocs blocks target.bodyStartBlock target.bodyEndBlock)))
        sectionContentToken = true
    · rw [if_pos hc] at hok
      injection hok with hok'
      subst hok'
      refine ⟨setParaText_length _ _ _, ?_⟩
      intro i hi
      exact setParaText_get?_ne _ _ _ i (by omega)
    · rw [if_neg hc] at hok
      injection hok with hok'
      subst hok'
      refine ⟨setParaText_length _ _ _, ?_⟩
      intro i hi
      exact setParaText_get?_ne _ _ _ i (by omega)

theorem foldl_local_frame (g : List DocxBlock → ParaLoc → List DocxBlock)
    (hg : ∀ bs loc, (g bs loc).length = bs.length ∧
      ∀ i, i ≠ paraBlockIdx loc → (g bs loc)[i]? = bs[i]?) :
    ∀ (locs : List ParaLoc) (acc : List DocxBlock) (startB endB : Nat),
    (∀ loc ∈ locs, startB ≤ paraBlockIdx loc ∧ paraBlockIdx loc < endB) →
    (locs.foldl g acc).length = acc.length ∧
    ∀ i, (i < startB ∨ endB ≤ i) → (locs.foldl g acc)[i]? = acc[i]? := by
  intro locs
  induction locs with
  | nil => intro acc sB eB _; exact ⟨rfl, fun i _ => rfl⟩
  | cons loc rest ih =>
    intro acc sB eB hb
    rw [List.foldl_cons]
    obtain ⟨hlen, hget⟩ := ih (g acc loc) sB eB (fun l hl => hb l (List.mem_cons_of_mem _ hl))
    have hloc := hb loc (List.mem_cons_self _ _)
    refine ⟨by rw [hlen, (hg acc loc).1], ?_⟩
    intro i hi
    rw [hget i hi, (hg acc loc).2 i (by omega)]

theorem applyCheckboxesDocx_frame (blocks : List DocxBlock) (target : DocxSectionRange)
    (sec : DraftSection) :
    (applyCheckboxesDocx blocks target sec).length = blocks.length ∧
    ∀ i, (i < target.bodyStartBlock ∨ target.bodyEndBlock ≤ i) →
      (applyCheckboxesDocx blocks target sec)[i]? = blocks[i]? := by
  unfold applyCheckboxesDocx
  refine foldl_local_frame _ ?_ _ blocks target.bodyStartBlock target.bodyEndBlock
    (bodyParagraphLocs_bounds blocks _ _)
  intro bs loc
  dsimp only
  by_cases hc : containsSub (getParaText bs loc) (str "[[CHECK:") = true
  · rw [if_pos hc]
    exact ⟨setParaText_length _ _ _, fun i hi => setParaText_get?_ne _ _ _ i hi⟩
  · rw [if_neg hc]
    exact ⟨rfl, fun i _ => rfl⟩

theorem fillLookupDocx_spec (ranges : List DocxSectionRange) (id : Str)
    (t : DocxSectionRange) (h : fillLookupDocx ranges id = some t) :
    t ∈ ranges ∧ t.sectionType = .fill ∧ t.sectionId = id := by
  unfold fillLookupDocx at h
  have hmem := List.mem_reverse.mp (List.mem_of_find?_eq_some h)
  have hpred := List.find?_some h
  simp only [decide_eq_true_eq] at hpred
  exact ⟨hmem, hpred.1, hpred.2⟩

theorem docxApplyLoop_frame (ranges : List DocxSectionRange) :
    ∀ (sections : List DraftSection) (blocks bs : List DocxBlock) (unres : List Str),
    docxApplyLoop ranges blocks sections = .ok (bs, unres) →
    bs.length = blocks.length ∧
    ∀ i, (∀ s ∈ sections, ∀ t, fillLookupDocx ranges s.id = some t →
      (i < t.bodyStartBlock ∨ t.bodyEndBlock ≤ i)) →
    bs[i]? = blocks[i]? := by
  intro sections
  induction sections with
  | nil =>
    intro blocks bs unres hok
    simp only [docxApplyLoop] at hok
    injection hok with h'
    have h1 : blocks = bs := congrArg Prod.fst h'
    subst h1
    exact ⟨rfl, fun i _ => rfl⟩
  | cons a rest ih =>
    intro blocks bs unres hok
    simp only [docxApplyLoop] at hok
    cases hl : fillLookupDocx ranges a.id with
    | none =>
      rw [hl] at hok
      obtain ⟨hlen, hget⟩ := ih blocks bs unres hok
      exact ⟨hlen, fun i hi => hget i (fun s hs => hi s (List.mem_cons_of_mem a hs))⟩
    | some target =>
      rw [hl] at hok
      obtain ⟨blocks1, hrb, hok2⟩ := except_bind_ok hok
      obtain ⟨pr, hrec, hok3⟩ := except_bind_ok hok2
      obtain ⟨bs', unres'⟩ := pr
      injection hok3 with h'
      have hbs : bs' = bs := congrArg Prod.fst h'
      subst hbs
      obtain ⟨hlen1, hget1⟩ := replaceSectionBodyDocx_frame blocks target a blocks1 hrb
      have hcb := applyCheckboxesDocx_frame blocks1 target a
      obtain ⟨hlenr, hgetr⟩ := ih (applyCheckboxesDocx blocks1 target a) bs' unres' hrec
      refine ⟨by rw [hlenr, hcb.1, hlen1], ?_⟩
      intro i hi
      have hi_t := hi a (List.mem_cons_self a rest) target hl
      rw [hgetr i (fun s hs => hi s (List.mem_cons_of_mem a hs)), hcb.2 i hi_t, hget1 i hi_t]

theorem docxApply_absent_section_preserved (templateBlocks : List DocxBlock)
    (draft : DraftDocument) (force : Bool) (r : DocxSectionRange)
    (finalBlocks : List DocxBlock) (unres : List Str)
    (hr : r ∈ collectSectionRangesDocx templateBlocks)
    (habsent : ∀ s ∈ draft.sections, s.id ≠ r.sectionId)
    (hok : docxApplyEffect templateBlocks draft force = (some finalBlocks, .ok unres)) :
    ∀ i, r.headingBlockIndex ≤ i → i < r.bodyEndBlock →
      finalBlocks[i]? = templateBlocks[i]? := by
  unfold docxApplyEffect at hok
  by_cases hmark : documentContainsMarker templateBlocks appliedMarkerDocx = true ∧ ¬ force = true
  · rw [if_pos hmark] at hok
    injection hok with h1 h2
    exact Except.noConfusion h2
  · rw [if_neg hmark] at hok
    cases hloop : docxApplyLoop (collectSectionRangesDocx templateBlocks) templateBlocks
        draft.sections with
    | error e =>
      rw [hloop] at hok
      injection hok with h1 h2
      exact Except.noConfusion h2
    | ok pr =>
      obtain ⟨bs, unres'⟩ := pr
      rw [hloop] at hok
      dsimp only at hok
      injection hok with h1 h2
      injection h1 with h1'
      subst h1'
      intro i hge hlt
      obtain ⟨hlen, hget⟩ := docxApplyLoop_frame (collectSectionRangesDocx templateBlocks)
        draft.sections templateBlocks bs unres' hloop
      obtain ⟨-, -, hrlen, -, -⟩ := collectSectionRangesDocx_spec templateBlocks r hr
      have hib : i < bs.length := by omega
      rw [List.getElem?_append, if_pos hib]
      refine hget i ?_
      intro s hs t htl
      obtain ⟨htmem, -, htid⟩ := fillLookupDocx_spec _ _ _ htl
      have hne : t.sectionId ≠ r.sectionId := by
        rw [htid]
        exact habsent s hs
      have hsep := docx_ranges_sep templateBlocks t r htmem hr hne
      obtain ⟨htb, hth, -, -, -⟩ := collectSectionRangesDocx_spec templateBlocks t htmem
      rcases hsep with hc | hc
      · right; omega
      · left; omega

set_option maxRecDepth 10000 in
/-- C5 (counterexample): when the draft addresses the same section id
twice, the two replacement triples target the same span and the second
splice is applied with stale offsets, destroying the following *absent*
skip section: its marker text and body do not survive in the output. -/
theorem C5_counterexample :
    (str "y") ∉ c5DupDraft.sections.map (fun s : DraftSection => s.id) ∧
    (∃ r ∈ collectSectionRanges c5Template, r.sectionId = str "y") ∧
    slice c5Template 38 63 = str "# [SKIP] [ID:y] B\nkeepme\n" ∧
    mdApplyWritten c5Template c5DupDraft false (str "additional-context.md") =
      some (str "# [FILL] [ID:x] A\nhi\n\nkeepme\n\n<!-- MRM_AGENT_APPLIED -->\n") ∧
    containsSub (str "# [FILL] [ID:x] A\nhi\n\nkeepme\n\n<!-- MRM_AGENT_APPLIED -->\n")
      (slice c5Template 38 63) = false := by
  refine ⟨by decide, by decide, by decide, by decide, by decide⟩

/-- **C5 (amended).** If the draft's section ids are pairwise distinct,
then for every markdown template section range whose id is absent from
the draft, a successful apply leaves the section's marker text and body
verbatim (as a contiguous substring) in the output text; in the DOCX
format, every block of an absent section's range (heading included) is
left unchanged in the saved document, with no distinctness hypothesis
needed. -/
theorem C5_absent_sections_amended
    (sourceText ctx : Str) (draftMd draftDx : DraftDocument) (forceMd forceDx : Bool)
    (rMd : SectionRange) (out : Str) (unresMd : List Str)
    (templateBlocks finalBlocks : List DocxBlock) (rDx : DocxSectionRange)
    (unresDx : List Str)
    (hnodup : (draftMd.sections.map (fun s : DraftSection => s.id)).Nodup)
    (hrMd : rMd ∈ collectSectionRanges sourceText)
    (habsentMd : ∀ s ∈ draftMd.sections, s.id ≠ rMd.sectionId)
    (hokMd : applyDraftToMarkdownTemplate sourceText draftMd forceMd ctx = .ok (out, unresMd))
    (hrDx : rDx ∈ collectSectionRangesDocx templateBlocks)
    (habsentDx : ∀ s ∈ draftDx.sections, s.id ≠ rDx.sectionId)
    (hokDx : docxApplyEffect templateBlocks draftDx forceDx = (some finalBlocks, .ok unresDx)) :
    (∃ pre post, out = pre ++ slice sourceText rMd.headingStart rMd.bodyEnd ++ post) ∧
    (∀ i, rDx.headingBlockIndex ≤ i → i < rDx.bodyEndBlock →
      finalBlocks[i]? = templateBlocks[i]?) :=
  ⟨mdApply_absent_section_preserved sourceText ctx draftMd forceMd rMd out unresMd
      hnodup hrMd habsentMd hokMd,
   docxApply_absent_section_preserved templateBlocks draftDx forceDx rDx finalBlocks unresDx
      hrDx habsentDx hokDx⟩

set_option maxRecDepth 10000 in
/-- Witness for C5 at the concrete markdown template `c5Template` and
DOCX blocks `c5DocxBlocks`, applying `c5GoodDraft` (distinct ids,
addressing only `x`): the skip section `y` survives in both formats. -/
theorem C5_absent_sections_witness :
    (∃ pre post,
      str "# [FILL] [ID:x] A\nhi\n# [SKIP] [ID:y] B\nkeepme\n\n<!-- MRM_AGENT_APPLIED -->\n" =
        pre ++ slice c5Template 38 63 ++ post) ∧
    (∀ i, 2 ≤ i → i < 4 →
      ([DocxBlock.para (str "Heading 1") (str "[FILL] [ID:x] A"),
        DocxBlock.para (str "Normal") (str "hi"),
        DocxBlock.para (str "Heading 1") (str "[SKIP] [ID:y] B"),
        DocxBlock.para (str "Normal") (str "keepme"),
        DocxBlock.para (str "Normal") appliedMarkerDocx] : List DocxBlock)[i]? =
        c5DocxBlocks[i]?) :=
  C5_absent_sections_amended c5Template (str "additional-context.md") c5GoodDraft c5GoodDraft
    false false
    { sectionType := .skip, sectionId := str "y", headingStart := 38, bodyStart := 55,
      bodyEnd := 63 }
    (str "# [FILL] [ID:x] A\nhi\n# [SKIP] [ID:y] B\nkeepme\n\n<!-- MRM_AGENT_APPLIED -->\n") []
    c5DocxBlocks
    [DocxBlock.para (str "Heading 1") (str "[FILL] [ID:x] A"),
     DocxBlock.para (str "Normal") (str "hi"),
     DocxBlock.para (str "Heading 1") (str "[SKIP] [ID:y] B"),
     DocxBlock.para (str "Normal") (str "keepme"),
     DocxBlock.para (str "Normal") appliedMarkerDocx]
    { sectionType := .skip, sectionId := str "y", headingBlockIndex := 2, bodyStartBlock := 3,
      bodyEndBlock := 4 } []
    (by decide) (by decide) (by decide) (by decide) (by decide) (by decide) (by decide)

/-! ## C2: the draft serializer round-trip -/

theorem joinNL_single (a : Str) : joinNL [a] = a := by
  simp [joinNL, List.intercalate]

theorem joinNL_cons (a : Str) (l : List Str) (hl : l ≠ []) :
    joinNL (a :: l) = a ++ '\n' :: joinNL l := by
  cases l with
  | nil => exact absurd rfl hl
  | cons b t =>
    simp only [joinNL, List.intercalate, List.intersperse_cons_cons, List.flatten_cons]
    rfl

theorem joinNL_append (A B : List Str) (hA : A ≠ []) (hB : B ≠ []) :
    joinNL (A ++ B) = joinNL A ++ '\n' :: joinNL B := by
  induction A with
  | nil => exact absurd rfl hA
  | cons a A' ih =>
    cases A' with
    | nil =>
      rw [List.cons_append, List.nil_append, joinNL_cons a B hB, joinNL_single]
    | cons c t =>
      rw [List.cons_append, joinNL_cons a (c :: t ++ B) (by simp),
        joinNL_cons a (c :: t) (by simp), ih (by simp)]
      simp

theorem isPrefixOf_append_self (A B : Str) : A.isPrefixOf (A ++ B) = true :=
  List.isPrefixOf_iff_prefix.mpr (List.prefix_append A B)

theorem splitLinesAux_cons_ne (pos : Nat) (cur rest : Str) (c : Char) (hc : c ≠ '\n') :
    splitLinesAux pos cur (c :: rest) = splitLinesAux pos (c :: cur) rest := by
  conv_lhs => rw [splitLinesAux.eq_def]
  split
  · rename_i heq
    exact absurd heq (by simp)
  · rename_i r heq
    injection heq with h1 h2
    exact absurd h1 hc
  · rename_i c' r heq
    injection heq with h1 h2
    subst h1
    subst h2
    rfl

theorem splitLinesAux_no_nl (s : Str) : ∀ (pos : Nat) (cur : Str), '\n' ∉ s →
    splitLinesAux pos cur s = [(pos, cur.reverse ++ s)] := by
  induction s with
  | nil => intro pos cur _; simp [splitLinesAux]
  | cons c rest ih =>
    intro pos cur hnl
    have hc : c ≠ '\n' := fun hce => hnl (hce ▸ List.mem_cons_self c rest)
    have hrest : '\n' ∉ rest := fun hm => hnl (List.mem_cons_of_mem c hm)
    rw [splitLinesAux_cons_ne pos cur rest c hc, ih pos (c :: cur) hrest]
    simp

theorem splitLinesAux_line (L : Str) : ∀ (rest : Str) (pos : Nat) (cur : Str), '\n' ∉ L →
    splitLinesAux pos cur (L ++ '\n' :: rest) =
      (pos, cur.reverse ++ L) :: splitLinesAux (pos + cur.length + L.length + 1) [] rest := by
  induction L with
  | nil =>
    intro rest pos cur _
    simp [splitLinesAux]
  | cons c L' ih =>
    intro rest pos cur hnl
    have hc : c ≠ '\n' := fun hce => hnl (hce ▸ List.mem_cons_self c L')
    have hL' : '\n' ∉ L' := fun hm => hnl (List.mem_cons_of_mem c hm)
    rw [List.cons_append, splitLinesAux_cons_ne pos cur (L' ++ '\n' :: rest) c hc,
      ih rest pos (c :: cur) hL']
    have harith : pos + (c :: cur).length + L'.length + 1 =
        pos + cur.length + (c :: L').length + 1 := by
      simp only [List.length_cons]
      omega
    rw [harith]
    simp [List.reverse_cons, List.append_assoc]

theorem linesOf_joinNL_aux (ls : List Str) : ∀ pos, ls ≠ [] → (∀ l ∈ ls, '\n' ∉ l) →
    (splitLinesAux pos [] (joinNL ls)).map Prod.snd = ls := by
  induction ls with
  | nil => intro pos h _; exact absurd rfl h
  | cons a l ih =>
    intro pos _ hnl
    cases l with
    | nil =>
      rw [joinNL_single, splitLinesAux_no_nl a pos [] (hnl a (List.mem_cons_self a _))]
      simp
    | cons b t =>
      rw [joinNL_cons a (b :: t) (by simp),
        splitLinesAux_line a (joinNL (b :: t)) pos [] (hnl a (List.mem_cons_self a _))]
      rw [List.map_cons]
      rw [ih (pos + List.length ([] : Str) + a.length + 1) (by simp)
        (fun x hx => hnl x (List.mem_cons_of_mem a hx))]
      simp

theorem linesOf_joinNL (ls : List Str) (hls : ls ≠ []) (hnl : ∀ l ∈ ls, '\n' ∉ l) :
    linesOf (joinNL ls) = ls :=
  linesOf_joinNL_aux ls 0 hls hnl

theorem dropWhile_all_ws (W : Str) (h : ∀ c ∈ W, pySpace c = true) :
    W.dropWhile pySpace = [] := by
  induction W with
  | nil => rfl
  | cons c t ih =>
    rw [List.dropWhile_cons, if_pos (h c (List.mem_cons_self c t))]
    exact ih (fun x hx => h x (List.mem_cons_of_mem c hx))

theorem lstripWS_ws_append (W x : Str) (h : ∀ c ∈ W, pySpace c = true) :
    lstripWS (W ++ x) = lstripWS x := by
  unfold lstripWS
  rw [List.dropWhile_append, dropWhile_all_ws W h]
  simp

theorem rstripWS_append_ws (x W : Str) (h : ∀ c ∈ W, pySpace c = true) :
    rstripWS (x ++ W) = rstripWS x := by
  unfold rstripWS
  rw [List.reverse_append, List.dropWhile_append,
    dropWhile_all_ws W.reverse (fun c hc => h c (List.mem_reverse.mp hc))]
  simp

theorem stripWS_ws_append (W x : Str) (h : ∀ c ∈ W, pySpace c = true) :
    stripWS (W ++ x) = stripWS x := by
  unfold stripWS
  rw [lstripWS_ws_append W x h]

theorem stripWS_append_ws (x W : Str) (h : ∀ c ∈ W, pySpace c = true) :
    stripWS (x ++ W) = stripWS x := by
  unfold stripWS
  unfold lstripWS
  rw [List.dropWhile_append]
  by_cases hx : (x.dropWhile pySpace).isEmpty = true
  · rw [if_pos hx]
    rw [dropWhile_all_ws W h]
    rw [List.isEmpty_iff] at hx
    rw [hx]
  · rw [if_neg hx]
    exact rstripWS_append_ws _ W h

theorem lstripWS_of_head (s : Str) (h : ∀ c, s.head? = some c → pySpace c = false) :
    lstripWS s = s := by
  cases s with
  | nil => rfl
  | cons c t =>
    unfold lstripWS
    rw [List.dropWhile_cons, if_neg (by rw [h c rfl]; simp)]

theorem rstripWS_of_last (s : Str) (h : ∀ c, s.getLast? = some c → pySpace c = false) :
    rstripWS s = s := by
  unfold rstripWS
  cases hr : s.reverse with
  | nil =>
    simp only [List.dropWhile_nil]
    rw [← hr, List.reverse_reverse]
  | cons c t =>
    rw [List.dropWhile_cons, if_neg ?_, ← hr, List.reverse_reverse]
    have : s.getLast? = some c := by
      rw [← List.head?_reverse, hr]
      rfl
    rw [h c this]
    simp

theorem dropWhile_head_not (p : Char → Bool) (r : Str) :
    ∀ c, (r.dropWhile p).head? = some c → p c = false := by
  induction r with
  | nil => intro c hc; cases hc
  | cons x t ih =>
    intro c hc
    rw [List.dropWhile_cons] at hc
    by_cases hx : p x = true
    · rw [if_pos hx] at hc
      exact ih c hc
    · rw [if_neg hx] at hc
      injection hc with hc'
      subst hc'
      exact Bool.eq_false_iff.mpr hx

theorem lstripWS_head_not_ws (s : Str) :
    ∀ c, (lstripWS s).head? = some c → pySpace c = false :=
  dropWhile_head_not pySpace s

theorem rstripWS_last_not_ws (s : Str) :
    ∀ c, (rstripWS s).getLast? = some c → pySpace c = false := by
  intro c hc
  unfold rstripWS at hc
  rw [List.getLast?_reverse] at hc
  exact dropWhile_head_not pySpace s.reverse c hc

theorem head?_of_prefix_eq {x t y : Str} (ht : x ++ t = y) {c : Char}
    (hc : x.head? = some c) : y.head? = some c := by
  subst ht
  cases x with
  | nil => cases hc
  | cons d r => exact hc

theorem stripWS_idem (s : Str) : stripWS (stripWS s) = stripWS s := by
  conv_lhs => rw [stripWS]
  rw [lstripWS_of_head _ ?hhead, rstripWS_of_last _ ?hlast]
  case hhead =>
    intro c hc
    obtain ⟨t, ht⟩ := List.dropWhile_suffix (l := (lstripWS s).reverse) pySpace
    have hpre : rstripWS (lstripWS s) ++ t.reverse = lstripWS s := by
      have h2 := congrArg List.reverse ht
      rw [List.reverse_append, List.reverse_reverse] at h2
      unfold rstripWS
      exact h2
    exact lstripWS_head_not_ws s c (head?_of_prefix_eq hpre hc)
  case hlast =>
    intro c hc
    exact rstripWS_last_not_ws (lstripWS s) c hc

theorem draftHeaderScanAux_gt (text : Str) (p : Nat) (hp : text.length < p) :
    ∀ fuel, draftHeaderScanAux text fuel p = [] := by
  intro fuel
  cases fuel with
  | zero => simp only [draftHeaderScanAux]
  | succ k =>
    simp only [draftHeaderScanAux]
    rw [if_neg (by omega)]

theorem draftHeaderScanAux_fuel (text : Str) : ∀ (f1 f2 p : Nat),
    text.length + 1 - p ≤ f1 → text.length + 1 - p ≤ f2 →
    draftHeaderScanAux text f1 p = draftHeaderScanAux text f2 p := by
  intro f1
  induction f1 with
  | zero =>
    intro f2 p h1 h2
    have hp : text.length < p := by omega
    rw [draftHeaderScanAux_gt text p hp, draftHeaderScanAux_gt text p hp]
  | succ k ih =>
    intro f2 p h1 h2
    by_cases hp : p ≤ text.length
    · cases f2 with
      | zero => omega
      | succ m =>
        simp only [draftHeaderScanAux]
        rw [if_pos hp, if_pos hp]
        by_cases ha : p = 0 ∨ text.get? (p - 1) = some '\n'
        · rw [if_pos ha, if_pos ha]
          cases hm : draftHeaderMatchAt text p with
          | none => exact ih m (p + 1) (by omega) (by omega)
          | some q =>
            obtain ⟨e, id, g⟩ := q
            dsimp only
            rw [ih m (max e (p + 1)) (by omega) (by omega)]
        · rw [if_neg ha, if_neg ha]
          exact ih m (p + 1) (by omega) (by omega)
    · rw [draftHeaderScanAux_gt text p (by omega), draftHeaderScanAux_gt text p (by omega)]

theorem scan_step_none (text : Str) (p : Nat) (hp : p ≤ text.length)
    (hnone : (p = 0 ∨ text.get? (p - 1) = some '\n') → draftHeaderMatchAt text p = none) :
    draftHeaderScanAux text (text.length + 1) p =
      draftHeaderScanAux text (text.length + 1) (p + 1) := by
  conv_lhs => simp only [draftHeaderScanAux]
  rw [if_pos hp]
  by_cases ha : p = 0 ∨ text.get? (p - 1) = some '\n'
  · rw [if_pos ha, hnone ha]
    exact draftHeaderScanAux_fuel text text.length (text.length + 1) (p + 1) (by omega) (by omega)
  · rw [if_neg ha]
    exact draftHeaderScanAux_fuel text text.length (text.length + 1) (p + 1) (by omega) (by omega)

theorem scan_step_match (text : Str) (p e : Nat) (id g : Str) (hp : p ≤ text.length)
    (ha : p = 0 ∨ text.get? (p - 1) = some '\n')
    (hm : draftHeaderMatchAt text p = some (e, id, g)) (he : p < e) :
    draftHeaderScanAux text (text.length + 1) p =
      (p, id, g) :: draftHeaderScanAux text (text.length + 1) e := by
  conv_lhs => simp only [draftHeaderScanAux]
  rw [if_pos hp, if_pos ha, hm]
  dsimp only
  congr 1
  rw [show max e (p + 1) = e from by omega]
  exact draftHeaderScanAux_fuel text text.length (text.length + 1) e (by omega) (by omega)

theorem scan_skip_range (text : Str) : ∀ (n p : Nat), p + n ≤ text.length + 1 →
    (∀ r, p ≤ r → r < p + n → (r = 0 ∨ text.get? (r - 1) = some '\n') →
      draftHeaderMatchAt text r = none) →
    draftHeaderScanAux text (text.length + 1) p =
      draftHeaderScanAux text (text.length + 1) (p + n) := by
  intro n
  induction n with
  | zero => intro p _ _; rfl
  | succ k ih =>
    intro p hb hnone
    rw [scan_step_none text p (by omega) (fun ha => hnone p (le_refl p) (by omega) ha)]
    rw [ih (p + 1) (by omega) (fun r h1 h2 h3 => hnone r (by omega) (by omega) h3)]
    congr 1
    omega

theorem takeWhile_all_eq (p : Char → Bool) (A : Str) (h : ∀ c ∈ A, p c = true) :
    A.takeWhile p = A := by
  induction A with
  | nil => rfl
  | cons x t ih =>
    rw [List.takeWhile_cons, if_pos (h x (List.mem_cons_self x t)),
      ih (fun c hc => h c (List.mem_cons_of_mem x hc))]

theorem takeWhile_append_not (p : Char → Bool) (A : Str) (b : Char) (B : Str)
    (hA : ∀ c ∈ A, p c = true) (hb : p b = false) :
    (A ++ b :: B).takeWhile p = A := by
  induction A with
  | nil => simp [List.takeWhile_cons, hb]
  | cons x t ih =>
    rw [List.cons_append, List.takeWhile_cons, if_pos (hA x (List.mem_cons_self x t)),
      ih (fun c hc => hA c (List.mem_cons_of_mem x hc))]

theorem drop_add (l : Str) (n m : Nat) : l.drop (n + m) = (l.drop n).drop m := by
  rw [List.drop_drop]

theorem titleOk_parts (s : Str) (h : titleOk s = true) :
    s ≠ [] ∧ (∀ c, s.head? = some c → pySpace c = false) ∧
    (∀ c, s.getLast? = some c → pySpace c = false) ∧
    (∀ c ∈ s, c ≠ '\n' ∧ c ≠ '`') := by
  unfold titleOk at h
  simp only [Bool.and_eq_true, Bool.not_eq_true', List.all_eq_true, decide_eq_true_eq] at h
  obtain ⟨⟨⟨⟨h1, h2⟩, h3⟩, h4⟩, h5⟩ := h
  refine ⟨?_, ?_, ?_, fun c hc => h5 c hc⟩
  · intro hnil
    subst hnil
    simp at h1
  · intro c hc
    cases s with
    | nil => cases hc
    | cons x t =>
      injection hc with hc'
      subst hc'
      simpa using h2
  · intro c hc
    rw [hc] at h4
    exact h4

theorem stripWS_titleOk (s : Str) (h : titleOk s = true) : stripWS s = s := by
  obtain ⟨_, hh, hl, _⟩ := titleOk_parts s h
  unfold stripWS
  rw [lstripWS_of_head s hh, rstripWS_of_last s hl]

theorem idOk_parts (s : Str) (h : idOk s = true) :
    s ≠ [] ∧ ∀ c ∈ s, isIdChar c = true := by
  unfold idOk at h
  simp only [Bool.and_eq_true, Bool.not_eq_true', List.all_eq_true] at h
  refine ⟨?_, fun c hc => h.2 c hc⟩
  intro hnil
  subst hnil
  simp at h

theorem lazyTailMatch_line (text : Str) (ws : Nat) (title tail : Str) (c0 : Char)
    (hdropWs : text.drop ws = ' ' :: (title ++ '\n' :: c0 :: tail))
    (htitle : titleOk title = true) (hc0 : pySpace c0 = false) :
    lazyTailMatch text ws = some (ws + 1 + title.length, title) := by
  obtain ⟨hne, hh, hl, hmem⟩ := titleOk_parts title htitle
  obtain ⟨t0, ttl, rfl⟩ : ∃ t0 ttl, title = t0 :: ttl := by
    cases title with
    | nil => exact absurd rfl hne
    | cons x xs => exact ⟨x, xs, rfl⟩
  have ht0 : pySpace t0 = false := hh t0 rfl
  have hrun : (text.drop ws).takeWhile pySpace = [' '] := by
    rw [hdropWs, List.takeWhile_cons, if_pos (by decide), List.cons_append,
      List.takeWhile_cons, if_neg (by rw [ht0]; simp)]
  have hlen : text.length = ws + (t0 :: ttl).length + tail.length + 3 := by
    have h1 := congrArg List.length hdropWs
    rw [List.length_drop] at h1
    simp only [List.length_cons, List.length_append] at h1
    simp only [List.length_cons]
    omega
  have hs1 : (text.drop ws).drop 1 = (t0 :: ttl) ++ '\n' :: c0 :: tail := by
    rw [hdropWs]
    rfl
  have hcontent : ((t0 :: ttl) ++ '\n' :: c0 :: tail).takeWhile (· ≠ '\n') = t0 :: ttl :=
    takeWhile_append_not _ _ _ _ (fun c hc => by simpa using (hmem c hc).1) (by decide)
  have hrs : rstripWS (t0 :: ttl) = t0 :: ttl := rstripWS_of_last _ hl
  have hdropC : text.drop (ws + 1 + (t0 :: ttl).length) = '\n' :: c0 :: tail := by
    rw [show ws + 1 + (t0 :: ttl).length = ws + (1 + (t0 :: ttl).length) from by omega,
      drop_add, hdropWs]
    have hsplit : (' ' :: ((t0 :: ttl) ++ '\n' :: c0 :: tail)) =
        (' ' :: (t0 :: ttl)) ++ ('\n' :: c0 :: tail) := by simp
    rw [hsplit, show 1 + (t0 :: ttl).length = (' ' :: (t0 :: ttl)).length from by
      simp only [List.length_cons]; omega]
    exact List.drop_left _ _
  have hrun2 : ('\n' :: c0 :: tail).takeWhile pySpace = ['\n'] := by
    rw [List.takeWhile_cons, if_pos (by decide), List.takeWhile_cons,
      if_neg (by rw [hc0]; simp)]
  simp only [lazyTailMatch, hrun]
  rw [if_neg (by simp)]
  rw [if_neg (by simp only [List.length_singleton]; omega)]
  simp only [List.length_singleton, hs1, hcontent, hrs]
  simp only [hdropC, hrun2]
  rw [if_neg (by simp only [List.length_singleton]; omega)]
  rw [show lastIdxOf '\n' ['\n'] = some 0 from by decide]
  simp

theorem draftHeaderMatchAt_header (text : Str) (a : Nat) (id title : Str) (c0 : Char)
    (tail : Str)
    (hdrop : text.drop a = str "## [ID:" ++ id ++ str "] " ++ title ++ '\n' :: c0 :: tail)
    (hid : idOk id = true) (htitle : titleOk title = true) (hc0 : pySpace c0 = false) :
    draftHeaderMatchAt text a = some (a + 9 + id.length + title.length, id, title) := by
  obtain ⟨hidne, hidall⟩ := idOk_parts id hid
  have hR : text.drop a =
      '#' :: '#' :: ' ' :: '[' :: 'I' :: 'D' :: ':' ::
        (id ++ ']' :: (' ' :: (title ++ '\n' :: c0 :: tail))) := by
    rw [hdrop, show str "## [ID:" = ['#', '#', ' ', '[', 'I', 'D', ':'] from rfl,
      show str "] " = [']', ' '] from rfl]
    simp
  have htwId : (id ++ ']' :: (' ' :: (title ++ '\n' :: c0 :: tail))).takeWhile isIdChar = id :=
    takeWhile_append_not _ _ _ _ hidall (by decide)
  have hdropId : (id ++ ']' :: (' ' :: (title ++ '\n' :: c0 :: tail))).drop id.length =
      ']' :: (' ' :: (title ++ '\n' :: c0 :: tail)) := List.drop_left _ _
  have hdropWs : text.drop (a + 2 + 1 + 4 + id.length + 1) =
      ' ' :: (title ++ '\n' :: c0 :: tail) := by
    rw [show a + 2 + 1 + 4 + id.length + 1 = a + (8 + id.length) from by omega, drop_add, hR]
    have hsplit : ('#' :: '#' :: ' ' :: '[' :: 'I' :: 'D' :: ':' ::
        (id ++ ']' :: (' ' :: (title ++ '\n' :: c0 :: tail)))) =
        (('#' :: '#' :: ' ' :: '[' :: 'I' :: 'D' :: ':' :: id) ++ [']']) ++
          (' ' :: (title ++ '\n' :: c0 :: tail)) := by simp
    rw [hsplit, show (8 : Nat) + id.length =
      (('#' :: '#' :: ' ' :: '[' :: 'I' :: 'D' :: ':' :: id) ++ [']']).length from by
        simp only [List.length_append, List.length_cons, List.length_singleton,
          List.length_nil]
        omega]
    exact List.drop_left _ _
  have hlz := lazyTailMatch_line text (a + 2 + 1 + 4 + id.length + 1) title tail c0
    hdropWs htitle hc0
  have h1 : (text.drop a).take 2 = str "##" := by
    rw [hR]
    rfl
  have h2 : ((text.drop a).drop 2).takeWhile pySpace = [' '] := by
    rw [hR]
    rfl
  have h3 : ((text.drop a).drop 2).drop 1 =
      '[' :: 'I' :: 'D' :: ':' :: (id ++ ']' :: (' ' :: (title ++ '\n' :: c0 :: tail))) := by
    rw [hR]
    rfl
  have h4 : ('[' :: 'I' :: 'D' :: ':' ::
      (id ++ ']' :: (' ' :: (title ++ '\n' :: c0 :: tail)))).take 4 = str "[ID:" := rfl
  have h5 : ('[' :: 'I' :: 'D' :: ':' ::
      (id ++ ']' :: (' ' :: (title ++ '\n' :: c0 :: tail)))).drop 4 =
      id ++ ']' :: (' ' :: (title ++ '\n' :: c0 :: tail)) := rfl
  simp only [draftHeaderMatchAt, h2, List.length_singleton]
  rw [if_pos h1, if_neg (by simp)]
  rw [h3]
  rw [if_pos h4, h5, htwId]
  rw [if_pos ⟨hidne, by rw [hdropId]; rfl⟩]
  rw [hlz]
  simp only [Option.map_some', stripWS_titleOk title htitle, Option.some.injEq, Prod.mk.injEq]
  exact ⟨by omega, trivial⟩

theorem draftHeaderMatchAt_safe (text : Str) (a : Nat) (l tail : Str)
    (hdrop : text.drop a = l ++ tail)
    (htail : tail = [] ∨ ∃ t', tail = '\n' :: t')
    (hsafe : lineSafe l = true) :
    draftHeaderMatchAt text a = none := by
  by_cases hpre : (str "##").isPrefixOf l = true
  · -- the line starts with ## but a non-whitespace character follows
    have hpre2 := hpre
    rw [List.isPrefixOf_iff_prefix] at hpre2
    obtain ⟨l2, hl2⟩ := hpre2
    unfold lineSafe at hsafe
    rw [hpre] at hsafe
    simp only [Bool.not_true, Bool.false_or] at hsafe
    have hd2 : l.drop 2 = l2 := by
      rw [← hl2]
      rfl
    rw [hd2] at hsafe
    cases l2 with
    | nil => exact absurd hsafe (by simp)
    | cons c t =>
      have hc : pySpace c = false := by simpa using hsafe
      have h1 : (text.drop a).take 2 = str "##" := by
        rw [hdrop, ← hl2]
        rfl
      have h2 : ((text.drop a).drop 2).takeWhile pySpace = [] := by
        rw [hdrop, ← hl2]
        have e1 : ((str "##" ++ (c :: t)) ++ tail).drop 2 = c :: (t ++ tail) := by
          rw [show str "##" ++ (c :: t) = '#' :: '#' :: c :: t from rfl]
          rfl
        rw [e1, List.takeWhile_cons, if_neg (by rw [hc]; simp)]
      simp only [draftHeaderMatchAt, h2]
      rw [if_pos h1]
      simp
  · -- the line does not start with ##
    have hcond : ¬ ((text.drop a).take 2 = str "##") := by
      rw [hdrop]
      intro hEq
      cases l with
      | nil =>
        rcases htail with rfl | ⟨t', rfl⟩
        · exact absurd hEq (by decide)
        · have e1 : (([] : Str) ++ '\n' :: t').take 2 = '\n' :: t'.take 1 := rfl
          rw [e1] at hEq
          injection hEq with hx _
          exact absurd hx (by decide)
      | cons x xs =>
        cases xs with
        | nil =>
          rcases htail with rfl | ⟨t', rfl⟩
          · have e1 : (([x] : Str) ++ []).take 2 = [x] := rfl
            rw [e1] at hEq
            injection hEq with _ hx
            exact List.noConfusion hx
          · have e1 : (([x] : Str) ++ '\n' :: t').take 2 = [x, '\n'] := rfl
            rw [e1] at hEq
            injection hEq with _ hx
            injection hx with hx2 _
            exact absurd hx2 (by decide)
        | cons y ys =>
          have e1 : ((x :: y :: ys) ++ tail).take 2 = [x, y] := rfl
          rw [e1] at hEq
          injection hEq with hx hrest
          injection hrest with hy _
          subst hx
          subst hy
          exact hpre (by rw [List.isPrefixOf_iff_prefix]; exact ⟨ys, rfl⟩)
    simp only [draftHeaderMatchAt]
    rw [if_neg hcond]

theorem no_inner_anchor (text : Str) (e : Nat) (l tail : Str)
    (hdrop : text.drop e = l ++ tail) (hnl : '\n' ∉ l)
    (r : Nat) (hr1 : e < r) (hr2 : r ≤ e + l.length) :
    ¬ (text.get? (r - 1) = some '\n') := by
  intro hget
  have h1 : (text.drop e).get? (r - 1 - e) = text.get? (r - 1) := by
    rw [List.get?_eq_getElem?, List.get?_eq_getElem?, List.getElem?_drop]
    congr 1
    omega
  rw [hget, hdrop] at h1
  have hlt : r - 1 - e < l.length := by omega
  rw [List.get?_eq_getElem?, List.getElem?_append, if_pos hlt] at h1
  exact hnl (List.getElem?_mem h1)

theorem anchors_safe_of_lines (text : Str) :
    ∀ (lines : List Str) (e : Nat),
    text.drop e = joinNL lines ++ ['\n'] →
    e + (joinNL lines).length + 1 = text.length →
    (∀ l ∈ lines, lineSafe l = true ∧ '\n' ∉ l) →
    ∀ r, e ≤ r → (r = 0 ∨ text.get? (r - 1) = some '\n') →
      draftHeaderMatchAt text r = none := by
  intro lines
  induction lines with
  | nil =>
    intro e hdrop hlen hsafe r her hanchor
    by_cases hre : r = e
    · subst hre
      exact draftHeaderMatchAt_safe text r [] ['\n'] (by simpa [joinNL] using hdrop)
        (.inr ⟨[], rfl⟩) (by decide)
    · have hd : text.drop r = [] := List.drop_eq_nil_of_le (by
        rw [show joinNL ([] : List Str) = [] from rfl] at hlen
        simp only [List.length_nil] at hlen
        omega)
      exact draftHeaderMatchAt_safe text r [] [] (by simpa using hd) (.inl rfl) (by decide)
  | cons l rest ih =>
    intro e hdrop hlen hsafe r her hanchor
    obtain ⟨hlsafe, hlnl⟩ := hsafe l (List.mem_cons_self l rest)
    cases rest with
    | nil =>
      rw [joinNL_single] at hdrop hlen
      by_cases hre : r = e
      · subst hre
        exact draftHeaderMatchAt_safe text r l ['\n'] (by simpa using hdrop)
          (.inr ⟨[], rfl⟩) hlsafe
      · by_cases hrin : r ≤ e + l.length
        · exfalso
          rcases hanchor with h0 | hnl
          · omega
          · exact no_inner_anchor text e l ['\n'] hdrop hlnl r (by omega) hrin hnl
        · have hd : text.drop r = [] := List.drop_eq_nil_of_le (by omega)
          exact draftHeaderMatchAt_safe text r [] [] (by simpa using hd) (.inl rfl) (by decide)
    | cons l2 rest2 =>
      rw [joinNL_cons l (l2 :: rest2) (by simp)] at hdrop hlen
      by_cases hre : r = e
      · subst hre
        refine draftHeaderMatchAt_safe text r l ('\n' :: (joinNL (l2 :: rest2) ++ ['\n']))
          ?_ (.inr ⟨_, rfl⟩) hlsafe
        rw [hdrop]
        simp
      · by_cases hrin : r ≤ e + l.length
        · exfalso
          rcases hanchor with h0 | hnl
          · omega
          · exact no_inner_anchor text e l ('\n' :: (joinNL (l2 :: rest2) ++ ['\n']))
              (by rw [hdrop]; simp) hlnl r (by omega) hrin hnl
        · refine ih (e + l.length + 1) ?_ ?_
            (fun x hx => hsafe x (List.mem_cons_of_mem l hx)) r (by omega) hanchor
          · rw [show e + l.length + 1 = e + (l.length + 1) from by omega, drop_add, hdrop]
            rw [show l ++ '\n' :: joinNL (l2 :: rest2) ++ ['\n'] =
              (l ++ ['\n']) ++ (joinNL (l2 :: rest2) ++ ['\n']) from by simp,
              show l.length + 1 = (l ++ ['\n']).length from by simp]
            exact List.drop_left _ _
          · simp only [List.length_append, List.length_cons] at hlen ⊢
            omega

theorem splitLinesAux_ne_nil (s : Str) : ∀ pos cur, splitLinesAux pos cur s ≠ [] := by
  induction s with
  | nil =>
    intro pos cur
    simp [splitLinesAux]
  | cons c rest ih =>
    intro pos cur
    by_cases hc : c = '\n'
    · subst hc
      simp [splitLinesAux]
    · rw [splitLinesAux_cons_ne pos cur rest c hc]
      exact ih pos (c :: cur)

theorem linesOf_ne_nil (s : Str) : linesOf s ≠ [] := by
  unfold linesOf splitLinesPos
  simp only [ne_eq, List.map_eq_nil]
  exact splitLinesAux_ne_nil s 0 []

theorem joinNL_splitLinesAux (s : Str) : ∀ pos cur,
    joinNL ((splitLinesAux pos cur s).map Prod.snd) = cur.reverse ++ s := by
  induction s with
  | nil =>
    intro pos cur
    simp [splitLinesAux, joinNL_single]
  | cons c rest ih =>
    intro pos cur
    by_cases hc : c = '\n'
    · subst hc
      simp only [splitLinesAux, List.map_cons]
      rw [joinNL_cons _ _ (by
        simp only [ne_eq, List.map_eq_nil]
        exact splitLinesAux_ne_nil rest _ [])]
      rw [ih (pos + cur.length + 1) []]
      simp
    · rw [splitLinesAux_cons_ne pos cur rest c hc, ih pos (c :: cur)]
      simp

theorem joinNL_linesOf (s : Str) : joinNL (linesOf s) = s := by
  unfold linesOf splitLinesPos
  rw [joinNL_splitLinesAux s 0 []]
  rfl

theorem splitLinesAux_no_newline (s : Str) : ∀ pos cur, '\n' ∉ cur →
    ∀ l ∈ (splitLinesAux pos cur s).map Prod.snd, '\n' ∉ l := by
  induction s with
  | nil =>
    intro pos cur hcur l hl
    simp only [splitLinesAux, List.map_cons, List.map_nil, List.mem_singleton] at hl
    subst hl
    simpa using hcur
  | cons c rest ih =>
    intro pos cur hcur l hl
    by_cases hc : c = '\n'
    · subst hc
      simp only [splitLinesAux, List.map_cons, List.mem_cons] at hl
      rcases hl with rfl | hl
      · simpa using hcur
      · exact ih (pos + cur.length + 1) [] (by simp) l hl
    · rw [splitLinesAux_cons_ne pos cur rest c hc] at hl
      exact ih pos (c :: cur) (by
        simp only [List.mem_cons, not_or]
        exact ⟨fun h => hc h.symm, hcur⟩) l hl

theorem linesOf_no_newline (s : Str) : ∀ l ∈ linesOf s, '\n' ∉ l :=
  splitLinesAux_no_newline s 0 [] (by simp)

theorem lineSafe_head (c : Char) (t : Str) (hc : c ≠ '#') : lineSafe (c :: t) = true := by
  unfold lineSafe
  cases hp : (str "##").isPrefixOf (c :: t) with
  | false => simp
  | true =>
    exfalso
    rw [List.isPrefixOf_iff_prefix] at hp
    obtain ⟨t', ht'⟩ := hp
    rw [show str "##" ++ t' = '#' :: '#' :: t' from rfl] at ht'
    injection ht' with h1 _
    exact hc h1.symm

theorem plainScalar_no_nl (v : Str) (h : plainScalar v = true) : '\n' ∉ v := by
  unfold plainScalar at h
  simp only [Bool.and_eq_true, List.all_eq_true] at h
  intro hmem
  have := h.1.2 '\n' hmem
  exact absurd this (by decide)

theorem anchors_safe_mid (text : Str) :
    ∀ (lines : List Str) (e : Nat) (suffix : Str),
    text.drop e = joinNL lines ++ '\n' :: suffix →
    (∀ l ∈ lines, lineSafe l = true ∧ '\n' ∉ l) →
    ∀ r, e ≤ r → r ≤ e + (joinNL lines).length →
      (r = 0 ∨ text.get? (r - 1) = some '\n') →
      draftHeaderMatchAt text r = none := by
  intro lines
  induction lines with
  | nil =>
    intro e suffix hdrop hsafe r h1 h2 hanchor
    have hre : r = e := by
      rw [show joinNL ([] : List Str) = [] from rfl] at h2
      simp only [List.length_nil] at h2
      omega
    subst hre
    exact draftHeaderMatchAt_safe text r [] ('\n' :: suffix)
      (by simpa [show joinNL ([] : List Str) = [] from rfl] using hdrop)
      (.inr ⟨suffix, rfl⟩) (by decide)
  | cons l rest ih =>
    intro e suffix hdrop hsafe r h1 h2 hanchor
    obtain ⟨hlsafe, hlnl⟩ := hsafe l (List.mem_cons_self l rest)
    cases rest with
    | nil =>
      rw [joinNL_single] at hdrop h2
      by_cases hre : r = e
      · subst hre
        exact draftHeaderMatchAt_safe text r l ('\n' :: suffix) hdrop
          (.inr ⟨suffix, rfl⟩) hlsafe
      · exfalso
        rcases hanchor with h0 | hnl
        · omega
        · exact no_inner_anchor text e l ('\n' :: suffix) hdrop hlnl r (by omega)
            (by omega) hnl
    | cons l2 rest2 =>
      rw [joinNL_cons l (l2 :: rest2) (by simp)] at hdrop h2
      by_cases hre : r = e
      · subst hre
        refine draftHeaderMatchAt_safe text r l
          ('\n' :: (joinNL (l2 :: rest2) ++ '\n' :: suffix)) ?_ (.inr ⟨_, rfl⟩) hlsafe
        rw [hdrop]
        simp
      · by_cases hrin : r ≤ e + l.length
        · exfalso
          rcases hanchor with h0 | hnl
          · omega
          · exact no_inner_anchor text e l ('\n' :: (joinNL (l2 :: rest2) ++ '\n' :: suffix))
              (by rw [hdrop]; simp) hlnl r (by omega) hrin hnl
        · refine ih (e + l.length + 1) suffix ?_
            (fun x hx => hsafe x (List.mem_cons_of_mem l hx)) r (by omega) ?_ hanchor
          · rw [show e + l.length + 1 = e + (l.length + 1) from by omega, drop_add, hdrop]
            rw [show l ++ '\n' :: joinNL (l2 :: rest2) ++ '\n' :: suffix =
              (l ++ ['\n']) ++ (joinNL (l2 :: rest2) ++ '\n' :: suffix) from by simp,
              show l.length + 1 = (l ++ ['\n']).length from by simp]
            exact List.drop_left _ _
          · simp only [List.length_append, List.length_cons] at h2
            omega

theorem sectionSerializable_parts (s : DraftSection) (h : sectionSerializable s = true) :
    idOk s.id = true ∧ titleOk s.title = true ∧ bodyOk s.body = true ∧
    (∀ c ∈ s.checkboxes, plainScalar c.name = true) ∧
    (∀ a ∈ s.attachments, plainScalar a = true) ∧
    (∀ e ∈ s.evidence, plainScalar e = true) ∧
    (∀ m ∈ s.missingItems, plainScalar m.id = true ∧ plainScalar m.question = true ∧
      plainScalar m.sectionId = true ∧ m.userResponse = []) := by
  unfold sectionSerializable at h
  simp only [Bool.and_eq_true, List.all_eq_true] at h
  obtain ⟨⟨⟨⟨⟨⟨h1, h2⟩, h3⟩, h4⟩, h5⟩, h6⟩, h7⟩ := h
  refine ⟨h1, h2, h3, fun c hc => h4 c hc, fun a ha => h5 a ha, fun e he => h6 e he, ?_⟩
  intro m hm
  have hres := h7 m hm
  simp only [Bool.and_eq_true] at hres
  obtain ⟨⟨⟨ha, hb⟩, hc⟩, hd⟩ := hres
  refine ⟨ha, hb, hc, ?_⟩
  rwa [List.isEmpty_iff] at hd

theorem litLine_ok (p v : Str) (hp : p.head? ≠ some '#') (hpne : p ≠ [])
    (hpn : '\n' ∉ p) (hv : '\n' ∉ v) : lineSafe (p ++ v) = true ∧ '\n' ∉ p ++ v := by
  obtain ⟨c, t, rfl⟩ : ∃ c t, p = c :: t := by
    cases p with
    | nil => exact absurd rfl hpne
    | cons x xs => exact ⟨x, xs, rfl⟩
  constructor
  · rw [List.cons_append]
    refine lineSafe_head c (t ++ v) ?_
    intro hceq
    exact hp (by rw [hceq]; rfl)
  · rw [List.cons_append]
    intro hmem
    rcases List.mem_cons.mp hmem with h | h
    · exact hpn (by rw [← h]; exact List.mem_cons_self _ _)
    · rcases List.mem_append.mp h with h2 | h2
      · exact hpn (List.mem_cons_of_mem c h2)
      · exact hv h2

theorem dumpMetaLines_safe (s : DraftSection)
    (hcb : ∀ c ∈ s.checkboxes, plainScalar c.name = true)
    (hat : ∀ a ∈ s.attachments, plainScalar a = true)
    (hev : ∀ e ∈ s.evidence, plainScalar e = true)
    (hmi : ∀ m ∈ s.missingItems, plainScalar m.id = true ∧ plainScalar m.question = true ∧
      plainScalar m.sectionId = true) :
    ∀ l ∈ dumpMetaLines s, lineSafe l = true ∧ '\n' ∉ l := by
  intro l hl
  unfold dumpMetaLines at hl
  rcases List.mem_append.mp hl with h3 | hMI
  · rcases List.mem_append.mp h3 with h2 | hEV
    · rcases List.mem_append.mp h2 with hA | hAT
      · rcases List.mem_cons.mp hA with rfl | h2'
        · cases s.status
          · exact ⟨by decide, by decide⟩
          · exact ⟨by decide, by decide⟩
        · by_cases hcb0 : s.checkboxes = []
          · rw [if_pos hcb0] at h2'
            rw [List.mem_singleton] at h2'
            subst h2'
            exact ⟨by decide, by decide⟩
          · rw [if_neg hcb0] at h2'
            rcases List.mem_cons.mp h2' with rfl | h3'
            · exact ⟨by decide, by decide⟩
            · obtain ⟨c, hcmem, hcl⟩ := List.mem_flatMap.mp h3'
              rcases List.mem_cons.mp hcl with rfl | hcl2
              · exact litLine_ok (str "- name: ") c.name (by decide) (by decide) (by decide)
                  (plainScalar_no_nl c.name (hcb c hcmem))
              · rw [List.mem_singleton] at hcl2
                subst hcl2
                exact litLine_ok (str "  checked: ") (boolStr c.checked) (by decide) (by decide)
                  (by decide) (by cases c.checked <;> decide)
      · by_cases hat0 : s.attachments = []
        · rw [if_pos hat0] at hAT
          rw [List.mem_singleton] at hAT
          subst hAT
          exact ⟨by decide, by decide⟩
        · rw [if_neg hat0] at hAT
          rcases List.mem_cons.mp hAT with rfl | h2'
          · exact ⟨by decide, by decide⟩
          · obtain ⟨a, hamem, rfl⟩ := List.mem_map.mp h2'
            exact litLine_ok (str "- ") a (by decide) (by decide) (by decide)
              (plainScalar_no_nl a (hat a hamem))
    · by_cases hev0 : s.evidence = []
      · rw [if_pos hev0] at hEV
        rw [List.mem_singleton] at hEV
        subst hEV
        exact ⟨by decide, by decide⟩
      · rw [if_neg hev0] at hEV
        rcases List.mem_cons.mp hEV with rfl | h2'
        · exact ⟨by decide, by decide⟩
        · obtain ⟨a, hamem, rfl⟩ := List.mem_map.mp h2'
          exact litLine_ok (str "- ") a (by decide) (by decide) (by decide)
            (plainScalar_no_nl a (hev a hamem))
  · by_cases hmi0 : s.missingItems = []
    · rw [if_pos hmi0] at hMI
      rw [List.mem_singleton] at hMI
      subst hMI
      exact ⟨by decide, by decide⟩
    · rw [if_neg hmi0] at hMI
      rcases List.mem_cons.mp hMI with rfl | h2'
      · exact ⟨by decide, by decide⟩
      · obtain ⟨m, hmmem, hml⟩ := List.mem_flatMap.mp h2'
        rcases List.mem_cons.mp hml with rfl | hml2
        · exact litLine_ok (str "- id: ") m.id (by decide) (by decide) (by decide)
            (plainScalar_no_nl m.id (hmi m hmmem).1)
        · rcases List.mem_cons.mp hml2 with rfl | hml3
          · exact litLine_ok (str "  question: ") m.question (by decide) (by decide)
              (by decide) (plainScalar_no_nl m.question (hmi m hmmem).2.1)
          · rw [List.mem_singleton] at hml3
            subst hml3
            exact litLine_ok (str "  section_id: ") m.sectionId (by decide) (by decide)
              (by decide) (plainScalar_no_nl m.sectionId (hmi m hmmem).2.2)

theorem dumpMetaLines_ne_nil (s : DraftSection) : dumpMetaLines s ≠ [] := by
  unfold dumpMetaLines
  simp

theorem secHeader_length (s : DraftSection) :
    (secHeader s).length = 9 + s.id.length + s.title.length := by
  unfold secHeader
  simp only [List.length_append, show (str "## [ID:").length = 7 from rfl,
    show (str "] ").length = 2 from rfl]
  omega

theorem drop_after_prefix (text : Str) (base : Nat) (P T : Str)
    (hdrop : text.drop base = P ++ T) :
    text.drop (base + P.length) = T := by
  rw [drop_add, hdrop, List.drop_left]

theorem midRegion_join (s : DraftSection) :
    joinNL (([] : Str) :: str "```yaml" ::
        (dumpMetaLines s ++ ([str "```", []] ++ (linesOf (stripWS s.body) ++ [([] : Str)])))) =
      '\n' :: '`' :: (str "``yaml\n" ++ metaText s ++
        (str "\n```\n\n" ++ (stripWS s.body ++ ['\n']))) := by
  rw [joinNL_cons _ _ (by simp), joinNL_cons _ _ (by simp)]
  rw [joinNL_append (dumpMetaLines s) _ (dumpMetaLines_ne_nil s) (by simp)]
  rw [joinNL_append ([str "```", []]) _ (by simp) (by simp)]
  rw [joinNL_append (linesOf (stripWS s.body)) ([([] : Str)]) (linesOf_ne_nil _) (by simp)]
  rw [joinNL_cons (str "```") ([([] : Str)]) (by simp)]
  rw [joinNL_single, joinNL_linesOf]
  unfold metaText
  rw [show str "```yaml" = '`' :: '`' :: '`' :: 'y' :: 'a' :: 'm' :: 'l' :: [] from rfl,
    show str "``yaml\n" = '`' :: '`' :: 'y' :: 'a' :: 'm' :: 'l' :: '\n' :: [] from rfl,
    show str "```" = '`' :: '`' :: '`' :: [] from rfl,
    show str "\n```\n\n" = '\n' :: '`' :: '`' :: '`' :: '\n' :: '\n' :: [] from rfl]
  simp

theorem lastRegion_join_empty (s : DraftSection) :
    joinNL (([] : Str) :: str "```yaml" :: (dumpMetaLines s ++ [str "```"])) =
      '\n' :: '`' :: (str "``yaml\n" ++ metaText s ++ str "\n```") := by
  rw [joinNL_cons _ _ (by simp), joinNL_cons _ _ (by simp)]
  rw [joinNL_append (dumpMetaLines s) _ (dumpMetaLines_ne_nil s) (by simp)]
  rw [joinNL_single]
  unfold metaText
  rw [show str "```yaml" = '`' :: '`' :: '`' :: 'y' :: 'a' :: 'm' :: 'l' :: [] from rfl,
    show str "``yaml\n" = '`' :: '`' :: 'y' :: 'a' :: 'm' :: 'l' :: '\n' :: [] from rfl,
    show str "```" = '`' :: '`' :: '`' :: [] from rfl,
    show str "\n```" = '\n' :: '`' :: '`' :: '`' :: [] from rfl]
  simp

theorem lastRegion_join_body (s : DraftSection) :
    joinNL (([] : Str) :: str "```yaml" ::
        (dumpMetaLines s ++ ([str "```", []] ++ linesOf (stripWS s.body)))) =
      '\n' :: '`' :: (str "``yaml\n" ++ metaText s ++
        (str "\n```\n\n" ++ stripWS s.body)) := by
  rw [joinNL_cons _ _ (by simp), joinNL_cons _ _ (by simp)]
  rw [joinNL_append (dumpMetaLines s) _ (dumpMetaLines_ne_nil s) (by simp)]
  rw [joinNL_append ([str "```", []]) _ (by simp) (linesOf_ne_nil _)]
  rw [joinNL_cons (str "```") ([([] : Str)]) (by simp)]
  rw [joinNL_single, joinNL_linesOf]
  unfold metaText
  rw [show str "```yaml" = '`' :: '`' :: '`' :: 'y' :: 'a' :: 'm' :: 'l' :: [] from rfl,
    show str "``yaml\n" = '`' :: '`' :: 'y' :: 'a' :: 'm' :: 'l' :: '\n' :: [] from rfl,
    show str "```" = '`' :: '`' :: '`' :: [] from rfl,
    show str "\n```\n\n" = '\n' :: '`' :: '`' :: '`' :: '\n' :: '\n' :: [] from rfl]
  simp

theorem get?_of_drop_cons (text : Str) (n : Nat) (c : Char) (t : Str)
    (h : text.drop n = c :: t) : text.get? n = some c := by
  rw [List.get?_eq_getElem?, show n = n + 0 from by omega, ← List.getElem?_drop, h]
  simp

theorem scan_section_step (text : Str) (base : Nat) (s : DraftSection) (L : List Str)
    (SUF T : Str)
    (hid : idOk s.id = true) (htitle : titleOk s.title = true)
    (hdrop : text.drop base = str "## [ID:" ++ s.id ++ str "] " ++ s.title ++ '\n' :: '`' :: T)
    (hT : '\n' :: '`' :: T = joinNL L ++ '\n' :: SUF)
    (hsafeL : ∀ l ∈ L, lineSafe l = true ∧ '\n' ∉ l)
    (hanchor : base = 0 ∨ text.get? (base - 1) = some '\n') :
    draftHeaderScanAux text (text.length + 1) base =
      (base, s.id, s.title) ::
        draftHeaderScanAux text (text.length + 1)
          (base + 9 + s.id.length + s.title.length + (joinNL L).length + 1) ∧
      text.drop (base + 9 + s.id.length + s.title.length + (joinNL L).length + 1) = SUF ∧
      base + 9 + s.id.length + s.title.length + (joinNL L).length + 1 + SUF.length =
        text.length ∧
      text.get? (base + 9 + s.id.length + s.title.length + (joinNL L).length) = some '\n' := by
  have hlenA := congrArg List.length hdrop
  rw [List.length_drop] at hlenA
  simp only [List.length_append, List.length_cons,
    show (str "## [ID:").length = 7 from rfl, show (str "] ").length = 2 from rfl] at hlenA
  have hTlen := congrArg List.length hT
  simp only [List.length_append, List.length_cons] at hTlen
  have hbase_le : base ≤ text.length := by omega
  have hlen : text.length =
      base + 9 + s.id.length + s.title.length + (joinNL L).length + 1 + SUF.length := by
    omega
  have hm := draftHeaderMatchAt_header text base s.id s.title '`' T hdrop hid htitle (by decide)
  have hstep := scan_step_match text base (base + 9 + s.id.length + s.title.length)
    s.id s.title hbase_le hanchor hm (by omega)
  have hP := drop_after_prefix text base
    (str "## [ID:" ++ s.id ++ str "] " ++ s.title) ('\n' :: '`' :: T) hdrop
  have hPlen : (str "## [ID:" ++ s.id ++ str "] " ++ s.title).length =
      9 + s.id.length + s.title.length := by
    simp only [List.length_append, show (str "## [ID:").length = 7 from rfl,
      show (str "] ").length = 2 from rfl]
    omega
  rw [hPlen] at hP
  have hregion : text.drop (base + (9 + s.id.length + s.title.length)) =
      joinNL L ++ '\n' :: SUF := by rw [hP, hT]
  have hdropNL : text.drop (base + (9 + s.id.length + s.title.length) + (joinNL L).length) =
      '\n' :: SUF := drop_after_prefix text _ (joinNL L) ('\n' :: SUF) hregion
  have hdropSUF : text.drop (base + 9 + s.id.length + s.title.length + (joinNL L).length + 1) =
      SUF := by
    rw [show base + 9 + s.id.length + s.title.length + (joinNL L).length + 1 =
      base + (9 + s.id.length + s.title.length) + (joinNL L).length + 1 from by omega,
      drop_add, hdropNL]
    rfl
  have hget : text.get? (base + 9 + s.id.length + s.title.length + (joinNL L).length) =
      some '\n' := by
    rw [show base + 9 + s.id.length + s.title.length + (joinNL L).length =
      base + (9 + s.id.length + s.title.length) + (joinNL L).length from by omega]
    exact get?_of_drop_cons text _ '\n' SUF hdropNL
  refine ⟨?_, hdropSUF, by omega, hget⟩
  rw [hstep]
  congr 1
  have hskip := scan_skip_range text ((joinNL L).length + 1)
    (base + 9 + s.id.length + s.title.length) (by omega) ?_
  · rw [show base + 9 + s.id.length + s.title.length + ((joinNL L).length + 1) =
      base + 9 + s.id.length + s.title.length + (joinNL L).length + 1 from by omega] at hskip
    exact hskip
  · intro r hr1 hr2 hanchor'
    refine anchors_safe_mid text L (base + (9 + s.id.length + s.title.length)) SUF hregion
      hsafeL r (by omega) (by omega) hanchor'

theorem secTextMid_shape (s : DraftSection) (SUF : Str) :
    secTextMid s ++ SUF = str "## [ID:" ++ s.id ++ str "] " ++ s.title ++
      '\n' :: '`' :: (str "``yaml\n" ++ metaText s ++
        (str "\n```\n\n" ++ (stripWS s.body ++ ('\n' :: '\n' :: SUF)))) := by
  unfold secTextMid secHeader
  rw [show str "\n```yaml\n" = '\n' :: '`' :: str "``yaml\n" from rfl,
    show str "\n\n" = ['\n', '\n'] from rfl]
  simp

theorem midRegion_drop (s : DraftSection) (SUF : Str) :
    '\n' :: '`' :: (str "``yaml\n" ++ metaText s ++
        (str "\n```\n\n" ++ (stripWS s.body ++ ('\n' :: '\n' :: SUF)))) =
      joinNL (([] : Str) :: str "```yaml" :: (dumpMetaLines s ++
        ([str "```", []] ++ (linesOf (stripWS s.body) ++ [([] : Str)])))) ++ '\n' :: SUF := by
  rw [midRegion_join]
  simp

theorem secTextLast_shape_empty (s : DraftSection) (hB : stripWS s.body = []) :
    secTextLast s = str "## [ID:" ++ s.id ++ str "] " ++ s.title ++
      '\n' :: '`' :: (str "``yaml\n" ++ metaText s ++ (str "\n```" ++ ['\n'])) := by
  unfold secTextLast secHeader
  rw [if_pos hB, show str "\n```yaml\n" = '\n' :: '`' :: str "``yaml\n" from rfl,
    show str "\n" = ['\n'] from rfl]
  simp

theorem lastRegion_drop_empty (s : DraftSection) :
    '\n' :: '`' :: (str "``yaml\n" ++ metaText s ++ (str "\n```" ++ ['\n'])) =
      joinNL (([] : Str) :: str "```yaml" :: (dumpMetaLines s ++ [str "```"])) ++
        '\n' :: [] := by
  rw [lastRegion_join_empty]
  simp

theorem secTextLast_shape_body (s : DraftSection) (hB : stripWS s.body ≠ []) :
    secTextLast s = str "## [ID:" ++ s.id ++ str "] " ++ s.title ++
      '\n' :: '`' :: (str "``yaml\n" ++ metaText s ++
        (str "\n```\n\n" ++ (stripWS s.body ++ ['\n']))) := by
  unfold secTextLast secHeader
  rw [if_neg hB, show str "\n```yaml\n" = '\n' :: '`' :: str "``yaml\n" from rfl,
    show str "\n\n" = ['\n', '\n'] from rfl, show str "\n" = ['\n'] from rfl,
    show str "\n```\n\n" = str "\n```" ++ ['\n', '\n'] from rfl]
  simp

theorem lastRegion_drop_body (s : DraftSection) :
    '\n' :: '`' :: (str "``yaml\n" ++ metaText s ++
        (str "\n```\n\n" ++ (stripWS s.body ++ ['\n']))) =
      joinNL (([] : Str) :: str "```yaml" :: (dumpMetaLines s ++
        ([str "```", []] ++ linesOf (stripWS s.body)))) ++ '\n' :: [] := by
  rw [lastRegion_join_body]
  simp

theorem secLines_safe_mid (s : DraftSection) (h : sectionSerializable s = true) :
    ∀ l ∈ (([] : Str) :: str "```yaml" :: (dumpMetaLines s ++
      ([str "```", []] ++ (linesOf (stripWS s.body) ++ [([] : Str)])))),
      lineSafe l = true ∧ '\n' ∉ l := by
  obtain ⟨_, _, hbody, hcb, hat, hev, hmi⟩ := sectionSerializable_parts s h
  intro l hl
  rcases List.mem_cons.mp hl with rfl | hl
  · exact ⟨by decide, by decide⟩
  rcases List.mem_cons.mp hl with rfl | hl
  · exact ⟨by decide, by decide⟩
  rcases List.mem_append.mp hl with hml | hl
  · exact dumpMetaLines_safe s hcb hat hev
      (fun m hm => ⟨(hmi m hm).1, (hmi m hm).2.1, (hmi m hm).2.2.1⟩) l hml
  rcases List.mem_append.mp hl with hcl | hl
  · rcases List.mem_cons.mp hcl with rfl | hcl
    · exact ⟨by decide, by decide⟩
    · rw [List.mem_singleton] at hcl
      subst hcl
      exact ⟨by decide, by decide⟩
  rcases List.mem_append.mp hl with hbl | hl
  · refine ⟨?_, linesOf_no_newline _ l hbl⟩
    unfold bodyOk at hbody
    rw [List.all_eq_true] at hbody
    exact hbody l hbl
  · rw [List.mem_singleton] at hl
    subst hl
    exact ⟨by decide, by decide⟩

theorem secLines_safe_last_empty (s : DraftSection) (h : sectionSerializable s = true) :
    ∀ l ∈ (([] : Str) :: str "```yaml" :: (dumpMetaLines s ++ [str "```"])),
      lineSafe l = true ∧ '\n' ∉ l := by
  obtain ⟨_, _, _, hcb, hat, hev, hmi⟩ := sectionSerializable_parts s h
  intro l hl
  rcases List.mem_cons.mp hl with rfl | hl
  · exact ⟨by decide, by decide⟩
  rcases List.mem_cons.mp hl with rfl | hl
  · exact ⟨by decide, by decide⟩
  rcases List.mem_append.mp hl with hml | hl
  · exact dumpMetaLines_safe s hcb hat hev
      (fun m hm => ⟨(hmi m hm).1, (hmi m hm).2.1, (hmi m hm).2.2.1⟩) l hml
  · rw [List.mem_singleton] at hl
    subst hl
    exact ⟨by decide, by decide⟩

theorem secLines_safe_last_body (s : DraftSection) (h : sectionSerializable s = true) :
    ∀ l ∈ (([] : Str) :: str "```yaml" :: (dumpMetaLines s ++
      ([str "```", []] ++ linesOf (stripWS s.body)))),
      lineSafe l = true ∧ '\n' ∉ l := by
  obtain ⟨_, _, hbody, hcb, hat, hev, hmi⟩ := sectionSerializable_parts s h
  intro l hl
  rcases List.mem_cons.mp hl with rfl | hl
  · exact ⟨by decide, by decide⟩
  rcases List.mem_cons.mp hl with rfl | hl
  · exact ⟨by decide, by decide⟩
  rcases List.mem_append.mp hl with hml | hl
  · exact dumpMetaLines_safe s hcb hat hev
      (fun m hm => ⟨(hmi m hm).1, (hmi m hm).2.1, (hmi m hm).2.2.1⟩) l hml
  rcases List.mem_append.mp hl with hcl | hbl
  · rcases List.mem_cons.mp hcl with rfl | hcl
    · exact ⟨by decide, by decide⟩
    · rw [List.mem_singleton] at hcl
      subst hcl
      exact ⟨by decide, by decide⟩
  · refine ⟨?_, linesOf_no_newline _ l hbl⟩
    unfold bodyOk at hbody
    rw [List.all_eq_true] at hbody
    exact hbody l hbl

theorem scanAux_secsText (text : Str) :
    ∀ (ss : List DraftSection) (base : Nat),
    (∀ s ∈ ss, sectionSerializable s = true) →
    text.drop base = secsText ss →
    base + (secsText ss).length = text.length →
    (base = 0 ∨ text.get? (base - 1) = some '\n') →
    draftHeaderScanAux text (text.length + 1) base = secPositions base ss := by
  intro ss
  induction ss with
  | nil =>
    intro base _ hdrop hlen hanchor
    rw [show secsText [] = [] from rfl] at hdrop hlen
    simp only [List.length_nil] at hlen
    rw [scan_step_none text base (by omega) (fun _ =>
      draftHeaderMatchAt_safe text base [] [] (by simpa using hdrop) (.inl rfl) (by decide))]
    rw [draftHeaderScanAux_gt text (base + 1) (by omega)]
    rfl
  | cons s rest ih =>
    intro base hser hdrop hlen hanchor
    obtain ⟨hid, htitle, hbody, hcb, hat, hev, hmi⟩ :=
      sectionSerializable_parts s (hser s (List.mem_cons_self s rest))
    cases rest with
    | nil =>
      rw [show secsText [s] = secTextLast s from rfl] at hdrop hlen
      by_cases hB : stripWS s.body = []
      · rw [secTextLast_shape_empty s hB] at hdrop
        have hstep := scan_section_step text base s
          (([] : Str) :: str "```yaml" :: (dumpMetaLines s ++ [str "```"])) []
          (str "``yaml\n" ++ metaText s ++ (str "\n```" ++ ['\n']))
          hid htitle hdrop (lastRegion_drop_empty s)
          (secLines_safe_last_empty s (hser s (List.mem_cons_self s [])))
          hanchor
        simp only [secPositions]
        rw [hstep.1]
        congr 1
        have hp' := hstep.2.2.1
        simp only [List.length_nil] at hp'
        rw [scan_step_none text _ (by omega) (fun _ =>
          draftHeaderMatchAt_safe text _ [] [] (by simpa using hstep.2.1) (.inl rfl)
            (by decide))]
        rw [draftHeaderScanAux_gt text _ (by omega)]
      · rw [secTextLast_shape_body s hB] at hdrop
        have hstep := scan_section_step text base s
          (([] : Str) :: str "```yaml" :: (dumpMetaLines s ++
            ([str "```", []] ++ linesOf (stripWS s.body)))) []
          (str "``yaml\n" ++ metaText s ++ (str "\n```\n\n" ++ (stripWS s.body ++ ['\n'])))
          hid htitle hdrop (lastRegion_drop_body s)
          (secLines_safe_last_body s (hser s (List.mem_cons_self s [])))
          hanchor
        simp only [secPositions]
        rw [hstep.1]
        congr 1
        have hp' := hstep.2.2.1
        simp only [List.length_nil] at hp'
        rw [scan_step_none text _ (by omega) (fun _ =>
          draftHeaderMatchAt_safe text _ [] [] (by simpa using hstep.2.1) (.inl rfl)
            (by decide))]
        rw [draftHeaderScanAux_gt text _ (by omega)]
    | cons s2 rest2 =>
      rw [show secsText (s :: s2 :: rest2) = secTextMid s ++ secsText (s2 :: rest2) from rfl]
        at hdrop hlen
      rw [secTextMid_shape s (secsText (s2 :: rest2))] at hdrop
      have hstep := scan_section_step text base s
        (([] : Str) :: str "```yaml" :: (dumpMetaLines s ++
          ([str "```", []] ++ (linesOf (stripWS s.body) ++ [([] : Str)]))))
        (secsText (s2 :: rest2))
        (str "``yaml\n" ++ metaText s ++
          (str "\n```\n\n" ++ (stripWS s.body ++
            ('\n' :: '\n' :: secsText (s2 :: rest2)))))
        hid htitle hdrop (midRegion_drop s (secsText (s2 :: rest2)))
        (secLines_safe_mid s (hser s (List.mem_cons_self s (s2 :: rest2))))
        hanchor
      have hlen1 := congrArg List.length (secTextMid_shape s [])
      have hlen2 := congrArg List.length (midRegion_drop s [])
      simp only [List.length_append, List.length_cons, List.length_nil,
        show (str "## [ID:").length = 7 from rfl, show (str "] ").length = 2 from rfl,
        show (str "``yaml\n").length = 7 from rfl,
        show (str "\n```\n\n").length = 6 from rfl,
        show (str "```yaml").length = 7 from rfl,
        show (str "```").length = 3 from rfl] at hlen1 hlen2
      have hmidlen : (secTextMid s).length =
          9 + s.id.length + s.title.length +
            (joinNL (([] : Str) :: str "```yaml" :: (dumpMetaLines s ++
              ([str "```", []] ++ (linesOf (stripWS s.body) ++ [([] : Str)]))))).length + 1 := by
        omega
      simp only [secPositions]
      rw [hstep.1]
      congr 1
      rw [show base + (secTextMid s).length =
        base + 9 + s.id.length + s.title.length +
          (joinNL (([] : Str) :: str "```yaml" :: (dumpMetaLines s ++
            ([str "```", []] ++ (linesOf (stripWS s.body) ++ [([] : Str)]))))).length + 1
        from by omega]
      refine ih _ (fun x hx => hser x (List.mem_cons_of_mem s hx)) hstep.2.1 hstep.2.2.1
        (.inr ?_)
      rw [show base + 9 + s.id.length + s.title.length +
        (joinNL (([] : Str) :: str "```yaml" :: (dumpMetaLines s ++
          ([str "```", []] ++ (linesOf (stripWS s.body) ++ [([] : Str)]))))).length + 1 - 1 =
        base + 9 + s.id.length + s.title.length +
        (joinNL (([] : Str) :: str "```yaml" :: (dumpMetaLines s ++
          ([str "```", []] ++ (linesOf (stripWS s.body) ++ [([] : Str)]))))).length
        from by omega]
      exact hstep.2.2.2

theorem rstripWS_append_keep (A B : Str) (hB : B ≠ [])
    (h : ∀ c, B.getLast? = some c → pySpace c = false) :
    rstripWS (A ++ B) = A ++ B := by
  apply rstripWS_of_last
  intro c hc
  rw [List.getLast?_append] at hc
  cases hB' : B.getLast? with
  | none => exact absurd (List.getLast?_eq_none_iff.mp hB') hB
  | some y =>
    rw [hB'] at hc
    simp only [Option.or_some] at hc
    injection hc with hc'
    subst hc'
    exact h _ hB'

theorem rstripWS_ne_nil_of_mem (y : Str) (c : Char) (hc : c ∈ y) (hws : pySpace c = false) :
    rstripWS y ≠ [] := by
  unfold rstripWS
  simp only [ne_eq, List.reverse_eq_nil_iff]
  intro hdw
  rw [List.dropWhile_eq_nil_iff] at hdw
  have hxx := hdw c (by simpa using hc)
  rw [hws] at hxx
  exact Bool.noConfusion hxx

theorem rstripWS_append_left (A B : Str) (h : rstripWS B ≠ []) :
    rstripWS (A ++ B) = A ++ rstripWS B := by
  unfold rstripWS at h ⊢
  rw [List.reverse_append, List.dropWhile_append, if_neg ?_]
  · rw [List.reverse_append, List.reverse_reverse]
  · simp only [List.isEmpty_iff]
    intro hc
    exact h (by rw [hc]; rfl)

theorem joinNL_block7 (s : DraftSection) :
    joinNL [str "## [ID:" ++ s.id ++ str "] " ++ s.title, str "```yaml",
      joinNL (dumpMetaLines s), str "```", [], stripWS s.body, ([] : Str)] ++ ['\n'] =
      secTextMid s := by
  rw [joinNL_cons _ _ (by simp), joinNL_cons _ _ (by simp), joinNL_cons _ _ (by simp),
    joinNL_cons _ _ (by simp), joinNL_cons _ _ (by simp), joinNL_cons _ _ (by simp),
    joinNL_single]
  unfold secTextMid secHeader metaText
  rw [show str "\n```yaml\n" = '\n' :: (str "```yaml" ++ ['\n']) from rfl,
    show str "\n```\n\n" = '\n' :: (str "```" ++ ['\n', '\n']) from rfl,
    show str "\n\n" = ['\n', '\n'] from rfl]
  simp

theorem tail3_group (H M : Str) :
    H ++ '\n' :: (str "```yaml" ++ '\n' :: (M ++ '\n' :: (str "```" ++ '\n' ::
        (([] : Str) ++ '\n' :: (([] : Str) ++ '\n' :: ([] : Str)))))) =
    ((H ++ ('\n' :: (str "```yaml" ++ ('\n' :: M)))) ++ ('\n' :: str "```")) ++
      ['\n', '\n', '\n'] := by
  simp

theorem tail3_group_body (H M B : Str) :
    H ++ '\n' :: (str "```yaml" ++ '\n' :: (M ++ '\n' :: (str "```" ++ '\n' ::
        (([] : Str) ++ '\n' :: (B ++ '\n' :: ([] : Str)))))) =
    ((H ++ ('\n' :: (str "```yaml" ++ ('\n' :: (M ++ str "\n```\n\n"))))) ++ B) ++
      ['\n'] := by
  rw [show str "\n```\n\n" = '\n' :: (str "```" ++ ['\n', '\n']) from rfl]
  simp

theorem rstrip_block7_last (s : DraftSection) :
    rstripWS (joinNL [str "## [ID:" ++ s.id ++ str "] " ++ s.title, str "```yaml",
      joinNL (dumpMetaLines s), str "```", [], stripWS s.body, ([] : Str)]) ++ ['\n'] =
      secTextLast s := by
  rw [joinNL_cons _ _ (by simp), joinNL_cons _ _ (by simp), joinNL_cons _ _ (by simp),
    joinNL_cons _ _ (by simp), joinNL_cons _ _ (by simp), joinNL_cons _ _ (by simp),
    joinNL_single]
  by_cases hB : stripWS s.body = []
  · rw [hB, tail3_group]
    rw [rstripWS_append_ws _ ['\n', '\n', '\n'] (by decide)]
    rw [rstripWS_append_keep _ ('\n' :: str "```") (by simp) (by decide)]
    unfold secTextLast secHeader metaText
    rw [if_pos hB, show str "\n```yaml\n" = '\n' :: (str "```yaml" ++ ['\n']) from rfl,
      show str "\n```" = '\n' :: str "```" from rfl, show str "\n" = ['\n'] from rfl]
    simp
  · rw [tail3_group_body]
    rw [rstripWS_append_ws _ ['\n'] (by decide)]
    rw [rstripWS_append_keep _ (stripWS s.body) hB (fun c hc =>
      rstripWS_last_not_ws (lstripWS s.body) c
        (by rw [show rstripWS (lstripWS s.body) = stripWS s.body from rfl]; exact hc))]
    unfold secTextLast secHeader metaText
    rw [if_neg hB, show str "\n```yaml\n" = '\n' :: (str "```yaml" ++ ['\n']) from rfl,
      show str "\n\n" = ['\n', '\n'] from rfl, show str "\n" = ['\n'] from rfl,
      show str "\n```\n\n" = '\n' :: (str "```" ++ ['\n', '\n']) from rfl,
      show str "\n```" = '\n' :: str "```" from rfl]
    simp

theorem hash_mem_joinNL_flatMap (ss : List DraftSection) (hne : ss ≠ []) :
    '#' ∈ joinNL (ss.flatMap fun s =>
      [str "## [ID:" ++ s.id ++ str "] " ++ s.title, str "```yaml",
       joinNL (dumpMetaLines s), str "```", [], stripWS s.body, ([] : Str)]) := by
  cases ss with
  | nil => exact absurd rfl hne
  | cons s rest =>
    rw [List.flatMap_cons, List.cons_append, joinNL_cons _ _ (by simp)]
    refine List.mem_append.mpr (.inl ?_)
    refine List.mem_append.mpr (.inl ?_)
    refine List.mem_append.mpr (.inl ?_)
    exact List.mem_append.mpr (.inl (by decide))

theorem serialize_secsText (d : DraftDocument) (hne : d.sections ≠ []) :
    serializeDraftMarkdown d = secsText d.sections := by
  have key : ∀ (ss : List DraftSection), ss ≠ [] →
      rstripWS (joinNL (ss.flatMap fun s =>
        [str "## [ID:" ++ s.id ++ str "] " ++ s.title, str "```yaml",
         joinNL (dumpMetaLines s), str "```", [], stripWS s.body, ([] : Str)])) ++ ['\n'] =
      secsText ss := by
    intro ss
    induction ss with
    | nil => intro h; exact absurd rfl h
    | cons s rest ih =>
      intro _
      cases rest with
      | nil =>
        rw [List.flatMap_cons, List.flatMap_nil, List.append_nil]
        rw [show secsText [s] = secTextLast s from rfl]
        exact rstrip_block7_last s
      | cons s2 rest2 =>
        rw [List.flatMap_cons]
        rw [joinNL_append _ _ (by simp) (by simp)]
        have hXne : rstripWS (joinNL ((s2 :: rest2).flatMap fun s =>
            [str "## [ID:" ++ s.id ++ str "] " ++ s.title, str "```yaml",
             joinNL (dumpMetaLines s), str "```", [], stripWS s.body, ([] : Str)])) ≠ [] :=
          rstripWS_ne_nil_of_mem _ '#' (hash_mem_joinNL_flatMap (s2 :: rest2) (by simp))
            (by decide)
        rw [rstripWS_append_left _ _ (by
          refine rstripWS_ne_nil_of_mem _ '#' ?_ (by decide)
          exact List.mem_cons_of_mem _ (hash_mem_joinNL_flatMap (s2 :: rest2) (by simp)))]
        rw [show ('\n' :: joinNL ((s2 :: rest2).flatMap fun s =>
            [str "## [ID:" ++ s.id ++ str "] " ++ s.title, str "```yaml",
             joinNL (dumpMetaLines s), str "```", [], stripWS s.body, ([] : Str)])) =
          ['\n'] ++ joinNL ((s2 :: rest2).flatMap fun s =>
            [str "## [ID:" ++ s.id ++ str "] " ++ s.title, str "```yaml",
             joinNL (dumpMetaLines s), str "```", [], stripWS s.body, ([] : Str)]) from rfl]
        rw [rstripWS_append_left ['\n'] _ hXne]
        rw [show secsText (s :: s2 :: rest2) = secTextMid s ++ secsText (s2 :: rest2) from rfl,
          ← joinNL_block7 s, ← ih (by simp)]
        simp
  have hgoal := key d.sections hne
  unfold serializeDraftMarkdown
  exact hgoal

theorem alpha_not_ws (c : Char) (h : c.isAlpha = true) : pySpace c = false := by
  unfold pySpace
  simp only [Bool.or_eq_false_iff, decide_eq_false_iff_not]
  refine ⟨⟨⟨⟨⟨?_, ?_⟩, ?_⟩, ?_⟩, ?_⟩, ?_⟩ <;>
    (intro hc; subst hc; exact absurd h (by decide))

theorem plainScalar_parts (v : Str) (h : plainScalar v = true) :
    v ≠ [] ∧ (∀ c, v.head? = some c → pySpace c = false) ∧
    (∀ c, v.getLast? = some c → pySpace c = false) ∧ (':' ∉ v) ∧ ('`' ∉ v) := by
  unfold plainScalar at h
  simp only [Bool.and_eq_true, Bool.not_eq_true', List.all_eq_true] at h
  obtain ⟨⟨⟨⟨⟨h1, h2⟩, h3⟩, h4⟩, h5⟩, h6⟩ := h
  have hne : v ≠ [] := by
    intro hnil
    subst hnil
    simp at h1
  refine ⟨hne, ?_, ?_, ?_, ?_⟩
  · intro c hc
    cases v with
    | nil => exact absurd hc (by simp)
    | cons x t =>
      rw [List.head?_cons] at hc
      injection hc with hc'
      subst hc'
      exact alpha_not_ws _ (by simpa using h3 _ (by simp))
  · intro c hc
    have hmem : c ∈ v := List.mem_of_getLast?_eq_some hc
    have hall := h5 c hmem
    simp only [Bool.or_eq_true, decide_eq_true_eq] at hall
    rcases hall with (ha | hd) | hs
    · exact alpha_not_ws c ha
    · unfold pySpace
      simp only [Bool.or_eq_false_iff, decide_eq_false_iff_not]
      refine ⟨⟨⟨⟨⟨?_, ?_⟩, ?_⟩, ?_⟩, ?_⟩, ?_⟩ <;>
        (intro hcx; subst hcx; exact absurd hd (by decide))
    · simp only [List.mem_cons, List.mem_singleton, List.not_mem_nil, or_false] at hs
      rcases hs with rfl | rfl | rfl | rfl | rfl | rfl
      · rw [decide_eq_true_eq] at h4
        exact absurd hc h4
      all_goals decide
  · intro hmem
    have hall := h5 ':' hmem
    exact absurd hall (by decide)
  · intro hmem
    have hall := h5 '`' hmem
    exact absurd hall (by decide)

theorem parseScalarFlow_plain (v : Str) (h : plainScalar v = true) :
    parseScalarFlow v = .s v := by
  unfold parseScalarFlow
  rw [if_neg (by rintro rfl; exact absurd h (by decide)),
    if_neg (by rintro rfl; exact absurd h (by decide))]
  rw [if_neg ?hnull, if_neg ?htrue, if_neg ?hfalse]
  case hnull =>
    intro hmem
    simp only [List.mem_cons, List.mem_singleton, List.not_mem_nil, or_false] at hmem
    rcases hmem with rfl | rfl | rfl | rfl <;> exact absurd h (by decide)
  case htrue =>
    intro hmem
    simp only [List.mem_cons, List.mem_singleton, List.not_mem_nil, or_false] at hmem
    rcases hmem with rfl | rfl | rfl | rfl | rfl | rfl | rfl | rfl | rfl <;>
      exact absurd h (by decide)
  case hfalse =>
    intro hmem
    simp only [List.mem_cons, List.mem_singleton, List.not_mem_nil, or_false] at hmem
    rcases hmem with rfl | rfl | rfl | rfl | rfl | rfl | rfl | rfl | rfl <;>
      exact absurd h (by decide)

theorem stripWS_plain_space (v : Str) (h : plainScalar v = true) :
    stripWS (' ' :: v) = v := by
  obtain ⟨hne, hh, hl, _, _⟩ := plainScalar_parts v h
  unfold stripWS
  rw [show lstripWS (' ' :: v) = lstripWS v from by
    unfold lstripWS
    rw [List.dropWhile_cons, if_pos (by decide)]]
  rw [lstripWS_of_head v hh]
  exact rstripWS_of_last v hl

theorem stripWS_plain (v : Str) (h : plainScalar v = true) : stripWS v = v := by
  obtain ⟨hne, hh, hl, _, _⟩ := plainScalar_parts v h
  unfold stripWS
  rw [lstripWS_of_head v hh]
  exact rstripWS_of_last v hl

theorem splitAtColon_cons_ne (c : Char) (r : Str) (hc : c ≠ ':') :
    splitAtColon (c :: r) = (splitAtColon r).map (fun p => (c :: p.1, p.2)) := by
  conv_lhs => rw [splitAtColon.eq_def]
  split
  · rename_i heq
    exact absurd heq (by simp)
  · rename_i r' heq
    injection heq with h1 h2
    exact absurd h1 hc
  · rename_i c' r' heq
    injection heq with h1 h2
    subst h1
    subst h2
    rfl

theorem splitAtColon_colon_space (V : Str) :
    splitAtColon (':' :: ' ' :: V) = some ([], ' ' :: V) := by
  conv_lhs => rw [splitAtColon.eq_def]
  simp

theorem splitAtColon_colon_nil : splitAtColon [':'] = some ([], []) := by decide

theorem splitAtColon_append (K V : Str) (hK : ':' ∉ K) :
    splitAtColon (K ++ ':' :: ' ' :: V) = some (K, ' ' :: V) := by
  induction K with
  | nil =>
    rw [List.nil_append]
    exact splitAtColon_colon_space V
  | cons c t ih =>
    rw [List.cons_append, splitAtColon_cons_ne c _ (fun hc => hK (by rw [hc]; simp)),
      ih (fun hmem => hK (List.mem_cons_of_mem c hmem))]
    rfl

theorem splitAtColon_append_nil (K : Str) (hK : ':' ∉ K) :
    splitAtColon (K ++ [':']) = some (K, []) := by
  induction K with
  | nil =>
    rw [List.nil_append]
    exact splitAtColon_colon_nil
  | cons c t ih =>
    rw [List.cons_append, splitAtColon_cons_ne c _ (fun hc => hK (by rw [hc]; simp)),
      ih (fun hmem => hK (List.mem_cons_of_mem c hmem))]
    rfl

theorem head_lit_not_ws (p0 : Char) (P : Str) (h : P.head? = some p0)
    (hp : pySpace p0 = false) : ∀ c, P.head? = some c → pySpace c = false := by
  intro c hc
  rw [h] at hc
  injection hc with h2
  subst h2
  exact hp

theorem takeWhile_all_eq' {α : Type} (p : α → Bool) (A : List α)
    (h : ∀ c ∈ A, p c = true) : A.takeWhile p = A := by
  induction A with
  | nil => rfl
  | cons x t ih =>
    rw [List.takeWhile_cons, if_pos (h x (List.mem_cons_self x t)),
      ih (fun c hc => h c (List.mem_cons_of_mem x hc))]

theorem takeWhile_append_not' {α : Type} (p : α → Bool) (A : List α) (b : α) (B : List α)
    (hA : ∀ c ∈ A, p c = true) (hb : p b = false) :
    (A ++ b :: B).takeWhile p = A := by
  induction A with
  | nil => simp [List.takeWhile_cons, hb]
  | cons x t ih =>
    rw [List.cons_append, List.takeWhile_cons, if_pos (hA x (List.mem_cons_self x t)),
      ih (fun c hc => hA c (List.mem_cons_of_mem x hc))]

theorem pairsAux_value_line (K V : Str) (W : YVal) (rest : List Str) (fuel : Nat)
    (hK : ':' ∉ K) (hKne : K ≠ [])
    (hKhead : ∀ c, K.head? = some c → pySpace c = false)
    (hstrip : stripWS (' ' :: V) = V) (hVne : V ≠ [])
    (hflow : parseScalarFlow V = W) :
    yamlPairsAux (fuel + 1) ((K ++ ':' :: ' ' :: V) :: rest) =
      (yamlPairsAux fuel rest).map (fun tl => (K, W) :: tl) := by
  obtain ⟨k0, kt, rfl⟩ : ∃ k0 kt, K = k0 :: kt := by
    cases K with
    | nil => exact absurd rfl hKne
    | cons a b => exact ⟨a, b, rfl⟩
  have hk0 : pySpace k0 = false := hKhead k0 rfl
  simp only [yamlPairsAux]
  rw [if_pos (by
    rw [show ((k0 :: kt) ++ ':' :: ' ' :: V).take 1 = [k0] from rfl]
    simp [hk0])]
  rw [splitAtColon_append _ _ hK]
  dsimp only
  rw [if_neg (by simp)]
  rw [hstrip]
  rw [if_pos hVne, hflow]

theorem pairsAux_block_line (K : Str) (block rest : List Str) (fuel : Nat)
    (hK : ':' ∉ K) (hKne : K ≠ [])
    (hKhead : ∀ c, K.head? = some c → pySpace c = false)
    (hblock : ∀ x ∈ block,
      ((str "- ").isPrefixOf x = true ∨ (str "  ").isPrefixOf x = true ∨ x = str "-"))
    (hblockne : block ≠ [])
    (hstop : ∀ r rr, rest = r :: rr →
      ¬((str "- ").isPrefixOf r = true ∨ (str "  ").isPrefixOf r = true ∨ r = str "-")) :
    yamlPairsAux (fuel + 1) ((K ++ [':']) :: (block ++ rest)) =
      match yamlItemsAux fuel block with
      | none => none
      | some items => (yamlPairsAux fuel rest).map (fun tl => (K, YVal.list items) :: tl) := by
  obtain ⟨k0, kt, rfl⟩ : ∃ k0 kt, K = k0 :: kt := by
    cases K with
    | nil => exact absurd rfl hKne
    | cons a b => exact ⟨a, b, rfl⟩
  have hk0 : pySpace k0 = false := hKhead k0 rfl
  simp only [yamlPairsAux]
  rw [if_pos (by
    rw [show ((k0 :: kt) ++ [':']).take 1 = [k0] from rfl]
    simp [hk0])]
  rw [splitAtColon_append_nil _ hK]
  dsimp only
  rw [if_neg (by simp)]
  rw [show stripWS (([] : Str)) = [] from rfl]
  rw [if_neg (by simp)]
  have htw : (block ++ rest).takeWhile
      (fun x => decide ((str "- ").isPrefixOf x = true ∨ (str "  ").isPrefixOf x = true ∨
        x = str "-")) = block := by
    cases hr : rest with
    | nil =>
      rw [List.append_nil]
      exact takeWhile_all_eq' _ block (fun c hc => decide_eq_true (hblock c hc))
    | cons r rr =>
      refine takeWhile_append_not' _ block r rr (fun c hc => decide_eq_true (hblock c hc)) ?_
      rw [decide_eq_false_iff_not]
      exact hstop r rr hr
  rw [htw]
  rw [if_neg hblockne]
  rw [List.drop_left]

theorem splitAtColon_none (v : Str) (hv : ':' ∉ v) : splitAtColon v = none := by
  induction v with
  | nil => rfl
  | cons c r ih =>
    rw [splitAtColon_cons_ne c r (fun hc => hv (by rw [hc]; simp)),
      ih (fun hm => hv (List.mem_cons_of_mem c hm))]
    rfl

theorem stripWS_space_append (p0 : Char) (P X : Str)
    (hPhead : P.head? = some p0) (hp0 : pySpace p0 = false)
    (hX : plainScalar X = true) :
    stripWS (' ' :: (P ++ X)) = P ++ X := by
  obtain ⟨hXne, _, hXlast, _, _⟩ := plainScalar_parts X hX
  have hPne : P ≠ [] := by
    intro hnil
    subst hnil
    exact Option.noConfusion hPhead
  unfold stripWS
  rw [show lstripWS (' ' :: (P ++ X)) = lstripWS (P ++ X) from by
    unfold lstripWS
    rw [List.dropWhile_cons, if_pos (by decide)]]
  rw [lstripWS_of_head _ ?hh]
  case hh =>
    intro c hc
    refine head_lit_not_ws p0 P hPhead hp0 c ?_
    cases P with
    | nil => exact absurd rfl hPne
    | cons q t =>
      rw [List.cons_append, List.head?_cons] at hc
      rw [List.head?_cons]
      exact hc
  have := rstripWS_append_keep P X hXne hXlast
  exact this

theorem itemsAux_scalars (vs : List Str) (h : ∀ v ∈ vs, plainScalar v = true) :
    ∀ fuel, vs.length ≤ fuel →
    yamlItemsAux fuel (vs.map (fun v => str "- " ++ v)) =
      some (vs.map fun v => YVal.s v) := by
  induction vs with
  | nil =>
    intro fuel _
    simp [yamlItemsAux]
  | cons v vt ih =>
    intro fuel hfuel
    obtain ⟨f, rfl⟩ : ∃ f, fuel = f + 1 :=
      ⟨fuel - 1, by simp only [List.length_cons] at hfuel; omega⟩
    have hv := h v (List.mem_cons_self v vt)
    obtain ⟨hvne, _, _, hvcolon, _⟩ := plainScalar_parts v hv
    rw [List.map_cons]
    simp only [yamlItemsAux]
    rw [if_pos (Or.inl (isPrefixOf_append_self (str "- ") v))]
    rw [show (str "- " ++ v).drop 1 = ' ' :: v from rfl, stripWS_plain_space v hv]
    have hconts : (vt.map (fun w => str "- " ++ w)).takeWhile
        (fun x => (str "  ").isPrefixOf x) = [] := by
      cases vt with
      | nil => rfl
      | cons w wt =>
        rw [List.map_cons, List.takeWhile_cons,
          if_neg (by rw [show ((str "  ").isPrefixOf (str "- " ++ w)) = false from rfl]; simp)]
    rw [hconts]
    rw [if_neg hvne]
    rw [splitAtColon_none v hvcolon]
    dsimp only
    rw [if_pos rfl, parseScalarFlow_plain v hv]
    dsimp only
    rw [show ([] : List Str).length = 0 from rfl, List.drop_zero]
    rw [ih (fun w hw => h w (List.mem_cons_of_mem v hw)) f
      (by simp only [List.length_cons] at hfuel; omega)]
    rfl

theorem pairsAux_nil (fuel : Nat) : yamlPairsAux fuel [] = some [] := by
  cases fuel <;> rfl

theorem itemsAux_checkboxes (cbs : List CheckboxToken)
    (h : ∀ c ∈ cbs, plainScalar c.name = true) :
    ∀ fuel, cbs.length + 2 ≤ fuel →
    yamlItemsAux fuel (cbs.flatMap fun c =>
      [str "- name: " ++ c.name, str "  checked: " ++ boolStr c.checked]) =
      some (cbs.map fun c =>
        YVal.map [(str "name", .s c.name), (str "checked", .b c.checked)]) := by
  induction cbs with
  | nil =>
    intro fuel _
    simp [yamlItemsAux]
  | cons c ct ih =>
    intro fuel hfuel
    simp only [List.length_cons] at hfuel
    obtain ⟨f, rfl⟩ : ∃ f, fuel = f + 1 := ⟨fuel - 1, by omega⟩
    have hc := h c (List.mem_cons_self c ct)
    obtain ⟨hcne, _, _, _, _⟩ := plainScalar_parts c.name hc
    rw [List.flatMap_cons]
    simp only [List.cons_append, List.nil_append]
    simp only [yamlItemsAux]
    rw [if_pos (Or.inl (show ((str "- ").isPrefixOf (str "- name: " ++ c.name)) = true from by
      rw [show str "- name: " ++ c.name = str "- " ++ (str "name: " ++ c.name) from rfl]
      exact isPrefixOf_append_self _ _))]
    rw [show (str "- name: " ++ c.name).drop 1 = ' ' :: (str "name: " ++ c.name) from rfl,
      stripWS_space_append 'n' (str "name: ") c.name rfl (by decide) hc]
    have hconts : ((str "  checked: " ++ boolStr c.checked) ::
        ct.flatMap (fun c => [str "- name: " ++ c.name,
          str "  checked: " ++ boolStr c.checked])).takeWhile
        (fun x => (str "  ").isPrefixOf x) =
        [str "  checked: " ++ boolStr c.checked] := by
      rw [List.takeWhile_cons,
        if_pos (show ((str "  ").isPrefixOf (str "  checked: " ++ boolStr c.checked)) = true
          from by
          rw [show str "  checked: " ++ boolStr c.checked =
            str "  " ++ (str "checked: " ++ boolStr c.checked) from rfl]
          exact isPrefixOf_append_self _ _)]
      cases ct with
      | nil => rfl
      | cons c2 ct2 =>
        rw [List.flatMap_cons]
        simp only [List.cons_append]
        rw [List.takeWhile_cons, if_neg (by
          rw [show ((str "  ").isPrefixOf (str "- name: " ++ c2.name)) = false from rfl]
          simp)]
    rw [hconts]
    rw [show str "name: " ++ c.name = str "name" ++ ':' :: ' ' :: c.name from rfl]
    rw [if_neg (by
      intro hx
      have hlen := congrArg List.length hx
      simp at hlen)]
    rw [splitAtColon_append (str "name") c.name (by decide)]
    dsimp only
    rw [show [str "  checked: " ++ boolStr c.checked].map (fun x => x.drop 2) =
      [str "checked: " ++ boolStr c.checked] from rfl]
    obtain ⟨f1, rfl⟩ : ∃ f1, f = f1 + 1 := ⟨f - 1, by omega⟩
    rw [pairsAux_value_line (str "name") c.name (.s c.name) _ f1 (by decide) (by decide)
      (head_lit_not_ws 'n' _ rfl (by decide)) (stripWS_plain_space c.name hc) hcne
      (parseScalarFlow_plain c.name hc)]
    obtain ⟨f2, rfl⟩ : ∃ f2, f1 = f2 + 1 := ⟨f1 - 1, by omega⟩
    rw [show str "checked: " ++ boolStr c.checked =
      str "checked" ++ ':' :: ' ' :: boolStr c.checked from rfl]
    rw [pairsAux_value_line (str "checked") (boolStr c.checked) (.b c.checked) _ f2
      (by decide) (by decide) (head_lit_not_ws 'c' _ rfl (by decide))
      (by cases c.checked <;> decide) (by cases c.checked <;> decide)
      (by cases c.checked <;> rfl)]
    rw [pairsAux_nil f2]
    dsimp only [Option.map_some']
    rw [show ([str "  checked: " ++ boolStr c.checked] : List Str).length = 1 from rfl]
    rw [show ((str "  checked: " ++ boolStr c.checked) ::
      ct.flatMap (fun c => [str "- name: " ++ c.name,
        str "  checked: " ++ boolStr c.checked])).drop 1 =
      ct.flatMap (fun c => [str "- name: " ++ c.name,
        str "  checked: " ++ boolStr c.checked]) from rfl]
    rw [ih (fun w hw => h w (List.mem_cons_of_mem c hw)) (f2 + 1 + 1) (by omega)]
    rfl

theorem itemsAux_missing (ms : List MissingItem)
    (h : ∀ m ∈ ms, plainScalar m.id = true ∧ plainScalar m.question = true ∧
      plainScalar m.sectionId = true) :
    ∀ fuel, ms.length + 3 ≤ fuel →
    yamlItemsAux fuel (ms.flatMap fun m =>
      [str "- id: " ++ m.id, str "  question: " ++ m.question,
       str "  section_id: " ++ m.sectionId]) =
      some (ms.map fun m =>
        YVal.map [(str "id", .s m.id), (str "question", .s m.question),
          (str "section_id", .s m.sectionId)]) := by
  induction ms with
  | nil =>
    intro fuel _
    simp [yamlItemsAux]
  | cons m mt ih =>
    intro fuel hfuel
    simp only [List.length_cons] at hfuel
    obtain ⟨f, rfl⟩ : ∃ f, fuel = f + 1 := ⟨fuel - 1, by omega⟩
    obtain ⟨hmid, hmq, hms⟩ := h m (List.mem_cons_self m mt)
    obtain ⟨hidne, _, _, _, _⟩ := plainScalar_parts m.id hmid
    obtain ⟨hqne, _, _, _, _⟩ := plainScalar_parts m.question hmq
    obtain ⟨hsne, _, _, _, _⟩ := plainScalar_parts m.sectionId hms
    rw [List.flatMap_cons]
    simp only [List.cons_append, List.nil_append]
    simp only [yamlItemsAux]
    rw [if_pos (Or.inl (show ((str "- ").isPrefixOf (str "- id: " ++ m.id)) = true from by
      rw [show str "- id: " ++ m.id = str "- " ++ (str "id: " ++ m.id) from rfl]
      exact isPrefixOf_append_self _ _))]
    rw [show (str "- id: " ++ m.id).drop 1 = ' ' :: (str "id: " ++ m.id) from rfl,
      stripWS_space_append 'i' (str "id: ") m.id rfl (by decide) hmid]
    have hconts : ((str "  question: " ++ m.question) ::
        (str "  section_id: " ++ m.sectionId) ::
        mt.flatMap (fun m => [str "- id: " ++ m.id, str "  question: " ++ m.question,
          str "  section_id: " ++ m.sectionId])).takeWhile
        (fun x => (str "  ").isPrefixOf x) =
        [str "  question: " ++ m.question, str "  section_id: " ++ m.sectionId] := by
      rw [List.takeWhile_cons,
        if_pos (show ((str "  ").isPrefixOf (str "  question: " ++ m.question)) = true from by
          rw [show str "  question: " ++ m.question =
            str "  " ++ (str "question: " ++ m.question) from rfl]
          exact isPrefixOf_append_self _ _)]
      rw [List.takeWhile_cons,
        if_pos (show ((str "  ").isPrefixOf (str "  section_id: " ++ m.sectionId)) = true
          from by
          rw [show str "  section_id: " ++ m.sectionId =
            str "  " ++ (str "section_id: " ++ m.sectionId) from rfl]
          exact isPrefixOf_append_self _ _)]
      cases mt with
      | nil => rfl
      | cons m2 mt2 =>
        rw [List.flatMap_cons]
        simp only [List.cons_append]
        rw [List.takeWhile_cons, if_neg (by
          rw [show ((str "  ").isPrefixOf (str "- id: " ++ m2.id)) = false from rfl]
          simp)]
    rw [hconts]
    rw [show str "id: " ++ m.id = str "id" ++ ':' :: ' ' :: m.id from rfl]
    rw [if_neg (by
      intro hx
      have hlen := congrArg List.length hx
      simp at hlen)]
    rw [splitAtColon_append (str "id") m.id (by decide)]
    dsimp only
    rw [show [str "  question: " ++ m.question,
      str "  section_id: " ++ m.sectionId].map (fun x => x.drop 2) =
      [str "question: " ++ m.question, str "section_id: " ++ m.sectionId] from rfl]
    obtain ⟨f1, rfl⟩ : ∃ f1, f = f1 + 1 := ⟨f - 1, by omega⟩
    rw [pairsAux_value_line (str "id") m.id (.s m.id) _ f1 (by decide) (by decide)
      (head_lit_not_ws 'i' _ rfl (by decide)) (stripWS_plain_space m.id hmid) hidne
      (parseScalarFlow_plain m.id hmid)]
    obtain ⟨f2, rfl⟩ : ∃ f2, f1 = f2 + 1 := ⟨f1 - 1, by omega⟩
    rw [show str "question: " ++ m.question =
      str "question" ++ ':' :: ' ' :: m.question from rfl]
    rw [pairsAux_value_line (str "question") m.question (.s m.question) _ f2 (by decide)
      (by decide) (head_lit_not_ws 'q' _ rfl (by decide))
      (stripWS_plain_space m.question hmq) hqne (parseScalarFlow_plain m.question hmq)]
    obtain ⟨f3, rfl⟩ : ∃ f3, f2 = f3 + 1 := ⟨f2 - 1, by omega⟩
    rw [show str "section_id: " ++ m.sectionId =
      str "section_id" ++ ':' :: ' ' :: m.sectionId from rfl]
    rw [pairsAux_value_line (str "section_id") m.sectionId (.s m.sectionId) _ f3 (by decide)
      (by decide) (head_lit_not_ws 's' _ rfl (by decide))
      (stripWS_plain_space m.sectionId hms) hsne (parseScalarFlow_plain m.sectionId hms)]
    rw [pairsAux_nil f3]
    dsimp only [Option.map_some']
    rw [show ([str "  question: " ++ m.question,
      str "  section_id: " ++ m.sectionId] : List Str).length = 2 from rfl]
    rw [show ((str "  question: " ++ m.question) ::
      (str "  section_id: " ++ m.sectionId) ::
      mt.flatMap (fun m => [str "- id: " ++ m.id, str "  question: " ++ m.question,
        str "  section_id: " ++ m.sectionId])).drop 2 =
      mt.flatMap (fun m => [str "- id: " ++ m.id, str "  question: " ++ m.question,
        str "  section_id: " ++ m.sectionId]) from rfl]
    rw [ih (fun w hw => h w (List.mem_cons_of_mem m hw)) (f3 + 1 + 1 + 1) (by omega)]
    rfl

theorem flatMap2_length {α : Type} (f g : α → Str) (l : List α) :
    (l.flatMap fun c => [f c, g c]).length = 2 * l.length := by
  induction l with
  | nil => rfl
  | cons x t ih =>
    rw [List.flatMap_cons, List.length_append, ih]
    simp only [List.length_cons, List.length_nil, List.length_singleton]
    omega

theorem flatMap3_length {α : Type} (f g h : α → Str) (l : List α) :
    (l.flatMap fun c => [f c, g c, h c]).length = 3 * l.length := by
  induction l with
  | nil => rfl
  | cons x t ih =>
    rw [List.flatMap_cons, List.length_append, ih]
    simp only [List.length_cons, List.length_nil, List.length_singleton]
    omega

theorem pairsAux_strlist_step (key : Str) (vs : List Str) (rest : List Str)
    (RESTV : List (Str × YVal)) (f : Nat)
    (hkc : ':' ∉ key) (hkne : key ≠ [])
    (hkhead : ∀ c, key.head? = some c → pySpace c = false)
    (hvs : ∀ v ∈ vs, plainScalar v = true)
    (hstop : ∀ r rr, rest = r :: rr →
      ¬((str "- ").isPrefixOf r = true ∨ (str "  ").isPrefixOf r = true ∨ r = str "-"))
    (hf : vs ≠ [] → vs.length ≤ f)
    (hrest : yamlPairsAux f rest = some RESTV) :
    yamlPairsAux (f + 1) ((if vs = [] then [key ++ str ": []"]
      else (key ++ [':']) :: vs.map (fun v => str "- " ++ v)) ++ rest) =
      some ((key, YVal.list (vs.map YVal.s)) :: RESTV) := by
  by_cases hvs0 : vs = []
  · subst hvs0
    rw [if_pos rfl]
    rw [show (([key ++ str ": []"] : List Str) ++ rest) =
      (key ++ ':' :: ' ' :: str "[]") :: rest from rfl]
    rw [pairsAux_value_line key (str "[]") (.list []) rest f hkc hkne hkhead (by decide)
      (by decide) rfl]
    rw [hrest]
    rfl
  · rw [if_neg hvs0, List.cons_append]
    rw [pairsAux_block_line key (vs.map (fun v => str "- " ++ v)) rest f hkc hkne hkhead
      (fun x hx => by
        obtain ⟨v, hv, rfl⟩ := List.mem_map.mp hx
        exact Or.inl (isPrefixOf_append_self _ _))
      (by simpa using hvs0) hstop]
    rw [itemsAux_scalars vs hvs f (hf hvs0)]
    dsimp only
    rw [hrest]
    rfl

theorem pairsAux_cb_step (key : Str) (cbs : List CheckboxToken) (rest : List Str)
    (RESTV : List (Str × YVal)) (f : Nat)
    (hkc : ':' ∉ key) (hkne : key ≠ [])
    (hkhead : ∀ c, key.head? = some c → pySpace c = false)
    (hcbs : ∀ c ∈ cbs, plainScalar c.name = true)
    (hstop : ∀ r rr, rest = r :: rr →
      ¬((str "- ").isPrefixOf r = true ∨ (str "  ").isPrefixOf r = true ∨ r = str "-"))
    (hf : cbs ≠ [] → cbs.length + 2 ≤ f)
    (hrest : yamlPairsAux f rest = some RESTV) :
    yamlPairsAux (f + 1) ((if cbs = [] then [key ++ str ": []"]
      else (key ++ [':']) :: cbs.flatMap (fun c =>
        [str "- name: " ++ c.name, str "  checked: " ++ boolStr c.checked])) ++ rest) =
      some ((key, YVal.list (cbs.map fun c =>
        YVal.map [(str "name", .s c.name), (str "checked", .b c.checked)])) :: RESTV) := by
  by_cases hcbs0 : cbs = []
  · subst hcbs0
    rw [if_pos rfl]
    rw [show (([key ++ str ": []"] : List Str) ++ rest) =
      (key ++ ':' :: ' ' :: str "[]") :: rest from rfl]
    rw [pairsAux_value_line key (str "[]") (.list []) rest f hkc hkne hkhead (by decide)
      (by decide) rfl]
    rw [hrest]
    rfl
  · rw [if_neg hcbs0, List.cons_append]
    rw [pairsAux_block_line key _ rest f hkc hkne hkhead
      (fun x hx => by
        obtain ⟨c, hcmem, hx2⟩ := List.mem_flatMap.mp hx
        rcases List.mem_cons.mp hx2 with rfl | hx3
        · refine Or.inl (show ((str "- ").isPrefixOf (str "- name: " ++ c.name)) = true
            from by
            rw [show str "- name: " ++ c.name = str "- " ++ (str "name: " ++ c.name) from rfl]
            exact isPrefixOf_append_self _ _)
        · rw [List.mem_singleton] at hx3
          subst hx3
          refine Or.inr (Or.inl (show
            ((str "  ").isPrefixOf (str "  checked: " ++ boolStr c.checked)) = true from by
            rw [show str "  checked: " ++ boolStr c.checked =
              str "  " ++ (str "checked: " ++ boolStr c.checked) from rfl]
            exact isPrefixOf_append_self _ _)))
      (by
        intro hnil
        cases cbs with
        | nil => exact hcbs0 rfl
        | cons c ct =>
          rw [List.flatMap_cons] at hnil
          simp at hnil)
      hstop]
    rw [itemsAux_checkboxes cbs hcbs f (hf hcbs0)]
    dsimp only
    rw [hrest]
    rfl

theorem pairsAux_mi_step (key : Str) (ms : List MissingItem) (rest : List Str)
    (RESTV : List (Str × YVal)) (f : Nat)
    (hkc : ':' ∉ key) (hkne : key ≠ [])
    (hkhead : ∀ c, key.head? = some c → pySpace c = false)
    (hms : ∀ m ∈ ms, plainScalar m.id = true ∧ plainScalar m.question = true ∧
      plainScalar m.sectionId = true)
    (hstop : ∀ r rr, rest = r :: rr →
      ¬((str "- ").isPrefixOf r = true ∨ (str "  ").isPrefixOf r = true ∨ r = str "-"))
    (hf : ms ≠ [] → ms.length + 3 ≤ f)
    (hrest : yamlPairsAux f rest = some RESTV) :
    yamlPairsAux (f + 1) ((if ms = [] then [key ++ str ": []"]
      else (key ++ [':']) :: ms.flatMap (fun m =>
        [str "- id: " ++ m.id, str "  question: " ++ m.question,
         str "  section_id: " ++ m.sectionId])) ++ rest) =
      some ((key, YVal.list (ms.map fun m =>
        YVal.map [(str "id", .s m.id), (str "question", .s m.question),
          (str "section_id", .s m.sectionId)])) :: RESTV) := by
  by_cases hms0 : ms = []
  · subst hms0
    rw [if_pos rfl]
    rw [show (([key ++ str ": []"] : List Str) ++ rest) =
      (key ++ ':' :: ' ' :: str "[]") :: rest from rfl]
    rw [pairsAux_value_line key (str "[]") (.list []) rest f hkc hkne hkhead (by decide)
      (by decide) rfl]
    rw [hrest]
    rfl
  · rw [if_neg hms0, List.cons_append]
    rw [pairsAux_block_line key _ rest f hkc hkne hkhead
      (fun x hx => by
        obtain ⟨m, hmmem, hx2⟩ := List.mem_flatMap.mp hx
        rcases List.mem_cons.mp hx2 with rfl | hx3
        · refine Or.inl (show ((str "- ").isPrefixOf (str "- id: " ++ m.id)) = true from by
            rw [show str "- id: " ++ m.id = str "- " ++ (str "id: " ++ m.id) from rfl]
            exact isPrefixOf_append_self _ _)
        · rcases List.mem_cons.mp hx3 with rfl | hx4
          · refine Or.inr (Or.inl (show
              ((str "  ").isPrefixOf (str "  question: " ++ m.question)) = true from by
              rw [show str "  question: " ++ m.question =
                str "  " ++ (str "question: " ++ m.question) from rfl]
              exact isPrefixOf_append_self _ _))
          · rw [List.mem_singleton] at hx4
            subst hx4
            refine Or.inr (Or.inl (show
              ((str "  ").isPrefixOf (str "  section_id: " ++ m.sectionId)) = true from by
              rw [show str "  section_id: " ++ m.sectionId =
                str "  " ++ (str "section_id: " ++ m.sectionId) from rfl]
              exact isPrefixOf_append_self _ _)))
      (by
        intro hnil
        cases ms with
        | nil => exact hms0 rfl
        | cons m mt =>
          rw [List.flatMap_cons] at hnil
          simp at hnil)
      hstop]
    rw [itemsAux_missing ms hms f (hf hms0)]
    dsimp only
    rw [hrest]
    rfl

theorem pairsAux_meta (s : DraftSection) (hser : sectionSerializable s = true) :
    yamlPairsAux ((dumpMetaLines s).length + 1) (dumpMetaLines s) =
      some [(str "status", YVal.s (match s.status with
          | .Complete => str "complete" | .Partial => str "partial")),
        (str "checkboxes", YVal.list (s.checkboxes.map fun c =>
          YVal.map [(str "name", .s c.name), (str "checked", .b c.checked)])),
        (str "attachments", YVal.list (s.attachments.map YVal.s)),
        (str "evidence", YVal.list (s.evidence.map YVal.s)),
        (str "missing_items", YVal.list (s.missingItems.map fun m =>
          YVal.map [(str "id", .s m.id), (str "question", .s m.question),
            (str "section_id", .s m.sectionId)]))] := by
  obtain ⟨_, _, _, hcb, hat, hev, hmi⟩ := sectionSerializable_parts s hser
  have hmi' : ∀ m ∈ s.missingItems, plainScalar m.id = true ∧
      plainScalar m.question = true ∧ plainScalar m.sectionId = true :=
    fun m hm => ⟨(hmi m hm).1, (hmi m hm).2.1, (hmi m hm).2.2.1⟩
  have hlen : (dumpMetaLines s).length = 1 +
      (if s.checkboxes = [] then 1 else 2 * s.checkboxes.length + 1) +
      (if s.attachments = [] then 1 else s.attachments.length + 1) +
      (if s.evidence = [] then 1 else s.evidence.length + 1) +
      (if s.missingItems = [] then 1 else 3 * s.missingItems.length + 1) := by
    unfold dumpMetaLines
    by_cases h1 : s.checkboxes = [] <;> by_cases h2 : s.attachments = [] <;>
      by_cases h3 : s.evidence = [] <;> by_cases h4 : s.missingItems = [] <;>
      simp only [h1, h2, h3, h4, if_true, if_false, ite_true, ite_false,
        flatMap2_length, flatMap3_length, List.length_append, List.length_cons,
        List.length_singleton, List.length_nil, List.length_map, List.flatMap_nil,
        eq_self_iff_true, not_true, not_false_iff] <;> omega
  have hcb1 : 1 ≤ (if s.checkboxes = [] then 1 else 2 * s.checkboxes.length + 1) := by
    by_cases h : s.checkboxes = [] <;> simp [h]
  have hat1 : 1 ≤ (if s.attachments = [] then 1 else s.attachments.length + 1) := by
    by_cases h : s.attachments = [] <;> simp [h]
  have hev1 : 1 ≤ (if s.evidence = [] then 1 else s.evidence.length + 1) := by
    by_cases h : s.evidence = [] <;> simp [h]
  have hmi1 : 1 ≤ (if s.missingItems = [] then 1 else 3 * s.missingItems.length + 1) := by
    by_cases h : s.missingItems = [] <;> simp [h]
  have hcb2 : s.checkboxes ≠ [] →
      (if s.checkboxes = [] then 1 else 2 * s.checkboxes.length + 1) =
        2 * s.checkboxes.length + 1 := by
    intro h
    rw [if_neg h]
  have hat2 : s.attachments ≠ [] →
      (if s.attachments = [] then 1 else s.attachments.length + 1) =
        s.attachments.length + 1 := by
    intro h
    rw [if_neg h]
  have hev2 : s.evidence ≠ [] →
      (if s.evidence = [] then 1 else s.evidence.length + 1) = s.evidence.length + 1 := by
    intro h
    rw [if_neg h]
  have hmi2 : s.missingItems ≠ [] →
      (if s.missingItems = [] then 1 else 3 * s.missingItems.length + 1) =
        3 * s.missingItems.length + 1 := by
    intro h
    rw [if_neg h]
  obtain ⟨k, hk⟩ : ∃ k, (dumpMetaLines s).length = k + 4 :=
    ⟨(dumpMetaLines s).length - 4, by omega⟩
  -- evaluations, innermost part first
  have hmiE : yamlPairsAux (k + 1) ((if s.missingItems = [] then [str "missing_items: []"]
      else str "missing_items:" :: s.missingItems.flatMap (fun m =>
        [str "- id: " ++ m.id, str "  question: " ++ m.question,
         str "  section_id: " ++ m.sectionId])) ++ []) =
      some [(str "missing_items", YVal.list (s.missingItems.map fun m =>
        YVal.map [(str "id", .s m.id), (str "question", .s m.question),
          (str "section_id", .s m.sectionId)]))] := by
    rw [show str "missing_items: []" = str "missing_items" ++ str ": []" from rfl,
      show str "missing_items:" = str "missing_items" ++ [':'] from rfl]
    exact pairsAux_mi_step (str "missing_items") s.missingItems [] [] k (by decide)
      (by decide) (head_lit_not_ws 'm' _ rfl (by decide)) hmi'
      (fun r rr h => List.noConfusion h)
      (fun hne => by have := hmi2 hne; have hpos := List.length_pos.mpr hne; omega) (pairsAux_nil k)
  rw [List.append_nil] at hmiE
  have hevE : yamlPairsAux (k + 2) ((if s.evidence = [] then [str "evidence: []"]
      else str "evidence:" :: s.evidence.map (fun v => str "- " ++ v)) ++
      ((if s.missingItems = [] then [str "missing_items: []"]
      else str "missing_items:" :: s.missingItems.flatMap (fun m =>
        [str "- id: " ++ m.id, str "  question: " ++ m.question,
         str "  section_id: " ++ m.sectionId])))) =
      some [(str "evidence", YVal.list (s.evidence.map YVal.s)),
        (str "missing_items", YVal.list (s.missingItems.map fun m =>
          YVal.map [(str "id", .s m.id), (str "question", .s m.question),
            (str "section_id", .s m.sectionId)]))] := by
    rw [show str "evidence: []" = str "evidence" ++ str ": []" from rfl,
      show str "evidence:" = str "evidence" ++ [':'] from rfl]
    refine pairsAux_strlist_step (str "evidence") s.evidence _ _ (k + 1) (by decide)
      (by decide) (head_lit_not_ws 'e' _ rfl (by decide)) hev ?_
      (fun hne => by have := hev2 hne; have hpos := List.length_pos.mpr hne; omega) hmiE
    intro r rr h
    by_cases hmi0 : s.missingItems = []
    · rw [if_pos hmi0] at h
      injection h with h1 _
      subst h1
      decide
    · rw [if_neg hmi0] at h
      injection h with h1 _
      subst h1
      decide
  have hatE : yamlPairsAux (k + 3) ((if s.attachments = [] then [str "attachments: []"]
      else str "attachments:" :: s.attachments.map (fun v => str "- " ++ v)) ++
      ((if s.evidence = [] then [str "evidence: []"]
      else str "evidence:" :: s.evidence.map (fun v => str "- " ++ v)) ++
      ((if s.missingItems = [] then [str "missing_items: []"]
      else str "missing_items:" :: s.missingItems.flatMap (fun m =>
        [str "- id: " ++ m.id, str "  question: " ++ m.question,
         str "  section_id: " ++ m.sectionId]))))) =
      some [(str "attachments", YVal.list (s.attachments.map YVal.s)),
        (str "evidence", YVal.list (s.evidence.map YVal.s)),
        (str "missing_items", YVal.list (s.missingItems.map fun m =>
          YVal.map [(str "id", .s m.id), (str "question", .s m.question),
            (str "section_id", .s m.sectionId)]))] := by
    rw [show str "attachments: []" = str "attachments" ++ str ": []" from rfl,
      show str "attachments:" = str "attachments" ++ [':'] from rfl]
    refine pairsAux_strlist_step (str "attachments") s.attachments _ _ (k + 2) (by decide)
      (by decide) (head_lit_not_ws 'a' _ rfl (by decide)) hat ?_
      (fun hne => by have := hat2 hne; have hpos := List.length_pos.mpr hne; omega) hevE
    intro r rr h
    by_cases hev0 : s.evidence = []
    · rw [if_pos hev0] at h
      injection h with h1 _
      subst h1
      decide
    · rw [if_neg hev0] at h
      rw [List.cons_append] at h
      injection h with h1 _
      subst h1
      decide
  have hcbE : yamlPairsAux (k + 4) ((if s.checkboxes = [] then [str "checkboxes: []"]
      else str "checkboxes:" :: s.checkboxes.flatMap (fun c =>
        [str "- name: " ++ c.name, str "  checked: " ++ boolStr c.checked])) ++
      ((if s.attachments = [] then [str "attachments: []"]
      else str "attachments:" :: s.attachments.map (fun v => str "- " ++ v)) ++
      ((if s.evidence = [] then [str "evidence: []"]
      else str "evidence:" :: s.evidence.map (fun v => str "- " ++ v)) ++
      ((if s.missingItems = [] then [str "missing_items: []"]
      else str "missing_items:" :: s.missingItems.flatMap (fun m =>
        [str "- id: " ++ m.id, str "  question: " ++ m.question,
         str "  section_id: " ++ m.sectionId])))))) =
      some [(str "checkboxes", YVal.list (s.checkboxes.map fun c =>
          YVal.map [(str "name", .s c.name), (str "checked", .b c.checked)])),
        (str "attachments", YVal.list (s.attachments.map YVal.s)),
        (str "evidence", YVal.list (s.evidence.map YVal.s)),
        (str "missing_items", YVal.list (s.missingItems.map fun m =>
          YVal.map [(str "id", .s m.id), (str "question", .s m.question),
            (str "section_id", .s m.sectionId)]))] := by
    rw [show str "checkboxes: []" = str "checkboxes" ++ str ": []" from rfl,
      show str "checkboxes:" = str "checkboxes" ++ [':'] from rfl]
    refine pairsAux_cb_step (str "checkboxes") s.checkboxes _ _ (k + 3) (by decide)
      (by decide) (head_lit_not_ws 'c' _ rfl (by decide)) hcb ?_
      (fun hne => by have := hcb2 hne; have hpos := List.length_pos.mpr hne; omega) hatE
    intro r rr h
    by_cases hat0 : s.attachments = []
    · rw [if_pos hat0] at h
      injection h with h1 _
      subst h1
      decide
    · rw [if_neg hat0] at h
      rw [List.cons_append] at h
      injection h with h1 _
      subst h1
      decide
  rw [hk]
  unfold dumpMetaLines
  simp only [List.cons_append, List.append_assoc]
  rw [show str "status: " ++ (match s.status with
      | DraftStatus.Complete => str "complete"
      | DraftStatus.Partial => str "partial") =
    str "status" ++ ':' :: ' ' :: (match s.status with
      | DraftStatus.Complete => str "complete"
      | DraftStatus.Partial => str "partial") from rfl]
  rw [pairsAux_value_line (str "status") _ (YVal.s (match s.status with
      | DraftStatus.Complete => str "complete"
      | DraftStatus.Partial => str "partial")) _ (k + 4) (by decide) (by decide)
    (head_lit_not_ws 's' _ rfl (by decide))
    (by cases s.status <;> decide) (by cases s.status <;> decide)
    (by cases s.status <;> rfl)]
  rw [hcbE]
  rfl

theorem stripWS_ne_nil_of_mem (y : Str) (c : Char) (hc : c ∈ y) (hws : pySpace c = false) :
    stripWS y ≠ [] := by
  unfold stripWS
  apply rstripWS_ne_nil_of_mem _ c _ hws
  unfold lstripWS
  have hsplit : y.takeWhile pySpace ++ y.dropWhile pySpace = y :=
    List.takeWhile_append_dropWhile pySpace y
  rw [← hsplit] at hc
  rcases List.mem_append.mp hc with h | h
  · have hx := List.mem_takeWhile_imp h
    rw [hws] at hx
    exact Bool.noConfusion hx
  · exact h

theorem dumpMetaLines_nonblank (s : DraftSection) :
    ∀ l ∈ dumpMetaLines s, stripWS l ≠ [] := by
  intro l hl
  unfold dumpMetaLines at hl
  rcases List.mem_append.mp hl with h3 | hMI
  · rcases List.mem_append.mp h3 with h2 | hEV
    · rcases List.mem_append.mp h2 with hA | hAT
      · rcases List.mem_cons.mp hA with rfl | h2'
        · cases s.status
          · exact stripWS_ne_nil_of_mem _ 's' (List.mem_append.mpr (.inl (by decide)))
              (by decide)
          · exact stripWS_ne_nil_of_mem _ 's' (List.mem_append.mpr (.inl (by decide)))
              (by decide)
        · by_cases hcb0 : s.checkboxes = []
          · rw [if_pos hcb0, List.mem_singleton] at h2'
            subst h2'
            decide
          · rw [if_neg hcb0] at h2'
            rcases List.mem_cons.mp h2' with rfl | h3'
            · decide
            · obtain ⟨c, _, hcl⟩ := List.mem_flatMap.mp h3'
              rcases List.mem_cons.mp hcl with rfl | hcl2
              · exact stripWS_ne_nil_of_mem _ '-' (List.mem_append.mpr (.inl (by decide)))
                  (by decide)
              · rw [List.mem_singleton] at hcl2
                subst hcl2
                exact stripWS_ne_nil_of_mem _ 'c' (List.mem_append.mpr (.inl (by decide)))
                  (by decide)
      · by_cases hat0 : s.attachments = []
        · rw [if_pos hat0, List.mem_singleton] at hAT
          subst hAT
          decide
        · rw [if_neg hat0] at hAT
          rcases List.mem_cons.mp hAT with rfl | h2'
          · decide
          · obtain ⟨a, _, rfl⟩ := List.mem_map.mp h2'
            exact stripWS_ne_nil_of_mem _ '-' (List.mem_append.mpr (.inl (by decide)))
              (by decide)
    · by_cases hev0 : s.evidence = []
      · rw [if_pos hev0, List.mem_singleton] at hEV
        subst hEV
        decide
      · rw [if_neg hev0] at hEV
        rcases List.mem_cons.mp hEV with rfl | h2'
        · decide
        · obtain ⟨a, _, rfl⟩ := List.mem_map.mp h2'
          exact stripWS_ne_nil_of_mem _ '-' (List.mem_append.mpr (.inl (by decide)))
            (by decide)
  · by_cases hmi0 : s.missingItems = []
    · rw [if_pos hmi0, List.mem_singleton] at hMI
      subst hMI
      decide
    · rw [if_neg hmi0] at hMI
      rcases List.mem_cons.mp hMI with rfl | h2'
      · decide
      · obtain ⟨m, _, hml⟩ := List.mem_flatMap.mp h2'
        rcases List.mem_cons.mp hml with rfl | hml2
        · exact stripWS_ne_nil_of_mem _ '-' (List.mem_append.mpr (.inl (by decide)))
            (by decide)
        · rcases List.mem_cons.mp hml2 with rfl | hml3
          · exact stripWS_ne_nil_of_mem _ 'q' (List.mem_append.mpr (.inl (by decide)))
              (by decide)
          · rw [List.mem_singleton] at hml3
            subst hml3
            exact stripWS_ne_nil_of_mem _ 's' (List.mem_append.mpr (.inl (by decide)))
              (by decide)

theorem loadYaml_meta (s : DraftSection) (hser : sectionSerializable s = true) :
    loadYaml (metaText s) = some (.map
      [(str "status", YVal.s (match s.status with
          | .Complete => str "complete" | .Partial => str "partial")),
        (str "checkboxes", YVal.list (s.checkboxes.map fun c =>
          YVal.map [(str "name", .s c.name), (str "checked", .b c.checked)])),
        (str "attachments", YVal.list (s.attachments.map YVal.s)),
        (str "evidence", YVal.list (s.evidence.map YVal.s)),
        (str "missing_items", YVal.list (s.missingItems.map fun m =>
          YVal.map [(str "id", .s m.id), (str "question", .s m.question),
            (str "section_id", .s m.sectionId)]))]) := by
  obtain ⟨_, _, _, hcb, hat, hev, hmi⟩ := sectionSerializable_parts s hser
  have hlines : linesOf (metaText s) = dumpMetaLines s := by
    rw [show metaText s = joinNL (dumpMetaLines s) from rfl]
    exact linesOf_joinNL (dumpMetaLines s) (dumpMetaLines_ne_nil s)
      (fun l hl => (dumpMetaLines_safe s hcb hat hev
        (fun m hm => ⟨(hmi m hm).1, (hmi m hm).2.1, (hmi m hm).2.2.1⟩) l hl).2)
  have hfilter : (linesOf (metaText s)).filter (fun l => stripWS l ≠ []) =
      dumpMetaLines s := by
    rw [hlines]
    rw [List.filter_eq_self.mpr]
    intro a ha
    exact decide_eq_true (dumpMetaLines_nonblank s a ha)
  have hmeta := pairsAux_meta s hser
  have hcons : dumpMetaLines s = (str "status: " ++ (match s.status with
      | DraftStatus.Complete => str "complete"
      | DraftStatus.Partial => str "partial")) ::
      ((if s.checkboxes = [] then [str "checkboxes: []"]
      else str "checkboxes:" :: s.checkboxes.flatMap fun c =>
        [str "- name: " ++ c.name, str "  checked: " ++ boolStr c.checked]) ++
      ((if s.attachments = [] then [str "attachments: []"]
      else str "attachments:" :: s.attachments.map (fun x => str "- " ++ x)) ++
      ((if s.evidence = [] then [str "evidence: []"]
      else str "evidence:" :: s.evidence.map (fun x => str "- " ++ x)) ++
      (if s.missingItems = [] then [str "missing_items: []"]
      else str "missing_items:" :: s.missingItems.flatMap fun m =>
        [str "- id: " ++ m.id, str "  question: " ++ m.question,
         str "  section_id: " ++ m.sectionId])))) := by
    unfold dumpMetaLines
    simp only [List.cons_append, List.append_assoc]
  unfold loadYaml
  rw [hfilter, hcons]
  dsimp only
  rw [if_neg (show ¬((str "- ").isPrefixOf (str "status: " ++ (match s.status with
      | DraftStatus.Complete => str "complete"
      | DraftStatus.Partial => str "partial")) = true ∨
      str "status: " ++ (match s.status with
      | DraftStatus.Complete => str "complete"
      | DraftStatus.Partial => str "partial") = str "-") from by
    cases s.status <;> decide)]
  rw [show str "status: " ++ (match s.status with
      | DraftStatus.Complete => str "complete"
      | DraftStatus.Partial => str "partial") =
    str "status" ++ ':' :: ' ' :: (match s.status with
      | DraftStatus.Complete => str "complete"
      | DraftStatus.Partial => str "partial") from rfl]
  rw [splitAtColon_append (str "status") _ (by decide)]
  dsimp only
  rw [hcons] at hmeta
  rw [show str "status: " ++ (match s.status with
      | DraftStatus.Complete => str "complete"
      | DraftStatus.Partial => str "partial") =
    str "status" ++ ':' :: ' ' :: (match s.status with
      | DraftStatus.Complete => str "complete"
      | DraftStatus.Partial => str "partial") from rfl] at hmeta
  rw [hmeta]
  rfl

theorem exceptMapM_map_ok {α β ε : Type} (f : β → Except ε α) (g : α → β) (l : List α)
    (h : ∀ c ∈ l, f (g c) = .ok c) : exceptMapM f (l.map g) = .ok l := by
  induction l with
  | nil => rfl
  | cons x t ih =>
    rw [List.map_cons]
    simp only [exceptMapM]
    rw [h x (List.mem_cons_self x t), ih (fun c hc => h c (List.mem_cons_of_mem x hc))]
    rfl

theorem parseStrList_map (l : List Str) (sid fld : Str) :
    parseStrList (.list (l.map YVal.s)) sid fld = .ok l := by
  unfold parseStrList
  dsimp only
  rw [if_pos ?hall]
  case hall =>
    rw [List.all_eq_true]
    intro e he
    obtain ⟨v, _, rfl⟩ := List.mem_map.mp he
    rfl
  rw [List.filterMap_map]
  rw [show ((fun e => match e with | YVal.s v => some v | _ => none) ∘ YVal.s) =
    some from rfl]
  rw [List.filterMap_some]

theorem parseCheckboxes_map (cbs : List CheckboxToken) (sid : Str) :
    parseCheckboxesStrict (.list (cbs.map fun c =>
      YVal.map [(str "name", .s c.name), (str "checked", .b c.checked)])) sid =
      .ok cbs := by
  unfold parseCheckboxesStrict
  exact exceptMapM_map_ok _ _ cbs (fun c _ => rfl)

theorem parseMissing_map (ms : List MissingItem)
    (h : ∀ m ∈ ms, plainScalar m.sectionId = true ∧ m.userResponse = []) (sid : Str) :
    parseMissingItemsStrict (.list (ms.map fun m =>
      YVal.map [(str "id", .s m.id), (str "question", .s m.question),
        (str "section_id", .s m.sectionId)])) sid = .ok ms := by
  unfold parseMissingItemsStrict
  refine exceptMapM_map_ok _ _ ms (fun m hm => ?_)
  obtain ⟨hps, hur⟩ := h m hm
  obtain ⟨hne, _, _, _, _⟩ := plainScalar_parts m.sectionId hps
  obtain ⟨mid, msec, mq, mur⟩ := m
  dsimp only at hur hne ⊢
  rw [if_pos ⟨rfl, rfl⟩]
  rw [show ymGet [(str "id", YVal.s mid), (str "question", YVal.s mq),
    (str "section_id", YVal.s msec)] (str "section_id") =
    some (YVal.s msec) from rfl]
  dsimp only
  rw [if_pos (show pyTruthy (YVal.s msec) = true from by
    unfold pyTruthy
    simpa [List.isEmpty_iff] using hne)]
  subst hur
  rfl

theorem parseMetadata_meta (s : DraftSection) (hser : sectionSerializable s = true) :
    parseMetadata (metaText s) s.id =
      .ok { status := s.status, checkboxes := s.checkboxes, attachments := s.attachments,
            evidence := s.evidence, missingItems := s.missingItems } := by
  obtain ⟨_, _, _, _, _, _, hmi⟩ := sectionSerializable_parts s hser
  unfold parseMetadata
  rw [loadYaml_meta s hser]
  dsimp only
  rw [if_neg (by
    cases s.status <;> simp <;> exact ⟨rfl, rfl, rfl, rfl, rfl⟩)]
  rw [show statusOf ((ymGet [(str "status", YVal.s (match s.status with
      | DraftStatus.Complete => str "complete" | DraftStatus.Partial => str "partial")),
    (str "checkboxes", YVal.list (s.checkboxes.map fun c =>
      YVal.map [(str "name", .s c.name), (str "checked", .b c.checked)])),
    (str "attachments", YVal.list (s.attachments.map YVal.s)),
    (str "evidence", YVal.list (s.evidence.map YVal.s)),
    (str "missing_items", YVal.list (s.missingItems.map fun m =>
      YVal.map [(str "id", .s m.id), (str "question", .s m.question),
        (str "section_id", .s m.sectionId)]))] (str "status")).getD YVal.null) =
    some s.status from by cases s.status <;> rfl]
  dsimp only
  rw [show ((ymGet [(str "status", YVal.s (match s.status with
      | DraftStatus.Complete => str "complete" | DraftStatus.Partial => str "partial")),
    (str "checkboxes", YVal.list (s.checkboxes.map fun c =>
      YVal.map [(str "name", .s c.name), (str "checked", .b c.checked)])),
    (str "attachments", YVal.list (s.attachments.map YVal.s)),
    (str "evidence", YVal.list (s.evidence.map YVal.s)),
    (str "missing_items", YVal.list (s.missingItems.map fun m =>
      YVal.map [(str "id", .s m.id), (str "question", .s m.question),
        (str "section_id", .s m.sectionId)]))] (str "checkboxes")).getD YVal.null) =
    YVal.list (s.checkboxes.map fun c =>
      YVal.map [(str "name", .s c.name), (str "checked", .b c.checked)]) from rfl]
  rw [parseCheckboxes_map s.checkboxes s.id]
  rw [show ((ymGet [(str "status", YVal.s (match s.status with
      | DraftStatus.Complete => str "complete" | DraftStatus.Partial => str "partial")),
    (str "checkboxes", YVal.list (s.checkboxes.map fun c =>
      YVal.map [(str "name", .s c.name), (str "checked", .b c.checked)])),
    (str "attachments", YVal.list (s.attachments.map YVal.s)),
    (str "evidence", YVal.list (s.evidence.map YVal.s)),
    (str "missing_items", YVal.list (s.missingItems.map fun m =>
      YVal.map [(str "id", .s m.id), (str "question", .s m.question),
        (str "section_id", .s m.sectionId)]))] (str "attachments")).getD YVal.null) =
    YVal.list (s.attachments.map YVal.s) from rfl]
  rw [parseStrList_map s.attachments s.id (str "attachments")]
  rw [show ((ymGet [(str "status", YVal.s (match s.status with
      | DraftStatus.Complete => str "complete" | DraftStatus.Partial => str "partial")),
    (str "checkboxes", YVal.list (s.checkboxes.map fun c =>
      YVal.map [(str "name", .s c.name), (str "checked", .b c.checked)])),
    (str "attachments", YVal.list (s.attachments.map YVal.s)),
    (str "evidence", YVal.list (s.evidence.map YVal.s)),
    (str "missing_items", YVal.list (s.missingItems.map fun m =>
      YVal.map [(str "id", .s m.id), (str "question", .s m.question),
        (str "section_id", .s m.sectionId)]))] (str "evidence")).getD YVal.null) =
    YVal.list (s.evidence.map YVal.s) from rfl]
  rw [parseStrList_map s.evidence s.id (str "evidence")]
  rw [show ((ymGet [(str "status", YVal.s (match s.status with
      | DraftStatus.Complete => str "complete" | DraftStatus.Partial => str "partial")),
    (str "checkboxes", YVal.list (s.checkboxes.map fun c =>
      YVal.map [(str "name", .s c.name), (str "checked", .b c.checked)])),
    (str "attachments", YVal.list (s.attachments.map YVal.s)),
    (str "evidence", YVal.list (s.evidence.map YVal.s)),
    (str "missing_items", YVal.list (s.missingItems.map fun m =>
      YVal.map [(str "id", .s m.id), (str "question", .s m.question),
        (str "section_id", .s m.sectionId)]))] (str "missing_items")).getD YVal.null) =
    YVal.list (s.missingItems.map fun m =>
      YVal.map [(str "id", .s m.id), (str "question", .s m.question),
        (str "section_id", .s m.sectionId)]) from rfl]
  rw [parseMissing_map s.missingItems
    (fun m hm => ⟨(hmi m hm).2.2.1, (hmi m hm).2.2.2⟩) s.id]
  rfl

theorem yamlFindAux_not_tick (c : Char) (rest : Str) (pos : Nat) (hc : c ≠ '`') :
    yamlFindAux (c :: rest) pos = yamlFindAux rest (pos + 1) := by
  conv_lhs => rw [yamlFindAux.eq_def]
  dsimp only
  rw [if_neg ?hn]
  case hn =>
    intro hpre
    rw [List.isPrefixOf_iff_prefix] at hpre
    obtain ⟨t, ht⟩ := hpre
    rw [show str "```yaml" ++ t = '`' :: (str "``yaml" ++ t) from rfl] at ht
    injection ht with h1 _
    exact hc h1.symm

theorem yamlFindAux_skip (P : Str) (hP : '`' ∉ P) : ∀ (T : Str) (pos : Nat),
    yamlFindAux (P ++ T) pos = yamlFindAux T (pos + P.length) := by
  induction P with
  | nil =>
    intro T pos
    rw [List.nil_append]
    rfl
  | cons c P' ih =>
    intro T pos
    rw [List.cons_append,
      yamlFindAux_not_tick c (P' ++ T) pos (fun h => hP (by rw [h]; simp)),
      ih (fun h => hP (List.mem_cons_of_mem c h)) T (pos + 1)]
    congr 1
    simp only [List.length_cons]
    omega

theorem findSub_boundary (M Z : Str) (hM : '`' ∉ M) :
    findSub (M ++ (str "\n```" ++ Z)) (str "\n```") = some M.length := by
  induction M with
  | nil =>
    rw [List.nil_append]
    rw [show str "\n```" ++ Z = '\n' :: (str "```" ++ Z) from rfl]
    simp only [findSub]
    rw [if_pos ?hp]
    · rfl
    case hp =>
      show (str "\n```").isPrefixOf ('\n' :: (str "```" ++ Z)) = true
      rw [show ('\n' :: (str "```" ++ Z)) = str "\n```" ++ Z from rfl]
      exact isPrefixOf_append_self _ _
  | cons c M' ih =>
    rw [List.cons_append]
    simp only [findSub]
    rw [if_neg ?hn]
    · rw [ih (fun hm => hM (List.mem_cons_of_mem c hm))]
      rfl
    case hn =>
      intro hpre
      rw [List.isPrefixOf_iff_prefix] at hpre
      obtain ⟨t, ht⟩ := hpre
      rw [show str "\n```" ++ t = '\n' :: ('`' :: (str "``" ++ t)) from rfl] at ht
      injection ht with h1 h2
      cases M' with
      | nil =>
        rw [List.nil_append] at h2
        rw [show str "\n```" ++ Z = '\n' :: (str "```" ++ Z) from rfl] at h2
        injection h2 with h3 _
        exact absurd h3 (by decide)
      | cons d M'' =>
        rw [List.cons_append] at h2
        injection h2 with h3 _
        exact hM (by
          rw [h3]
          exact List.mem_cons_of_mem c (List.mem_cons_self d M''))

theorem yamlFindAux_fence (M Z : Str) (pos : Nat)
    (hM : '`' ∉ M) (m0 : Char) (hMhead : M.head? = some m0) (hm0 : pySpace m0 = false) :
    yamlFindAux (str "```yaml" ++ ('\n' :: (M ++ (str "\n```" ++ Z)))) pos =
      some (pos + 12 + M.length, M) := by
  obtain ⟨Mt, rfl⟩ : ∃ Mt, M = m0 :: Mt := by
    cases M with
    | nil => exact absurd hMhead (by simp)
    | cons x t =>
      rw [List.head?_cons] at hMhead
      injection hMhead with h1
      subst h1
      exact ⟨t, rfl⟩
  rw [show str "```yaml" ++ ('\n' :: ((m0 :: Mt) ++ (str "\n```" ++ Z))) =
    '`' :: (str "``yaml" ++ ('\n' :: ((m0 :: Mt) ++ (str "\n```" ++ Z)))) from rfl]
  conv_lhs => rw [yamlFindAux.eq_def]
  dsimp only
  rw [if_pos ?hp]
  case hp =>
    show (str "```yaml").isPrefixOf
      ('`' :: (str "``yaml" ++ ('\n' :: ((m0 :: Mt) ++ (str "\n```" ++ Z))))) = true
    rw [show ('`' :: (str "``yaml" ++ ('\n' :: ((m0 :: Mt) ++ (str "\n```" ++ Z))))) =
      str "```yaml" ++ ('\n' :: ((m0 :: Mt) ++ (str "\n```" ++ Z))) from rfl]
    exact isPrefixOf_append_self _ _
  rw [show ('`' :: (str "``yaml" ++ ('\n' :: ((m0 :: Mt) ++ (str "\n```" ++ Z))))).drop 7 =
    '\n' :: ((m0 :: Mt) ++ (str "\n```" ++ Z)) from rfl]
  rw [show ('\n' :: ((m0 :: Mt) ++ (str "\n```" ++ Z))).takeWhile pySpace = ['\n'] from by
    rw [List.takeWhile_cons, if_pos (by decide), List.cons_append, List.takeWhile_cons,
      if_neg (by rw [hm0]; simp)]]
  rw [show lastIdxOf '\n' ['\n'] = some 0 from by decide]
  dsimp only
  rw [show ('\n' :: ((m0 :: Mt) ++ (str "\n```" ++ Z))).drop (0 + 1) =
    (m0 :: Mt) ++ (str "\n```" ++ Z) from rfl]
  rw [findSub_boundary (m0 :: Mt) Z hM]
  dsimp only
  rw [List.take_left]
  simp only [Option.some.injEq, Prod.mk.injEq]
  exact ⟨by omega, trivial⟩

theorem mem_joinNL (ls : List Str) (c : Char) (hc : c ∈ joinNL ls) :
    c = '\n' ∨ ∃ l ∈ ls, c ∈ l := by
  induction ls with
  | nil =>
    rw [show joinNL ([] : List Str) = [] from rfl] at hc
    cases hc
  | cons a t ih =>
    cases t with
    | nil =>
      rw [joinNL_single] at hc
      exact .inr ⟨a, List.mem_cons_self a [], hc⟩
    | cons b t2 =>
      rw [joinNL_cons _ _ (by simp)] at hc
      rcases List.mem_append.mp hc with h | h
      · exact .inr ⟨a, List.mem_cons_self a _, h⟩
      · rcases List.mem_cons.mp h with rfl | h2
        · exact .inl rfl
        · rcases ih h2 with h3 | ⟨l, hl, hcl⟩
          · exact .inl h3
          · exact .inr ⟨l, List.mem_cons_of_mem a hl, hcl⟩

theorem dumpMetaLines_no_tick (s : DraftSection)
    (hcb : ∀ c ∈ s.checkboxes, plainScalar c.name = true)
    (hat : ∀ a ∈ s.attachments, plainScalar a = true)
    (hev : ∀ e ∈ s.evidence, plainScalar e = true)
    (hmi : ∀ m ∈ s.missingItems, plainScalar m.id = true ∧ plainScalar m.question = true ∧
      plainScalar m.sectionId = true) :
    ∀ l ∈ dumpMetaLines s, '`' ∉ l := by
  intro l hl
  unfold dumpMetaLines at hl
  rcases List.mem_append.mp hl with h3 | hMI
  · rcases List.mem_append.mp h3 with h2 | hEV
    · rcases List.mem_append.mp h2 with hA | hAT
      · rcases List.mem_cons.mp hA with rfl | h2'
        · cases s.status
          · decide
          · decide
        · by_cases hcb0 : s.checkboxes = []
          · rw [if_pos hcb0, List.mem_singleton] at h2'
            subst h2'
            decide
          · rw [if_neg hcb0] at h2'
            rcases List.mem_cons.mp h2' with rfl | h3'
            · decide
            · obtain ⟨c, hcmem, hcl⟩ := List.mem_flatMap.mp h3'
              rcases List.mem_cons.mp hcl with rfl | hcl2
              · intro hmem
                rcases List.mem_append.mp hmem with h | h
                · exact absurd h (by decide)
                · exact (plainScalar_parts c.name (hcb c hcmem)).2.2.2.2 h
              · rw [List.mem_singleton] at hcl2
                subst hcl2
                intro hmem
                rcases List.mem_append.mp hmem with h | h
                · exact absurd h (by decide)
                · revert h
                  cases c.checked <;> decide
      · by_cases hat0 : s.attachments = []
        · rw [if_pos hat0, List.mem_singleton] at hAT
          subst hAT
          decide
        · rw [if_neg hat0] at hAT
          rcases List.mem_cons.mp hAT with rfl | h2'
          · decide
          · obtain ⟨a, hamem, rfl⟩ := List.mem_map.mp h2'
            intro hmem
            rcases List.mem_append.mp hmem with h | h
            · exact absurd h (by decide)
            · exact (plainScalar_parts a (hat a hamem)).2.2.2.2 h
    · by_cases hev0 : s.evidence = []
      · rw [if_pos hev0, List.mem_singleton] at hEV
        subst hEV
        decide
      · rw [if_neg hev0] at hEV
        rcases List.mem_cons.mp hEV with rfl | h2'
        · decide
        · obtain ⟨a, hamem, rfl⟩ := List.mem_map.mp h2'
          intro hmem
          rcases List.mem_append.mp hmem with h | h
          · exact absurd h (by decide)
          · exact (plainScalar_parts a (hev a hamem)).2.2.2.2 h
  · by_cases hmi0 : s.missingItems = []
    · rw [if_pos hmi0, List.mem_singleton] at hMI
      subst hMI
      decide
    · rw [if_neg hmi0] at hMI
      rcases List.mem_cons.mp hMI with rfl | h2'
      · decide
      · obtain ⟨m, hmmem, hml⟩ := List.mem_flatMap.mp h2'
        rcases List.mem_cons.mp hml with rfl | hml2
        · intro hmem
          rcases List.mem_append.mp hmem with h | h
          · exact absurd h (by decide)
          · exact (plainScalar_parts m.id (hmi m hmmem).1).2.2.2.2 h
        · rcases List.mem_cons.mp hml2 with rfl | hml3
          · intro hmem
            rcases List.mem_append.mp hmem with h | h
            · exact absurd h (by decide)
            · exact (plainScalar_parts m.question (hmi m hmmem).2.1).2.2.2.2 h
          · rw [List.mem_singleton] at hml3
            subst hml3
            intro hmem
            rcases List.mem_append.mp hmem with h | h
            · exact absurd h (by decide)
            · exact (plainScalar_parts m.sectionId (hmi m hmmem).2.2).2.2.2.2 h

theorem dumpMetaLines_cons (s : DraftSection) :
    dumpMetaLines s = (str "status: " ++ (match s.status with
      | DraftStatus.Complete => str "complete"
      | DraftStatus.Partial => str "partial")) ::
      ((if s.checkboxes = [] then [str "checkboxes: []"]
      else str "checkboxes:" :: s.checkboxes.flatMap fun c =>
        [str "- name: " ++ c.name, str "  checked: " ++ boolStr c.checked]) ++
      ((if s.attachments = [] then [str "attachments: []"]
      else str "attachments:" :: s.attachments.map (fun x => str "- " ++ x)) ++
      ((if s.evidence = [] then [str "evidence: []"]
      else str "evidence:" :: s.evidence.map (fun x => str "- " ++ x)) ++
      (if s.missingItems = [] then [str "missing_items: []"]
      else str "missing_items:" :: s.missingItems.flatMap fun m =>
        [str "- id: " ++ m.id, str "  question: " ++ m.question,
         str "  section_id: " ++ m.sectionId])))) := by
  unfold dumpMetaLines
  simp only [List.cons_append, List.append_assoc]

theorem metaText_no_tick (s : DraftSection)
    (hcb : ∀ c ∈ s.checkboxes, plainScalar c.name = true)
    (hat : ∀ a ∈ s.attachments, plainScalar a = true)
    (hev : ∀ e ∈ s.evidence, plainScalar e = true)
    (hmi : ∀ m ∈ s.missingItems, plainScalar m.id = true ∧ plainScalar m.question = true ∧
      plainScalar m.sectionId = true) :
    '`' ∉ metaText s := by
  intro hmem
  rcases mem_joinNL (dumpMetaLines s) '`' hmem with h | ⟨l, hl, hcl⟩
  · exact absurd h (by decide)
  · exact dumpMetaLines_no_tick s hcb hat hev hmi l hl hcl

theorem metaText_head (s : DraftSection) : (metaText s).head? = some 's' := by
  rw [show metaText s = joinNL (dumpMetaLines s) from rfl, dumpMetaLines_cons,
    joinNL_cons _ _ ?tailne]
  case tailne =>
    refine List.append_ne_nil_of_left_ne_nil ?_ _
    by_cases h : s.checkboxes = [] <;> simp [h]
  cases s.status <;> rfl

theorem parseDraftChunk_serialized (s : DraftSection) (hser : sectionSerializable s = true)
    (hEM : s.evidence ≠ [] ∨ s.missingItems ≠ []) (Z : Str)
    (hZ : stripWS Z = stripWS s.body) :
    parseDraftChunk ((secHeader s ++ ['\n']) ++ (str "```yaml" ++
      ('\n' :: (metaText s ++ (str "\n```" ++ Z))))) s.id s.title =
      .ok ⟨s.id, s.title, s.status, s.checkboxes, s.attachments, s.evidence,
        s.missingItems, stripWS s.body⟩ := by
  obtain ⟨hid, htitle, hbody, hcb, hat, hev, hmi⟩ := sectionSerializable_parts s hser
  have hmi3 : ∀ m ∈ s.missingItems, plainScalar m.id = true ∧ plainScalar m.question = true ∧
      plainScalar m.sectionId = true :=
    fun m hm => ⟨(hmi m hm).1, (hmi m hm).2.1, (hmi m hm).2.2.1⟩
  have hPnt : '`' ∉ (secHeader s ++ ['\n']) := by
    intro hmem
    rcases List.mem_append.mp hmem with h | h
    · unfold secHeader at h
      rcases List.mem_append.mp h with h | h
      · rcases List.mem_append.mp h with h | h
        · rcases List.mem_append.mp h with h | h
          · exact absurd h (by decide)
          · have hx := (idOk_parts s.id hid).2 '`' h
            exact absurd hx (by decide)
        · exact absurd h (by decide)
      · exact ((titleOk_parts s.title htitle).2.2.2 '`' h).2 rfl
    · exact absurd h (by decide)
  have hfence := yamlFindAux_fence (metaText s) Z ((secHeader s ++ ['\n']).length)
    (metaText_no_tick s hcb hat hev hmi3) 's' (metaText_head s) (by decide)
  unfold parseDraftChunk
  rw [show yamlFind ((secHeader s ++ ['\n']) ++ (str "```yaml" ++
      ('\n' :: (metaText s ++ (str "\n```" ++ Z))))) =
    some ((secHeader s ++ ['\n']).length + 12 + (metaText s).length, metaText s) from by
    unfold yamlFind
    rw [yamlFindAux_skip (secHeader s ++ ['\n']) hPnt _ 0]
    rw [show (0 + (secHeader s ++ ['\n']).length) = (secHeader s ++ ['\n']).length from by
      omega]
    exact hfence]
  dsimp only
  rw [parseMetadata_meta s hser]
  have hdropZ : ((secHeader s ++ ['\n']) ++ (str "```yaml" ++
      ('\n' :: (metaText s ++ (str "\n```" ++ Z))))).drop
      ((secHeader s ++ ['\n']).length + 12 + (metaText s).length) = Z := by
    rw [show ((secHeader s ++ ['\n']) ++ (str "```yaml" ++
        ('\n' :: (metaText s ++ (str "\n```" ++ Z))))) =
      ((secHeader s ++ ['\n']) ++ (str "```yaml" ++
        ('\n' :: (metaText s ++ str "\n```")))) ++ Z from by simp]
    rw [show (secHeader s ++ ['\n']).length + 12 + (metaText s).length =
      ((secHeader s ++ ['\n']) ++ (str "```yaml" ++
        ('\n' :: (metaText s ++ str "\n```")))).length from by
      simp only [List.length_append, List.length_cons,
        show (str "```yaml").length = 7 from rfl, show (str "\n```").length = 4 from rfl,
        List.length_singleton]
      omega]
    exact List.drop_left _ _
  rw [show ∀ (F : Metadata → Except DraftErr DraftSection),
      (Except.ok (⟨s.status, s.checkboxes, s.attachments, s.evidence,
        s.missingItems⟩ : Metadata) >>= F) =
      F ⟨s.status, s.checkboxes, s.attachments, s.evidence, s.missingItems⟩
    from fun F => rfl]
  dsimp only
  rw [hdropZ, hZ]
  unfold mkDraftSection
  rw [if_pos ?hinv]
  case hinv =>
    show DraftSection.evidenceOrMissing _ = true
    unfold DraftSection.evidenceOrMissing
    rcases hEM with h | h
    · simp [h]
    · simp [h]

end MRM
